import Mathlib

/-!
# QOI2 image codec (`qoi.h`): shallow embedding and verified properties

The C functions `qoi_write_32`, `qoi_read_32`, `qoi_encode` and `qoi_decode`
are embedded as pure Lean functions.

Conventions of the embedding:

* a byte is a `Nat` below 256; a C `int` is an `Int`; conversions to
  `unsigned char` / `signed char` and 32-bit unsigned products are written
  out with an explicit `%`;
* a byte buffer is a `List Nat`; the encoder's output cursor `p` is the
  length of the list written so far, as the C code only ever writes
  `bytes[p++]`;
* the decoder reads its input through the checked accessor `data[i]?`; a
  read at an index `≥ size` (undefined behaviour in C) is the distinguished
  outcome `fault`;
* the pixel loop of the decoder is run on a fuel counter; running out of
  fuel is the distinguished outcome `out_of_fuel`, and is proved never to
  happen for the fuel `qoi_decode` supplies;
* the unions `qoi_rgba_t` are read on a little-endian machine;
* `malloc` is assumed to succeed and the pointer arguments are non-`NULL`.
-/

namespace QOI

/-! ## Data model -/

/-- The image descriptor `qoi_desc` (`unsigned int width, height;
`unsigned char channels, colorspace`). -/
structure qoi_desc where
  width : Nat
  height : Nat
  channels : Nat
  colorspace : Nat
deriving DecidableEq

/-- The pixel union `qoi_rgba_t`, seen through its `rgba` member. -/
structure qoi_rgba_t where
  r : Nat
  g : Nat
  b : Nat
  a : Nat
deriving DecidableEq

/-- The `v` member of the union `qoi_rgba_t`: the four bytes r, g, b, a read as
one little-endian `unsigned int`. -/
def qoi_rgba_t.v (c : qoi_rgba_t) : Nat :=
  c.r + c.g * 2 ^ 8 + c.b * 2 ^ 16 + c.a * 2 ^ 24

def QOI_OP_LUMA : Nat := 0x00
def QOI_OP_INDEX : Nat := 0x80
def QOI_OP_LUMA2 : Nat := 0xc0
def QOI_OP_LUMA3 : Nat := 0xe0
def QOI_OP_RUN : Nat := 0xf0
def QOI_OP_RUN2 : Nat := 0xf8
def QOI_OP_GRAY : Nat := 0xfc
def QOI_OP_RGB : Nat := 0xfd
def QOI_OP_A : Nat := 0xfe
def QOI_OP_END : Nat := 0xff

/-- The magic word: `'q' << 24 | 'o' << 16 | 'i' << 8 | '2'`. -/
def QOI_MAGIC : Nat := (0x71 <<< 24) ||| (0x6f <<< 16) ||| (0x69 <<< 8) ||| 0x32

def QOI_HEADER_SIZE : Nat := 14

def QOI_PIXELS_MAX : Nat := 350000000

def qoi_padding : List Nat := [0xff, 0xff, 0xff, 0xff]

/-- The macro `QOI_COLOR_HASH(C)`: `((C.v * 2654435769) >> 22) & 1023`. The
constant does not fit an `int`, so the product is taken in 64 bits. -/
def QOI_COLOR_HASH (c : qoi_rgba_t) : Nat :=
  (((c.v * 2654435769) % 2 ^ 64) >>> 22) &&& 1023

/-- Conversion of a C `int` to `unsigned char`. -/
def to_u8 (x : Int) : Nat := (x % 256).toNat

/-- Conversion of a C `int` to `signed char` (two's-complement wraparound). -/
def to_s8 (x : Int) : Int := (x + 128) % 256 - 128

/-- The all-zero pixel that `QOI_ZEROARR(index)` leaves in every slot. -/
def qoi_zero_px : qoi_rgba_t := { r := 0, g := 0, b := 0, a := 0 }

/-- The initial previous pixel `{0, 0, 0, 255}`. -/
def qoi_start_px : qoi_rgba_t := { r := 0, g := 0, b := 0, a := 255 }

/-! ## Header codec -/

/-- The function `qoi_write_32(bytes, &p, v)`: four stores at `bytes[p++]`. -/
def qoi_write_32 (bytes : List Nat) (v : Nat) : List Nat :=
  bytes ++ [((0xff000000 &&& v) >>> 24) % 256, ((0x00ff0000 &&& v) >>> 16) % 256,
            ((0x0000ff00 &&& v) >>> 8) % 256, (0x000000ff &&& v) % 256]

/-- The function `qoi_read_32(bytes, &p)`: the caller's cursor advances by four.
`none` is a read outside the buffer. -/
def qoi_read_32 (bytes : List Nat) (p : Nat) : Option Nat :=
  match bytes[p]?, bytes[p + 1]?, bytes[p + 2]?, bytes[p + 3]? with
  | some a, some b, some c, some d =>
    some (((a <<< 24) ||| (b <<< 16) ||| (c <<< 8) ||| d) % 2 ^ 32)
  | _, _, _, _ => none

/-! ## Encoder -/

/-- The local variables of `qoi_encode` that live across loop iterations.
`bytes` is the output written so far (`p = bytes.length`). -/
structure qoi_encoder where
  bytes : List Nat
  run : Nat
  index_lookup : List Nat
  index_pos : Nat
  index : List qoi_rgba_t
  px : qoi_rgba_t
  px_prev : qoi_rgba_t

/-- The descriptor test at the top of `qoi_encode` (the same test follows the
header parse in `qoi_decode`): `true` means the call returns `NULL`. -/
def qoi_desc_rejected (desc : qoi_desc) : Bool :=
  decide (desc.width = 0 ∨ desc.height = 0 ∨
    desc.channels < 3 ∨ desc.channels > 4 ∨
    desc.colorspace > 1 ∨
    desc.height ≥ QOI_PIXELS_MAX / desc.width)

/-- The value of `max_size`, the size of the buffer `qoi_encode` allocates
(computed in `unsigned int`). -/
def qoi_max_size (desc : qoi_desc) : Nat :=
  if desc.channels = 3 then
    (desc.width * desc.height * 4 + QOI_HEADER_SIZE + 4) % 2 ^ 32
  else
    (desc.width * desc.height * 6 + QOI_HEADER_SIZE + 4) % 2 ^ 32

/-- The chunk selection cascade of `qoi_encode` (the `signed char vg, vg_r, vg_b`
block), as the bytes it stores. In each branch the biased values are
non-negative by the branch condition, so `Int.toNat` is the identity on them. -/
def qoi_encode_diff (px px_prev : qoi_rgba_t) : List Nat :=
  let vg : Int := to_s8 ((px.g : Int) - px_prev.g)
  let vg_r : Int := to_s8 ((px.r : Int) - px_prev.r - vg)
  let vg_b : Int := to_s8 ((px.b : Int) - px_prev.b - vg)
  if vg ≥ -4 ∧ vg < 0 ∧ vg_r ≥ -1 ∧ vg_r ≤ 2 ∧ vg_b ≥ -1 ∧ vg_b ≤ 2 then
    [(QOI_OP_LUMA ||| ((vg + 4).toNat <<< 4) ||| ((vg_r + 1).toNat <<< 2) |||
        (vg_b + 1).toNat) % 256]
  else if vg ≥ 0 ∧ vg ≤ 3 ∧ vg_r ≥ -2 ∧ vg_r ≤ 1 ∧ vg_b ≥ -2 ∧ vg_b ≤ 1 then
    [(QOI_OP_LUMA ||| ((vg + 4).toNat <<< 4) ||| ((vg_r + 2).toNat <<< 2) |||
        (vg_b + 2).toNat) % 256]
  else if px.g = px.r ∧ px.g = px.b then
    [QOI_OP_GRAY, px.g]
  else if vg_r ≥ -8 ∧ vg_r ≤ 7 ∧ vg ≥ -16 ∧ vg ≤ 15 ∧ vg_b ≥ -8 ∧ vg_b ≤ 7 then
    [(QOI_OP_LUMA2 ||| (vg + 16).toNat) % 256,
     (((vg_r + 8).toNat <<< 4) ||| (vg_b + 8).toNat) % 256]
  else if vg_r ≥ -32 ∧ vg_r ≤ 31 ∧ vg_b ≥ -32 ∧ vg_b ≤ 31 then
    [(QOI_OP_LUMA3 ||| ((vg_r + 32).toNat >>> 2)) % 256,
     ((((vg_r + 32).toNat &&& 3) <<< 6) ||| (vg_b + 32).toNat) % 256,
     to_u8 (vg + 128)]
  else
    [QOI_OP_RGB, px.r, px.g, px.b]

/-- The pending-run flush at the head of the `else` branch of the pixel loop
(`if (run > 0) { run--; ... run = 0; }`). -/
def qoi_encode_flush (s : qoi_encoder) : qoi_encoder :=
  if s.run > 0 then
    let run := s.run - 1
    if run < 8 then
      { s with bytes := s.bytes ++ [(QOI_OP_RUN ||| run) % 256], run := 0 }
    else
      { s with bytes := s.bytes ++
          [(QOI_OP_RUN2 ||| ((run >>> 8) &&& 3)) % 256, (run &&& 0xff) % 256], run := 0 }
  else s

/-- The alpha preamble of `qoi_encode`:
`if (px.rgba.a != px_prev.rgba.a) { bytes[p++] = QOI_OP_A; bytes[p++] = px.rgba.a; }`. -/
def qoi_encode_alpha (px px_prev : qoi_rgba_t) : List Nat :=
  if px.a ≠ px_prev.a then [QOI_OP_A, px.a] else []

/-- The body of the pixel loop of `qoi_encode` after the pixel load: `px` is the pixel
just loaded (already stored in `s.px`) and `last` the value of `px_pos == px_end`. -/
def qoi_encode_body (px : qoi_rgba_t) (last : Bool) (s : qoi_encoder) : qoi_encoder :=
  if px.v = s.px_prev.v then
    let run := s.run + 1
    if run = 1024 ∨ last = true then
      let run := run - 1
      { s with
        bytes := s.bytes ++
          [(QOI_OP_RUN2 ||| ((run >>> 8) &&& 3)) % 256, (run &&& 0xff) % 256]
        run := 0 }
    else
      { s with run := run }
  else
    let hash := QOI_COLOR_HASH px
    let s := qoi_encode_flush s
    if (s.index.getD (s.index_lookup.getD hash 0) qoi_zero_px).v = px.v then
      { s with
        bytes := s.bytes ++ [(QOI_OP_INDEX ||| s.index_lookup.getD hash 0) % 256]
        px_prev := px }
    else
      { s with
        index_lookup := s.index_lookup.set hash (s.index_pos % 256)
        index := s.index.set s.index_pos px
        index_pos := (s.index_pos + 1) &&& 63
        bytes := s.bytes ++ qoi_encode_alpha px s.px_prev ++ qoi_encode_diff px s.px_prev
        px_prev := px }

/-- The pixel load at the head of the loop body of `qoi_encode`, at offset `px_pos`:
`px.rgba.a` keeps its value unless `channels == 4`. -/
def qoi_encode_load (pixels : List Nat) (channels px_pos : Nat) (px : qoi_rgba_t) :
    qoi_rgba_t :=
  { r := pixels.getD (px_pos + 0) 0
    g := pixels.getD (px_pos + 1) 0
    b := pixels.getD (px_pos + 2) 0
    a := if channels = 4 then pixels.getD (px_pos + 3) 0 else px.a }

/-- One iteration of the pixel loop of `qoi_encode`, at offset `px_pos`. -/
def qoi_encode_pixel (pixels : List Nat) (channels px_end px_pos : Nat)
    (s : qoi_encoder) : qoi_encoder :=
  let px := qoi_encode_load pixels channels px_pos s.px
  qoi_encode_body px (decide (px_pos = px_end)) { s with px := px }

/-- The loop `for (px_pos = 0; px_pos < px_len; px_pos += channels)` of
`qoi_encode`, from offset `px_pos` on. The counter `fuel` bounds the number of
iterations; `px_len` is always enough, as `px_pos` grows in every iteration. -/
def qoi_encode_loop (pixels : List Nat) (channels px_len px_end : Nat) :
    Nat → Nat → qoi_encoder → qoi_encoder
  | 0, _, s => s
  | fuel + 1, px_pos, s =>
    if px_pos < px_len then
      qoi_encode_loop pixels channels px_len px_end fuel (px_pos + channels)
        (qoi_encode_pixel pixels channels px_end px_pos s)
    else s

/-- The state of `qoi_encode` when it enters the pixel loop: header written,
`index` and `index_lookup` zeroed, `px = px_prev = {0,0,0,255}`. -/
def qoi_encode_start (desc : qoi_desc) : qoi_encoder :=
  { bytes :=
      qoi_write_32 (qoi_write_32 (qoi_write_32 [] QOI_MAGIC) desc.width) desc.height ++
        [desc.channels, desc.colorspace]
    run := 0
    index_lookup := List.replicate 1024 0
    index_pos := 0
    index := List.replicate 64 qoi_zero_px
    px := qoi_start_px
    px_prev := qoi_start_px }

/-- The function `qoi_encode(data, desc, &out_len)`: `none` is the `NULL` return, and
`some bytes` the returned buffer with `out_len = bytes.length`. -/
def qoi_encode (data : List Nat) (desc : qoi_desc) : Option (List Nat) :=
  if qoi_desc_rejected desc then none
  else
    let px_len := (desc.width * desc.height * desc.channels) % 2 ^ 32
    let px_end := px_len - desc.channels
    let s := qoi_encode_loop data desc.channels px_len px_end px_len 0 (qoi_encode_start desc)
    some (s.bytes ++ qoi_padding)

/-! ## Decoder -/

/-- The local variables of `qoi_decode` that live across loop iterations.
`pixels` is the part of the output buffer written so far (the C code writes
it front to back, `px_pos` being the next offset). `tags` is a ghost
field, absent from the C code and never read by the model: the first byte
`b1` of every chunk dispatched so far, oldest first. -/
structure qoi_decoder where
  pixels : List Nat
  px_pos : Nat
  p : Nat
  run : Nat
  index_pos : Nat
  index : List qoi_rgba_t
  px : qoi_rgba_t
  tags : List Nat

/-- How the chunk dispatch leaves the loop body of `qoi_decode`. -/
inductive qoi_flow where
  /-- Fall through to the pixel write at the end of the body. -/
  | emit (s : qoi_decoder)
  /-- The `continue` of `QOI_OP_A`. -/
  | again (s : qoi_decoder)
  /-- The `break` of `QOI_OP_END`. -/
  | stop (s : qoi_decoder)

/-- The decoder state carried by a `qoi_flow`. -/
def qoi_flow.state : qoi_flow → qoi_decoder
  | .emit s => s
  | .again s => s
  | .stop s => s

/-- The store `index[index_pos++ & 63] = px` of `qoi_decode`. -/
def qoi_decode_insert (s : qoi_decoder) (px : qoi_rgba_t) : qoi_decoder :=
  { s with px := px, index := s.index.set (s.index_pos &&& 63) px, index_pos := s.index_pos + 1 }

/-- The pixel arithmetic of the `QOI_OP_LUMA` branch of `qoi_decode`. -/
def qoi_luma (px : qoi_rgba_t) (b1 : Nat) : qoi_rgba_t :=
  let vg : Int := (((b1 >>> 4) &&& 7 : Nat) : Int) - 4
  let g := to_u8 (px.g + vg)
  if vg < 0 then
    { px with
      g := g
      r := to_u8 (px.r + (vg - 1 + (((b1 >>> 2) &&& 3 : Nat) : Int)))
      b := to_u8 (px.b + (vg - 1 + ((b1 &&& 3 : Nat) : Int))) }
  else
    { px with
      g := g
      r := to_u8 (px.r + (vg - 2 + (((b1 >>> 2) &&& 3 : Nat) : Int)))
      b := to_u8 (px.b + (vg - 2 + ((b1 &&& 3 : Nat) : Int))) }

/-- The pixel arithmetic of the `QOI_OP_LUMA2` branch of `qoi_decode`. -/
def qoi_luma2 (px : qoi_rgba_t) (b1 b2 : Nat) : qoi_rgba_t :=
  let vg : Int := ((b1 &&& 0x1f : Nat) : Int) - 16
  { px with
    r := to_u8 (px.r + (vg - 8 + (((b2 >>> 4) &&& 0x0f : Nat) : Int)))
    g := to_u8 (px.g + vg)
    b := to_u8 (px.b + (vg - 8 + ((b2 &&& 0x0f : Nat) : Int))) }

/-- The pixel arithmetic of the `QOI_OP_LUMA3` branch of `qoi_decode`; `b3` is the third
byte of the chunk, of which `vg = b3 - 128`. -/
def qoi_luma3 (px : qoi_rgba_t) (b1 b2 b3 : Nat) : qoi_rgba_t :=
  let vg : Int := (b3 : Int) - 128
  { px with
    r := to_u8 (px.r +
      (vg - 32 + (((((b1 &&& 0x0f) <<< 2) ||| ((b2 >>> 6) &&& 3) : Nat)) : Int)))
    g := to_u8 (px.g + vg)
    b := to_u8 (px.b + (vg - 32 + ((b2 &&& 0x3f : Nat) : Int))) }

/-- The branch `else if (p < chunks_len) { int b1 = bytes[p++]; ... }` of the
loop body of `qoi_decode`. `none` is a read outside the buffer. -/
def qoi_decode_chunk (bytes : List Nat) (s : qoi_decoder) : Option qoi_flow :=
  match bytes[s.p]? with
  | none => none
  | some b1 =>
    let s := { s with p := s.p + 1, tags := s.tags ++ [b1] }
    if b1 < 0x80 then
      some (.emit (qoi_decode_insert s (qoi_luma s.px b1)))
    else if b1 < 0xc0 then
      some (.emit { s with px := s.index.getD (b1 &&& 63) qoi_zero_px })
    else if b1 < 0xe0 then
      match bytes[s.p]? with
      | none => none
      | some b2 =>
        some (.emit (qoi_decode_insert { s with p := s.p + 1 } (qoi_luma2 s.px b1 b2)))
    else if b1 < 0xf0 then
      match bytes[s.p]?, bytes[s.p + 1]? with
      | some b2, some b3 =>
        some (.emit (qoi_decode_insert { s with p := s.p + 2 } (qoi_luma3 s.px b1 b2 b3)))
      | _, _ => none
    else if b1 < 0xf8 then
      some (.emit { s with run := b1 &&& 7 })
    else if b1 < 0xfc then
      match bytes[s.p]? with
      | none => none
      | some b2 => some (.emit { s with p := s.p + 1, run := ((b1 &&& 3) <<< 8) ||| b2 })
    else if b1 = QOI_OP_GRAY then
      match bytes[s.p]? with
      | none => none
      | some vg =>
        some (.emit (qoi_decode_insert { s with p := s.p + 1 }
          { s.px with r := vg % 256, g := vg % 256, b := vg % 256 }))
    else if b1 = QOI_OP_RGB then
      match bytes[s.p]?, bytes[s.p + 1]?, bytes[s.p + 2]? with
      | some r, some g, some b =>
        some (.emit (qoi_decode_insert { s with p := s.p + 3 } { s.px with r := r, g := g, b := b }))
      | _, _, _ => none
    else if b1 = QOI_OP_A then
      match bytes[s.p]? with
      | none => none
      | some a => some (.again { s with p := s.p + 1, px := { s.px with a := a } })
    else
      some (.stop s)

/-- The part of the loop body of `qoi_decode` before the pixel write:
`if (run > 0) run--; else if (p < chunks_len) { ... }`. -/
def qoi_decode_step (bytes : List Nat) (chunks_len : Nat) (s : qoi_decoder) :
    Option qoi_flow :=
  if s.run > 0 then some (.emit { s with run := s.run - 1 })
  else if s.p < chunks_len then qoi_decode_chunk bytes s
  else some (.emit s)

/-- The pixel write that ends the loop body of `qoi_decode`. -/
def qoi_decode_write (channels : Nat) (s : qoi_decoder) : qoi_decoder :=
  { s with
    pixels := s.pixels ++ [s.px.r, s.px.g, s.px.b] ++ (if channels = 4 then [s.px.a] else [])
    px_pos := s.px_pos + channels }

/-- How the pixel loop of `qoi_decode` ends in the model. -/
inductive qoi_loop_result where
  /-- A read outside the input buffer. -/
  | fault
  /-- The fuel ran out with `px_pos < px_len`. -/
  | out_of_fuel (s : qoi_decoder)
  /-- The loop ended (by its condition or by `break`) in state `s`. -/
  | done (s : qoi_decoder)

/-- The loop `for (px_pos = 0; px_pos < px_len;) { ... }` of `qoi_decode`, run on
a fuel counter. -/
def qoi_decode_loop (bytes : List Nat) (chunks_len px_len channels : Nat) :
    Nat → qoi_decoder → qoi_loop_result
  | 0, s => if s.px_pos < px_len then .out_of_fuel s else .done s
  | fuel + 1, s =>
    if s.px_pos < px_len then
      match qoi_decode_step bytes chunks_len s with
      | none => .fault
      | some (.emit s1) =>
        qoi_decode_loop bytes chunks_len px_len channels fuel (qoi_decode_write channels s1)
      | some (.again s1) => qoi_decode_loop bytes chunks_len px_len channels fuel s1
      | some (.stop s1) => .done s1
    else .done s

/-- The state of `qoi_decode` when it enters the pixel loop: the 14 header bytes
consumed, `index` zeroed, `px = {0,0,0,255}`. -/
def qoi_decode_start : qoi_decoder :=
  { pixels := []
    px_pos := 0
    p := 14
    run := 0
    index_pos := 0
    index := List.replicate 64 qoi_zero_px
    px := qoi_start_px
    tags := [] }

/-- What a call of `qoi_decode` comes to in the model. -/
inductive qoi_decode_result where
  /-- The call returns `NULL`. -/
  | null
  /-- A read outside the input buffer. -/
  | fault
  /-- The pixel loop ran out of fuel. -/
  | out_of_fuel
  /-- The call returns the pixel buffer, after filling `*desc` with `desc`;
  `final` is the state in which the pixel loop ended, and the buffer
  holds `final.pixels` in its first `final.px_pos` bytes. -/
  | ok (desc : qoi_desc) (final : qoi_decoder)

/-- The function `qoi_decode(data, size, desc, channels)` with `size = data.length`. -/
def qoi_decode (data : List Nat) (channels : Int) : qoi_decode_result :=
  let size := data.length
  if (channels ≠ 0 ∧ channels ≠ 3 ∧ channels ≠ 4) ∨ size < QOI_HEADER_SIZE + 4 then .null
  else
    match qoi_read_32 data 0, qoi_read_32 data 4, qoi_read_32 data 8, data[12]?, data[13]? with
    | some header_magic, some width, some height, some ch, some cs =>
      let desc : qoi_desc := { width := width, height := height, channels := ch, colorspace := cs }
      if desc.width = 0 ∨ desc.height = 0 ∨
          desc.channels < 3 ∨ desc.channels > 4 ∨
          desc.colorspace > 1 ∨
          header_magic ≠ QOI_MAGIC ∨
          desc.height ≥ QOI_PIXELS_MAX / desc.width then .null
      else
        let channels : Nat := if channels = 0 then desc.channels else channels.toNat
        let px_len := (desc.width * desc.height * channels) % 2 ^ 32
        let chunks_len := size - 4
        match qoi_decode_loop data chunks_len px_len channels (px_len + size) qoi_decode_start with
        | .fault => .fault
        | .out_of_fuel _ => .out_of_fuel
        | .done s => .ok desc s
    | _, _, _, _, _ => .fault

/-! ## Definitions used to state and prove the properties -/

/-- The chunk kinds of `qoi_decode` whose branch ends in `index[index_pos++ & 63] = px`:
`QOI_OP_LUMA`, `QOI_OP_LUMA2`, `QOI_OP_LUMA3`, `QOI_OP_GRAY` and `QOI_OP_RGB`, told by the
first byte as the tag dispatch of `qoi_decode` tells them. -/
def qoi_tag_inserts (b1 : Nat) : Bool :=
  decide (b1 < 0x80 ∨ (0xc0 ≤ b1 ∧ b1 < 0xf0) ∨ b1 = QOI_OP_GRAY ∨ b1 = QOI_OP_RGB)

/-- The termination measure of the decoder loop: output bytes still to write plus input
bytes still to read. -/
def qoi_decode_measure (chunks_len px_len : Nat) (s : qoi_decoder) : Nat :=
  (px_len - s.px_pos) + (chunks_len + 4 - s.p)

/-- The decoder loop on exactly the fuel its termination measure asks for. -/
def qoi_decode_run (bytes : List Nat) (chunks_len px_len channels : Nat) (s : qoi_decoder) :
    qoi_loop_result :=
  qoi_decode_loop bytes chunks_len px_len channels (qoi_decode_measure chunks_len px_len s) s

/-- The header test of `qoi_decode`, on the parsed fields. -/
def qoi_header_rejected (magic w h ch cs : Nat) : Prop :=
  w = 0 ∨ h = 0 ∨ ch < 3 ∨ ch > 4 ∨ cs > 1 ∨ magic ≠ QOI_MAGIC ∨ h ≥ QOI_PIXELS_MAX / w

instance (magic w h ch cs : Nat) : Decidable (qoi_header_rejected magic w h ch cs) := by
  unfold qoi_header_rejected; infer_instance

/-- The output channel count `qoi_decode` settles on. -/
def qoi_out_channels (channels : Int) (ch : Nat) : Nat :=
  if channels = 0 then ch else channels.toNat

/-- No four consecutive bytes of `l` are all `0xff`. -/
def qoi_no_ff_quad (l : List Nat) : Prop :=
  ∀ i, ¬ (l[i]? = some 0xff ∧ l[i + 1]? = some 0xff ∧ l[i + 2]? = some 0xff ∧
    l[i + 3]? = some 0xff)

/-- Nothing, or one chunk: a first byte that is not `0xff` and at most three more bytes. -/
def qoi_soft_chunk (c : List Nat) : Prop :=
  c = [] ∨ ∃ t d, c = t :: d ∧ t ≠ 0xff ∧ d.length ≤ 3

/-- The table invariant of the encoder: the cursor and every entry of `index_lookup` are
below 64. -/
def qoi_encoder_tables_ok (s : qoi_encoder) : Prop :=
  s.index_pos < 64 ∧ ∀ x ∈ s.index_lookup, x < 64

/-- The 14 header bytes `qoi_encode` writes. -/
def qoi_header_bytes (desc : qoi_desc) : List Nat :=
  [0x71, 0x6f, 0x69, 0x32,
   desc.width / 2 ^ 24 % 256, desc.width / 2 ^ 16 % 256, desc.width / 2 ^ 8 % 256,
   desc.width % 256,
   desc.height / 2 ^ 24 % 256, desc.height / 2 ^ 16 % 256, desc.height / 2 ^ 8 % 256,
   desc.height % 256,
   desc.channels, desc.colorspace]

/-- The invariant of the pixel loop of `qoi_encode` behind the padding and size claims. -/
def qoi_encode_inv (desc : qoi_desc) (k : Nat) (s : qoi_encoder) : Prop :=
  qoi_encoder_tables_ok s ∧
  (∃ body, s.bytes = qoi_header_bytes desc ++ body ∧ qoi_no_ff_quad body) ∧
  s.bytes.length + (if s.run > 0 then 2 else 0) ≤
    14 + k * (if desc.channels = 3 then 4 else 6) ∧
  (desc.channels ≠ 4 → s.px.a = s.px_prev.a)

/-- All four components of the pixel are bytes. -/
def qoi_px_ok (px : qoi_rgba_t) : Prop :=
  px.r < 256 ∧ px.g < 256 ∧ px.b < 256 ∧ px.a < 256

/-- The bytes the pixel write of `qoi_decode` stores for the pixel `px`. -/
def qoi_px_bytes (channels : Nat) (px : qoi_rgba_t) : List Nat :=
  [px.r, px.g, px.b] ++ (if channels = 4 then [px.a] else [])

/-- The byte list `c` is the run chunk the encoder stores for the value `m` (`run - 1`):
a `QOI_OP_RUN` when `m < 8`, or a `QOI_OP_RUN2`. -/
def qoi_run_chunk (m : Nat) (c : List Nat) : Prop :=
  (m < 8 ∧ c = [(QOI_OP_RUN ||| m) % 256]) ∨
  (m < 1024 ∧ c = [(QOI_OP_RUN2 ||| ((m >>> 8) &&& 3)) % 256, (m &&& 0xff) % 256])

/-- Pixel `k` of the input buffer as the pixel load of `qoi_encode` reads it; with three
channels alpha is the 255 `px` starts with. -/
def qoi_pixel_at (pixels : List Nat) (ch k : Nat) : qoi_rgba_t :=
  qoi_encode_load pixels ch (k * ch) qoi_start_px

/-- The first `k` pixels of the image, written with `och` bytes per pixel. -/
def qoi_expected (pixels : List Nat) (ch och k : Nat) : List Nat :=
  ((List.range k).map (fun i => qoi_px_bytes och (qoi_pixel_at pixels ch i))).flatten

/-- The encoder side of the invariant, after `k` of the `n` pixels. -/
def qoi_enc_ok (pixels : List Nat) (ch n k : Nat) (s : qoi_encoder) : Prop :=
  qoi_encoder_tables_ok s ∧ (ch ≠ 4 → s.px.a = 255) ∧ qoi_px_ok s.px_prev ∧
  (∀ e ∈ s.index, qoi_px_ok e) ∧ s.run ≤ k ∧ s.run < 1024 ∧
  (∀ j, j < s.run → qoi_pixel_at pixels ch (k - 1 - j) = s.px_prev) ∧
  (k = n → s.run = 0)

/-- The decoder state `d` is in step with the encoder state `s` after `k` pixels: it has
read all the encoder wrote, and written all pixels but the pending run. -/
def qoi_sync (pixels : List Nat) (ch och k : Nat) (s : qoi_encoder) (d : qoi_decoder) : Prop :=
  d.p = s.bytes.length ∧ d.run = 0 ∧ d.px = s.px_prev ∧ d.index = s.index ∧
  d.index_pos % 64 = s.index_pos ∧ d.px_pos = (k - s.run) * och ∧
  d.pixels = qoi_expected pixels ch och (k - s.run)

/-- The loop invariant of the round trip: the encoder state is well formed, and on every
buffer that extends what the encoder wrote the decoder reaches a state in step with it. -/
def qoi_sim (pixels : List Nat) (ch och n k : Nat) (s : qoi_encoder) : Prop :=
  qoi_enc_ok pixels ch n k s ∧
  ∀ out, s.bytes <+: out → s.bytes.length + 4 ≤ out.length →
    ∃ d, qoi_decode_run out (out.length - 4) (n * och) och qoi_decode_start =
        qoi_decode_run out (out.length - 4) (n * och) och d ∧
      qoi_sync pixels ch och k s d

/-- A value reduced modulo 256 and read as a signed byte, as the specification words the
wraparound arithmetic. -/
def qoi_spec_s8 (x : Int) : Int :=
  if x % 256 < 128 then x % 256 else x % 256 - 256

/-- The kinds of chunk the cascade can select. -/
inductive qoi_chunk_kind where
  | luma
  | gray
  | luma2
  | luma3
  | rgb
deriving DecidableEq

/-- The selection table of the specification (first match wins), on
`vg = px.g - prev.g`, `vgr = px.r - prev.r - vg`, `vgb = px.b - prev.b - vg`, each read as a
signed byte. -/
def qoi_spec_select (px prev : qoi_rgba_t) : qoi_chunk_kind :=
  let vg := qoi_spec_s8 ((px.g : Int) - prev.g)
  let vgr := qoi_spec_s8 ((px.r : Int) - prev.r - vg)
  let vgb := qoi_spec_s8 ((px.b : Int) - prev.b - vg)
  if (-4 ≤ vg ∧ vg ≤ -1) ∧ (-1 ≤ vgr ∧ vgr ≤ 2) ∧ (-1 ≤ vgb ∧ vgb ≤ 2) then .luma
  else if (0 ≤ vg ∧ vg ≤ 3) ∧ (-2 ≤ vgr ∧ vgr ≤ 1) ∧ (-2 ≤ vgb ∧ vgb ≤ 1) then .luma
  else if px.r = px.g ∧ px.g = px.b then .gray
  else if (-16 ≤ vg ∧ vg ≤ 15) ∧ (-8 ≤ vgr ∧ vgr ≤ 7) ∧ (-8 ≤ vgb ∧ vgb ≤ 7) then .luma2
  else if (-32 ≤ vgr ∧ vgr ≤ 31) ∧ (-32 ≤ vgb ∧ vgb ≤ 31) then .luma3
  else .rgb

/-- The bit layouts of the wire format, written arithmetically, with the biases of the
specification: `0 ggg rr bb` (green bias 4; red/blue bias 1 for negative `vg`, else 2),
`11111100 | gray`, `110 ggggg | rrrr bbbb` (biases 16 and 8),
`1110 rrrr | rr bbbbbb | gggggggg` (biases 32 and 128), `11111101 | r | g | b`. -/
def qoi_spec_pack (kind : qoi_chunk_kind) (px prev : qoi_rgba_t) : List Nat :=
  let vg := qoi_spec_s8 ((px.g : Int) - prev.g)
  let vgr := qoi_spec_s8 ((px.r : Int) - prev.r - vg)
  let vgb := qoi_spec_s8 ((px.b : Int) - prev.b - vg)
  match kind with
  | .luma =>
    let bias : Int := if vg < 0 then 1 else 2
    [(vg + 4).toNat * 16 + (vgr + bias).toNat * 4 + (vgb + bias).toNat]
  | .gray => [0xfc, px.g]
  | .luma2 => [0xc0 + (vg + 16).toNat, (vgr + 8).toNat * 16 + (vgb + 8).toNat]
  | .luma3 =>
    [0xe0 + (vgr + 32).toNat / 4, (vgr + 32).toNat % 4 * 64 + (vgb + 32).toNat,
      (vg + 128).toNat]
  | .rgb => [0xfd, px.r, px.g, px.b]

/-- The tag range of each kind of chunk, as the decoder table of the specification gives
it by the prefix of the first byte. -/
def qoi_spec_tag_ok (kind : qoi_chunk_kind) (b1 : Nat) : Prop :=
  match kind with
  | .luma => b1 < 0x80
  | .gray => b1 = 0xfc
  | .luma2 => 0xc0 ≤ b1 ∧ b1 < 0xe0
  | .luma3 => 0xe0 ≤ b1 ∧ b1 < 0xf0
  | .rgb => b1 = 0xfd

/-- The state after `j` more iterations of the pixel loop of `qoi_decode` from the state `s`,
none of which leaves the loop; `none` when the loop ends (by its condition or by `break`)
or a read faults before that. -/
def qoi_decode_iter (bytes : List Nat) (chunks_len px_len channels : Nat) :
    Nat → qoi_decoder → Option qoi_decoder
  | 0, s => some s
  | j + 1, s =>
    if s.px_pos < px_len then
      match qoi_decode_step bytes chunks_len s with
      | some (.emit s1) =>
        qoi_decode_iter bytes chunks_len px_len channels j (qoi_decode_write channels s1)
      | some (.again s1) => qoi_decode_iter bytes chunks_len px_len channels j s1
      | _ => none
    else none

/-- The pixel loop of `qoi_decode`, started in `s`, comes through the state `d`. -/
def qoi_decode_reach (bytes : List Nat) (chunks_len px_len channels : Nat)
    (s d : qoi_decoder) : Prop :=
  ∃ j, qoi_decode_iter bytes chunks_len px_len channels j s = some d

/-- The cursor counts the inserting chunks dispatched so far, and the slots from the cursor
on (as long as the cursor has not wrapped) still hold the zero pixel. -/
def qoi_index_fresh (s : qoi_decoder) : Prop :=
  s.index_pos = (s.tags.filter qoi_tag_inserts).length ∧
  ∀ i, s.index_pos ≤ i → i < 64 → s.index.getD i qoi_zero_px = qoi_zero_px

/-- The loop invariant of the index agreement: the encoder state after `k` pixels is well
formed, and on every buffer that extends what the encoder wrote, the decoder loop comes from
its start to a state in step with it. -/
def qoi_sim_reach (pixels : List Nat) (ch och n k : Nat) (s : qoi_encoder) : Prop :=
  qoi_enc_ok pixels ch n k s ∧
  ∀ out, s.bytes <+: out → s.bytes.length + 4 ≤ out.length →
    ∃ d, qoi_decode_reach out (out.length - 4) (n * och) och qoi_decode_start d ∧
      qoi_sync pixels ch och k s d

/-! # Theorems -/

theorem or_shift_add (hi : Nat) (k : Nat) (lo : Nat) (h : lo < 2 ^ k) :
    (hi <<< k) ||| lo = hi * 2 ^ k + lo := by
  rw [Nat.shiftLeft_eq, Nat.mul_comm hi, Nat.mul_add_lt_is_or h]

theorem or_mul_add (hi : Nat) (k : Nat) (lo : Nat) (h : lo < 2 ^ k) :
    (hi * 2 ^ k) ||| lo = hi * 2 ^ k + lo := by
  rw [Nat.mul_comm hi, Nat.mul_add_lt_is_or h]

theorem be32_join (a b c d : Nat) (hb : b < 256) (hc : c < 256) (hd : d < 256) :
    (a <<< 24) ||| (b <<< 16) ||| (c <<< 8) ||| d = a * 16777216 + b * 65536 + c * 256 + d := by
  have h1 : (a <<< 24) ||| (b <<< 16) = a * 16777216 + b * 65536 := by
    rw [Nat.shiftLeft_eq b, or_shift_add a 24 _ (by norm_num; omega)]; norm_num
  have h2 : (a * 16777216 + b * 65536) ||| (c <<< 8) = a * 16777216 + b * 65536 + c * 256 := by
    rw [Nat.shiftLeft_eq c, show a * 16777216 + b * 65536 = (a * 256 + b) * 2 ^ 16 by omega,
      or_mul_add _ 16 _ (by norm_num; omega)]
  have h3 : (a * 16777216 + b * 65536 + c * 256) ||| d = a * 16777216 + b * 65536 + c * 256 + d := by
    rw [show a * 16777216 + b * 65536 + c * 256 = (a * 65536 + b * 256 + c) * 2 ^ 8 by omega,
      or_mul_add _ 8 _ (by norm_num; omega)]
  rw [h1, h2, h3]

theorem mask_byte3 (v : Nat) : ((0xff000000 &&& v) >>> 24) % 256 = v / 16777216 % 256 := by
  apply Nat.eq_of_testBit_eq
  intro i
  have h : (0xff000000 : Nat) = (2 ^ 8 - 1) <<< 24 := by decide
  rw [h, show (256 : Nat) = 2 ^ 8 by norm_num, show (16777216 : Nat) = 2 ^ 24 by norm_num,
    ← Nat.shiftRight_eq_div_pow]
  simp only [Nat.testBit_mod_two_pow, Nat.testBit_shiftRight, Nat.testBit_and,
    Nat.testBit_shiftLeft, Nat.testBit_two_pow_sub_one]
  by_cases hi : i < 8 <;> simp [hi]

theorem mask_byte2 (v : Nat) : ((0x00ff0000 &&& v) >>> 16) % 256 = v / 65536 % 256 := by
  apply Nat.eq_of_testBit_eq
  intro i
  have h : (0x00ff0000 : Nat) = (2 ^ 8 - 1) <<< 16 := by decide
  rw [h, show (256 : Nat) = 2 ^ 8 by norm_num, show (65536 : Nat) = 2 ^ 16 by norm_num,
    ← Nat.shiftRight_eq_div_pow]
  simp only [Nat.testBit_mod_two_pow, Nat.testBit_shiftRight, Nat.testBit_and,
    Nat.testBit_shiftLeft, Nat.testBit_two_pow_sub_one]
  by_cases hi : i < 8 <;> simp [hi]

theorem mask_byte1 (v : Nat) : ((0x0000ff00 &&& v) >>> 8) % 256 = v / 256 % 256 := by
  apply Nat.eq_of_testBit_eq
  intro i
  have h : (0x0000ff00 : Nat) = (2 ^ 8 - 1) <<< 8 := by decide
  rw [h, show (256 : Nat) = 2 ^ 8 by norm_num,
    ← Nat.shiftRight_eq_div_pow]
  simp only [Nat.testBit_mod_two_pow, Nat.testBit_shiftRight, Nat.testBit_and,
    Nat.testBit_shiftLeft, Nat.testBit_two_pow_sub_one]
  by_cases hi : i < 8 <;> simp [hi]

theorem mask_byte0 (v : Nat) : (0x000000ff &&& v) % 256 = v % 256 := by
  rw [Nat.and_comm, show (0xff : Nat) = 2 ^ 8 - 1 by norm_num, Nat.and_pow_two_sub_one_eq_mod]
  norm_num

theorem qoi_write_32_eq (bytes : List Nat) (v : Nat) :
    qoi_write_32 bytes v =
      bytes ++ [v / 16777216 % 256, v / 65536 % 256, v / 256 % 256, v % 256] := by
  simp only [qoi_write_32, mask_byte3, mask_byte2, mask_byte1, mask_byte0]

theorem QOI_MAGIC_eq : QOI_MAGIC = 0x716f6932 := by decide

theorem luma_bits : ∀ x < 8, ∀ y < 4, ∀ z < 4,
    (0x00 ||| (x <<< 4) ||| (y <<< 2) ||| z) % 256 < 0x80 ∧
    (((0x00 ||| (x <<< 4) ||| (y <<< 2) ||| z) % 256) >>> 4) &&& 7 = x ∧
    (((0x00 ||| (x <<< 4) ||| (y <<< 2) ||| z) % 256) >>> 2) &&& 3 = y ∧
    ((0x00 ||| (x <<< 4) ||| (y <<< 2) ||| z) % 256) &&& 3 = z := by decide

theorem index_bits : ∀ x < 64,
    0x80 ≤ (0x80 ||| x) % 256 ∧ (0x80 ||| x) % 256 < 0xc0 ∧ ((0x80 ||| x) % 256) &&& 63 = x := by
  decide

theorem luma2_bits1 : ∀ x < 32,
    0xc0 ≤ (0xc0 ||| x) % 256 ∧ (0xc0 ||| x) % 256 < 0xe0 ∧ ((0xc0 ||| x) % 256) &&& 0x1f = x := by
  decide

set_option maxRecDepth 100000 in
theorem luma2_bits2 : ∀ y < 16, ∀ z < 16,
    ((((y <<< 4) ||| z) % 256) >>> 4) &&& 0x0f = y ∧ (((y <<< 4) ||| z) % 256) &&& 0x0f = z := by
  decide

set_option maxRecDepth 100000 in
theorem luma3_bits1 : ∀ x < 64,
    0xe0 ≤ (0xe0 ||| (x >>> 2)) % 256 ∧ (0xe0 ||| (x >>> 2)) % 256 < 0xf0 ∧
    ∀ y < 64,
      ((((0xe0 ||| (x >>> 2)) % 256) &&& 0x0f) <<< 2) |||
        ((((((x &&& 3) <<< 6) ||| y) % 256) >>> 6) &&& 3) = x ∧
      ((((x &&& 3) <<< 6) ||| y) % 256) &&& 0x3f = y := by
  decide

theorem run_bits : ∀ x < 8,
    0xf0 ≤ (0xf0 ||| x) % 256 ∧ (0xf0 ||| x) % 256 < 0xf8 ∧ ((0xf0 ||| x) % 256) &&& 7 = x := by
  decide

set_option maxRecDepth 100000 in
theorem run2_bits : ∀ x < 1024,
    0xf8 ≤ (0xf8 ||| ((x >>> 8) &&& 3)) % 256 ∧ (0xf8 ||| ((x >>> 8) &&& 3)) % 256 < 0xfc ∧
    ((((0xf8 ||| ((x >>> 8) &&& 3)) % 256) &&& 3) <<< 8) ||| ((x &&& 0xff) % 256) = x := by
  decide

/-! ## The decoder: frame conditions, absence of faults, termination -/

theorem getElem?_some_of_lt (l : List Nat) (i : Nat) (h : i < l.length) :
    ∃ b, l[i]? = some b := ⟨l[i], List.getElem?_eq_getElem h⟩

theorem qoi_decode_insert_frame (s : qoi_decoder) (px : qoi_rgba_t) :
    (qoi_decode_insert s px).p = s.p ∧ (qoi_decode_insert s px).px_pos = s.px_pos ∧
    (qoi_decode_insert s px).pixels = s.pixels ∧ (qoi_decode_insert s px).tags = s.tags ∧
    (qoi_decode_insert s px).run = s.run ∧
    (qoi_decode_insert s px).index_pos = s.index_pos + 1 := by
  simp [qoi_decode_insert]

/-- What one chunk dispatch may change: the read cursor advances by one to four bytes,
nothing is written, the tag is logged, and the index cursor moves exactly for the inserting
chunk kinds. -/
theorem qoi_decode_chunk_frame (bytes : List Nat) (s : qoi_decoder) (fl : qoi_flow)
    (hfl : qoi_decode_chunk bytes s = some fl) :
    ∃ b1, bytes[s.p]? = some b1 ∧ fl.state.tags = s.tags ++ [b1] ∧
      s.p < fl.state.p ∧ fl.state.p ≤ s.p + 4 ∧
      fl.state.px_pos = s.px_pos ∧ fl.state.pixels = s.pixels ∧
      (∀ s1, fl = .again s1 → s1.p = s.p + 2 ∧ b1 = QOI_OP_A) ∧
      (qoi_tag_inserts b1 = true → fl.state.index_pos = s.index_pos + 1) ∧
      (qoi_tag_inserts b1 = false →
        fl.state.index_pos = s.index_pos ∧ fl.state.index = s.index) := by
  unfold qoi_decode_chunk at hfl
  cases h0 : bytes[s.p]? with
  | none => rw [h0] at hfl; exact absurd hfl (by simp)
  | some b1 =>
    refine ⟨b1, rfl, ?_⟩
    rw [h0] at hfl
    dsimp only at hfl
    by_cases c1 : b1 < 0x80
    · rw [if_pos c1] at hfl; cases hfl
      simp [qoi_flow.state, qoi_decode_insert_frame, qoi_tag_inserts, c1]
    rw [if_neg c1] at hfl
    by_cases c2 : b1 < 0xc0
    · rw [if_pos c2] at hfl; cases hfl
      simp [qoi_flow.state, qoi_tag_inserts, QOI_OP_GRAY, QOI_OP_RGB]; omega
    rw [if_neg c2] at hfl
    by_cases c3 : b1 < 0xe0
    · rw [if_pos c3] at hfl
      cases h1 : bytes[s.p + 1]? with
      | none => rw [h1] at hfl; exact absurd hfl (by simp)
      | some b2 =>
        rw [h1] at hfl; cases hfl
        simp [qoi_flow.state, qoi_decode_insert_frame, qoi_tag_inserts]
        omega
    rw [if_neg c3] at hfl
    by_cases c4 : b1 < 0xf0
    · rw [if_pos c4] at hfl
      cases h1 : bytes[s.p + 1]? with
      | none => rw [h1] at hfl; exact absurd hfl (by simp)
      | some b2 =>
        cases h2 : bytes[s.p + 1 + 1]? with
        | none => rw [h1, h2] at hfl; exact absurd hfl (by simp)
        | some b3 =>
          rw [h1, h2] at hfl; cases hfl
          simp [qoi_flow.state, qoi_decode_insert_frame, qoi_tag_inserts]
          omega
    rw [if_neg c4] at hfl
    by_cases c5 : b1 < 0xf8
    · rw [if_pos c5] at hfl; cases hfl
      simp [qoi_flow.state, qoi_tag_inserts, QOI_OP_GRAY, QOI_OP_RGB]; omega
    rw [if_neg c5] at hfl
    by_cases c6 : b1 < 0xfc
    · rw [if_pos c6] at hfl
      cases h1 : bytes[s.p + 1]? with
      | none => rw [h1] at hfl; exact absurd hfl (by simp)
      | some b2 =>
        rw [h1] at hfl; cases hfl
        simp [qoi_flow.state, qoi_tag_inserts, QOI_OP_GRAY, QOI_OP_RGB]; omega
    rw [if_neg c6] at hfl
    by_cases c7 : b1 = QOI_OP_GRAY
    · rw [if_pos c7] at hfl
      cases h1 : bytes[s.p + 1]? with
      | none => rw [h1] at hfl; exact absurd hfl (by simp)
      | some b2 =>
        rw [h1] at hfl; cases hfl
        simp [qoi_flow.state, qoi_decode_insert_frame, qoi_tag_inserts, c7]
        omega
    rw [if_neg c7] at hfl
    by_cases c8 : b1 = QOI_OP_RGB
    · rw [if_pos c8] at hfl
      cases h1 : bytes[s.p + 1]? with
      | none => rw [h1] at hfl; exact absurd hfl (by simp)
      | some b2 =>
        cases h2 : bytes[s.p + 1 + 1]? with
        | none => rw [h1, h2] at hfl; exact absurd hfl (by simp)
        | some b3 =>
          cases h3 : bytes[s.p + 1 + 2]? with
          | none => rw [h1, h2, h3] at hfl; exact absurd hfl (by simp)
          | some b4 =>
            rw [h1, h2, h3] at hfl; cases hfl
            simp [qoi_flow.state, qoi_decode_insert_frame, qoi_tag_inserts, c8]
            omega
    rw [if_neg c8] at hfl
    by_cases c9 : b1 = QOI_OP_A
    · rw [if_pos c9] at hfl
      cases h1 : bytes[s.p + 1]? with
      | none => rw [h1] at hfl; exact absurd hfl (by simp)
      | some b2 =>
        rw [h1] at hfl; cases hfl
        simp [qoi_flow.state, qoi_tag_inserts, c9, QOI_OP_A, QOI_OP_GRAY, QOI_OP_RGB]
        omega
    rw [if_neg c9] at hfl
    cases hfl
    simp [qoi_flow.state, qoi_tag_inserts, c7, c8]; omega

/-- With three more bytes after the tag inside the buffer, the chunk dispatch reads no byte
outside it. -/
theorem qoi_decode_chunk_isSome (bytes : List Nat) (s : qoi_decoder)
    (h : s.p + 3 < bytes.length) : (qoi_decode_chunk bytes s).isSome = true := by
  obtain ⟨b1, h1⟩ := getElem?_some_of_lt bytes s.p (by omega)
  obtain ⟨b2, h2⟩ := getElem?_some_of_lt bytes (s.p + 1) (by omega)
  obtain ⟨b3, h3⟩ := getElem?_some_of_lt bytes (s.p + 1 + 1) (by omega)
  obtain ⟨b4, h4⟩ := getElem?_some_of_lt bytes (s.p + 1 + 2) (by omega)
  simp only [qoi_decode_chunk, h1, h2, h3, h4]
  split_ifs <;> rfl

/-- No loop iteration faults when the four padding bytes lie inside the buffer. -/
theorem qoi_decode_step_isSome (bytes : List Nat) (chunks_len : Nat) (s : qoi_decoder)
    (h : chunks_len + 4 ≤ bytes.length) :
    (qoi_decode_step bytes chunks_len s).isSome = true := by
  unfold qoi_decode_step
  split_ifs with h1 h2
  · rfl
  · exact qoi_decode_chunk_isSome bytes s (by omega)
  · rfl

/-- Frame condition of the first half of the loop body. -/
theorem qoi_decode_step_frame (bytes : List Nat) (chunks_len : Nat) (s : qoi_decoder)
    (fl : qoi_flow) (hfl : qoi_decode_step bytes chunks_len s = some fl) :
    s.p ≤ fl.state.p ∧ fl.state.p ≤ s.p + 4 ∧
    fl.state.px_pos = s.px_pos ∧ fl.state.pixels = s.pixels ∧
    (∀ s1, fl = .again s1 → s.p < chunks_len ∧ s1.p = s.p + 2) := by
  unfold qoi_decode_step at hfl
  split_ifs at hfl with h1 h2
  · cases hfl; simp [qoi_flow.state]
  · obtain ⟨b1, -, -, h3, h4, h5, h6, h7, -⟩ := qoi_decode_chunk_frame bytes s fl hfl
    exact ⟨by omega, h4, h5, h6, fun s1 e => ⟨h2, (h7 s1 e).1⟩⟩
  · cases hfl; simp [qoi_flow.state]

/-- With fuel at least the measure, the decoder loop ends, by its condition or by `break`,
and the result does not depend on the fuel. -/
theorem qoi_decode_loop_fuel (bytes : List Nat) (chunks_len px_len channels : Nat)
    (hlen : chunks_len + 4 ≤ bytes.length) (hch : 0 < channels) :
    ∀ (fuel : Nat) (s : qoi_decoder), qoi_decode_measure chunks_len px_len s ≤ fuel →
      ∃ s1, qoi_decode_loop bytes chunks_len px_len channels fuel s = .done s1 ∧
        ∀ fuel1, qoi_decode_measure chunks_len px_len s ≤ fuel1 →
          qoi_decode_loop bytes chunks_len px_len channels fuel1 s = .done s1 := by
  intro fuel
  induction fuel with
  | zero =>
    intro s hs
    have h0 : ¬ s.px_pos < px_len := by unfold qoi_decode_measure at hs; omega
    refine ⟨s, by simp [qoi_decode_loop, h0], ?_⟩
    intro fuel1 _
    cases fuel1 <;> simp [qoi_decode_loop, h0]
  | succ n ih =>
    intro s hs
    by_cases h0 : s.px_pos < px_len
    · have hsome := qoi_decode_step_isSome bytes chunks_len s hlen
      cases hst : qoi_decode_step bytes chunks_len s with
      | none => rw [hst] at hsome; exact absurd hsome (by simp)
      | some fl =>
        obtain ⟨f1, f2, f3, f4, f5⟩ := qoi_decode_step_frame bytes chunks_len s fl hst
        cases fl with
        | emit s1 =>
          simp only [qoi_flow.state] at f1 f2 f3 f4
          have hm : qoi_decode_measure chunks_len px_len (qoi_decode_write channels s1) ≤ n := by
            unfold qoi_decode_measure qoi_decode_write at *
            simp only
            omega
          obtain ⟨r, hr1, hr2⟩ := ih _ hm
          refine ⟨r, by simp [qoi_decode_loop, h0, hst, hr1], ?_⟩
          intro fuel1 hf1
          cases fuel1 with
          | zero => unfold qoi_decode_measure at hf1; omega
          | succ m =>
            simp only [qoi_decode_loop, h0, hst, if_true]
            apply hr2
            unfold qoi_decode_measure qoi_decode_write at *
            simp only
            omega
        | again s1 =>
          simp only [qoi_flow.state] at f1 f2 f3 f4
          obtain ⟨f6, f7⟩ := f5 s1 rfl
          have hm : qoi_decode_measure chunks_len px_len s1 ≤ n := by
            unfold qoi_decode_measure at *
            omega
          obtain ⟨r, hr1, hr2⟩ := ih _ hm
          refine ⟨r, by simp [qoi_decode_loop, h0, hst, hr1], ?_⟩
          intro fuel1 hf1
          cases fuel1 with
          | zero => unfold qoi_decode_measure at hf1; omega
          | succ m =>
            simp only [qoi_decode_loop, h0, hst, if_true]
            apply hr2
            unfold qoi_decode_measure at *
            omega
        | stop s1 =>
          refine ⟨s1, by simp [qoi_decode_loop, h0, hst], ?_⟩
          intro fuel1 hf1
          cases fuel1 with
          | zero => unfold qoi_decode_measure at hf1; omega
          | succ m => simp [qoi_decode_loop, h0, hst]
    · refine ⟨s, by simp [qoi_decode_loop, h0], ?_⟩
      intro fuel1 _
      cases fuel1 <;> simp [qoi_decode_loop, h0]

theorem qoi_decode_loop_eq_run (bytes : List Nat) (chunks_len px_len channels : Nat)
    (hlen : chunks_len + 4 ≤ bytes.length) (hch : 0 < channels) (fuel : Nat) (s : qoi_decoder)
    (hf : qoi_decode_measure chunks_len px_len s ≤ fuel) :
    qoi_decode_loop bytes chunks_len px_len channels fuel s =
      qoi_decode_run bytes chunks_len px_len channels s := by
  obtain ⟨r, _, hr⟩ := qoi_decode_loop_fuel bytes chunks_len px_len channels hlen hch fuel s hf
  unfold qoi_decode_run
  rw [hr fuel hf, hr _ (Nat.le_refl _)]

theorem qoi_decode_run_done (bytes : List Nat) (chunks_len px_len channels : Nat)
    (s : qoi_decoder) (h : ¬ s.px_pos < px_len) :
    qoi_decode_run bytes chunks_len px_len channels s = .done s := by
  unfold qoi_decode_run
  cases qoi_decode_measure chunks_len px_len s <;> simp [qoi_decode_loop, h]

theorem qoi_decode_run_emit (bytes : List Nat) (chunks_len px_len channels : Nat)
    (hlen : chunks_len + 4 ≤ bytes.length) (hch : 0 < channels) (s s1 : qoi_decoder)
    (h : s.px_pos < px_len) (hst : qoi_decode_step bytes chunks_len s = some (.emit s1)) :
    qoi_decode_run bytes chunks_len px_len channels s =
      qoi_decode_run bytes chunks_len px_len channels (qoi_decode_write channels s1) := by
  obtain ⟨f1, f2, f3, f4, -⟩ := qoi_decode_step_frame bytes chunks_len s _ hst
  simp only [qoi_flow.state] at f1 f2 f3 f4
  have hm : qoi_decode_measure chunks_len px_len s =
      (qoi_decode_measure chunks_len px_len s - 1) + 1 := by
    unfold qoi_decode_measure; omega
  conv_lhs => rw [qoi_decode_run, hm]
  simp only [qoi_decode_loop, h, hst, if_true]
  apply qoi_decode_loop_eq_run bytes chunks_len px_len channels hlen hch
  unfold qoi_decode_measure qoi_decode_write
  simp only
  omega

theorem qoi_decode_run_again (bytes : List Nat) (chunks_len px_len channels : Nat)
    (hlen : chunks_len + 4 ≤ bytes.length) (hch : 0 < channels) (s s1 : qoi_decoder)
    (h : s.px_pos < px_len) (hst : qoi_decode_step bytes chunks_len s = some (.again s1)) :
    qoi_decode_run bytes chunks_len px_len channels s =
      qoi_decode_run bytes chunks_len px_len channels s1 := by
  obtain ⟨f1, f2, f3, f4, f5⟩ := qoi_decode_step_frame bytes chunks_len s _ hst
  simp only [qoi_flow.state] at f1 f2 f3 f4
  obtain ⟨f6, f7⟩ := f5 s1 rfl
  have hm : qoi_decode_measure chunks_len px_len s =
      (qoi_decode_measure chunks_len px_len s - 1) + 1 := by
    unfold qoi_decode_measure; omega
  conv_lhs => rw [qoi_decode_run, hm]
  simp only [qoi_decode_loop, h, hst, if_true]
  apply qoi_decode_loop_eq_run bytes chunks_len px_len channels hlen hch
  unfold qoi_decode_measure
  omega

/-! ## Header parsing and the top level of `qoi_decode` -/

theorem qoi_read_32_some (bytes : List Nat) (p : Nat) (h : p + 3 < bytes.length) :
    ∃ v, qoi_read_32 bytes p = some v := by
  obtain ⟨a, ha⟩ := getElem?_some_of_lt bytes p (by omega)
  obtain ⟨b, hb⟩ := getElem?_some_of_lt bytes (p + 1) (by omega)
  obtain ⟨c, hc⟩ := getElem?_some_of_lt bytes (p + 2) (by omega)
  obtain ⟨d, hd⟩ := getElem?_some_of_lt bytes (p + 3) (by omega)
  simp only [qoi_read_32, ha, hb, hc, hd]
  exact ⟨_, rfl⟩

theorem qoi_decode_small (data : List Nat) (channels : Int) (h : data.length < 18) :
    qoi_decode data channels = .null := by
  unfold qoi_decode
  simp only [QOI_HEADER_SIZE]
  rw [if_pos (Or.inr h)]

theorem qoi_decode_bad_channels (data : List Nat) (channels : Int)
    (h : channels ≠ 0 ∧ channels ≠ 3 ∧ channels ≠ 4) :
    qoi_decode data channels = .null := by
  unfold qoi_decode
  simp only
  rw [if_pos (Or.inl h)]

theorem qoi_decode_rejected (data : List Nat) (channels : Int) (magic w h ch cs : Nat)
    (hm : qoi_read_32 data 0 = some magic) (hw : qoi_read_32 data 4 = some w)
    (hh : qoi_read_32 data 8 = some h) (hc : data[12]? = some ch) (hs : data[13]? = some cs)
    (hrej : qoi_header_rejected magic w h ch cs) :
    qoi_decode data channels = .null := by
  unfold qoi_decode
  simp only [hm, hw, hh, hc, hs]
  by_cases h1 : (channels ≠ 0 ∧ channels ≠ 3 ∧ channels ≠ 4) ∨ data.length < QOI_HEADER_SIZE + 4
  · rw [if_pos h1]
  · unfold qoi_header_rejected at hrej
    rw [if_neg h1, if_pos hrej]

theorem qoi_decode_accepted (data : List Nat) (channels : Int) (magic w h ch cs : Nat)
    (hsize : 18 ≤ data.length) (hch : channels = 0 ∨ channels = 3 ∨ channels = 4)
    (hm : qoi_read_32 data 0 = some magic) (hw : qoi_read_32 data 4 = some w)
    (hh : qoi_read_32 data 8 = some h) (hc : data[12]? = some ch) (hs : data[13]? = some cs)
    (hacc : ¬ qoi_header_rejected magic w h ch cs) :
    ∃ final,
      qoi_decode_run data (data.length - 4)
        ((w * h * qoi_out_channels channels ch) % 2 ^ 32) (qoi_out_channels channels ch)
        qoi_decode_start = .done final ∧
      qoi_decode data channels =
        .ok { width := w, height := h, channels := ch, colorspace := cs } final := by
  have hoc : 0 < qoi_out_channels channels ch := by
    unfold qoi_out_channels
    unfold qoi_header_rejected at hacc
    rcases hch with h0 | h0 | h0
    · rw [if_pos h0]; omega
    · rw [if_neg (by omega), h0]; decide
    · rw [if_neg (by omega), h0]; decide
  have hlen : data.length - 4 + 4 ≤ data.length := by omega
  obtain ⟨final, hfin, -⟩ := qoi_decode_loop_fuel data (data.length - 4)
    ((w * h * qoi_out_channels channels ch) % 2 ^ 32) (qoi_out_channels channels ch) hlen hoc
    ((w * h * qoi_out_channels channels ch) % 2 ^ 32 + data.length) qoi_decode_start
    (by unfold qoi_decode_measure qoi_decode_start; simp only; omega)
  refine ⟨final, ?_, ?_⟩
  · rw [← hfin]
    exact (qoi_decode_loop_eq_run _ _ _ _ hlen hoc _ _
      (by unfold qoi_decode_measure qoi_decode_start; simp only; omega)).symm
  · unfold qoi_decode
    simp only [hm, hw, hh, hc, hs, QOI_HEADER_SIZE]
    have h1 : ¬ ((channels ≠ 0 ∧ channels ≠ 3 ∧ channels ≠ 4) ∨ data.length < 14 + 4) := by
      rcases hch with h0 | h0 | h0 <;> simp [h0] <;> omega
    rw [if_neg h1]
    unfold qoi_header_rejected at hacc
    rw [if_neg hacc]
    unfold qoi_out_channels at hfin
    rw [hfin]

/-! ## The encoder: loop induction, shape of the emitted bytes -/

/-- Induction over the pixel loop of `qoi_encode`: a property indexed by the number of pixels
consumed, kept by every iteration, holds when the loop ends. -/
theorem qoi_encode_loop_inv (pixels : List Nat) (ch px_end n : Nat) (hch : 0 < ch)
    (P : Nat → qoi_encoder → Prop)
    (hstep : ∀ k s, k < n → P k s → P (k + 1) (qoi_encode_pixel pixels ch px_end (k * ch) s)) :
    ∀ fuel k s, k ≤ n → (n - k) * ch ≤ fuel → P k s →
      P n (qoi_encode_loop pixels ch (n * ch) px_end fuel (k * ch) s) := by
  intro fuel
  induction fuel with
  | zero =>
    intro k s hk hf hP
    have hnk : n - k = 0 := by
      rcases Nat.eq_zero_or_pos (n - k) with h | h
      · exact h
      · have := Nat.mul_le_mul h hch
        omega
    have : k = n := by omega
    subst this
    simpa [qoi_encode_loop] using hP
  | succ f ih =>
    intro k s hk hf hP
    by_cases hlt : k < n
    · have h1 : k * ch < n * ch := Nat.mul_lt_mul_of_pos_right hlt hch
      have h2 : k * ch + ch = (k + 1) * ch := by rw [Nat.add_mul, Nat.one_mul]
      simp only [qoi_encode_loop, h1, if_true, h2]
      apply ih (k + 1) _ (by omega)
      · have h3 : (n - k) * ch = (n - (k + 1)) * ch + ch := by
          rw [show n - k = (n - (k + 1)) + 1 by omega, Nat.add_mul, Nat.one_mul]
        omega
      · exact hstep k s hlt hP
    · have : k = n := by omega
      subst this
      simpa [qoi_encode_loop] using hP

/-- The flush appends at most one chunk: a `QOI_OP_RUN` or `QOI_OP_RUN2`. -/
theorem qoi_encode_flush_eq (s : qoi_encoder) :
    (s.run = 0 ∧ qoi_encode_flush s = s) ∨
    (0 < s.run ∧ s.run - 1 < 8 ∧
      qoi_encode_flush s =
        { s with bytes := s.bytes ++ [(QOI_OP_RUN ||| (s.run - 1)) % 256], run := 0 }) ∨
    (0 < s.run ∧ ¬ s.run - 1 < 8 ∧
      qoi_encode_flush s =
        { s with bytes := s.bytes ++ [(QOI_OP_RUN2 ||| (((s.run - 1) >>> 8) &&& 3)) % 256,
            ((s.run - 1) &&& 0xff) % 256], run := 0 }) := by
  unfold qoi_encode_flush
  by_cases h : s.run > 0
  · by_cases h8 : s.run - 1 < 8
    · right; left; simp [h, h8]
    · right; right; simp [h, h8]
  · left; simp [h]; omega

theorem run2_tag (x : Nat) :
    0xf8 ≤ (0xf8 ||| ((x >>> 8) &&& 3)) % 256 ∧ (0xf8 ||| ((x >>> 8) &&& 3)) % 256 < 0xfc := by
  have h : (x >>> 8) &&& 3 < 4 := by
    have := @Nat.and_le_right (x >>> 8) 3
    omega
  have key : ∀ y < 4, 0xf8 ≤ (0xf8 ||| y) % 256 ∧ (0xf8 ||| y) % 256 < 0xfc := by decide
  exact key _ h

/-- The cascade stores one chunk: a first byte in a tag range below `QOI_OP_A`, and at most
three more bytes. -/
theorem qoi_encode_diff_shape (px pp : qoi_rgba_t) :
    ∃ t d, qoi_encode_diff px pp = t :: d ∧ t < 0xfe ∧ d.length ≤ 3 := by
  unfold qoi_encode_diff
  simp only
  split_ifs with h1 h2 h3 h4 h5
  · refine ⟨_, [], rfl, ?_, by simp⟩
    obtain ⟨a1, a2, a3, a4, a5, a6⟩ := h1
    have := (luma_bits _ (show (to_s8 (↑px.g - ↑pp.g) + 4).toNat < 8 by omega)
      _ (show (to_s8 (↑px.r - ↑pp.r - to_s8 (↑px.g - ↑pp.g)) + 1).toNat < 4 by omega)
      _ (show (to_s8 (↑px.b - ↑pp.b - to_s8 (↑px.g - ↑pp.g)) + 1).toNat < 4 by omega)).1
    simp only [QOI_OP_LUMA]
    omega
  · refine ⟨_, [], rfl, ?_, by simp⟩
    obtain ⟨a1, a2, a3, a4, a5, a6⟩ := h2
    have := (luma_bits _ (show (to_s8 (↑px.g - ↑pp.g) + 4).toNat < 8 by omega)
      _ (show (to_s8 (↑px.r - ↑pp.r - to_s8 (↑px.g - ↑pp.g)) + 2).toNat < 4 by omega)
      _ (show (to_s8 (↑px.b - ↑pp.b - to_s8 (↑px.g - ↑pp.g)) + 2).toNat < 4 by omega)).1
    simp only [QOI_OP_LUMA]
    omega
  · exact ⟨_, _, rfl, by simp [QOI_OP_GRAY], by simp⟩
  · refine ⟨_, _, rfl, ?_, by simp⟩
    obtain ⟨a1, a2, a3, a4, a5, a6⟩ := h4
    have := (luma2_bits1 _ (show (to_s8 (↑px.g - ↑pp.g) + 16).toNat < 32 by omega)).2.1
    simp only [QOI_OP_LUMA2]
    omega
  · refine ⟨_, _, rfl, ?_, by simp⟩
    obtain ⟨a1, a2, a3, a4⟩ := h5
    have := (luma3_bits1 _
      (show (to_s8 (↑px.r - ↑pp.r - to_s8 (↑px.g - ↑pp.g)) + 32).toNat < 64 by omega)).2.1
    simp only [QOI_OP_LUMA3]
    omega
  · exact ⟨_, _, rfl, by simp [QOI_OP_RGB], by simp⟩

/-! ## The encoder: padding, size bound -/

theorem qoi_no_ff_quad_append (l c : List Nat) (hl : qoi_no_ff_quad l) (hc : qoi_soft_chunk c) :
    qoi_no_ff_quad (l ++ c) := by
  rcases hc with rfl | ⟨t, d, rfl, ht, hd⟩
  · simpa using hl
  · intro i ⟨h0, h1, h2, h3⟩
    have hi3 : i + 3 < (l ++ t :: d).length := by
      by_contra hcon
      rw [List.getElem?_eq_none (by omega)] at h3
      exact absurd h3 (by simp)
    simp only [List.length_append, List.length_cons] at hi3
    by_cases hin : i + 3 < l.length
    · apply hl i
      rw [List.getElem?_append_left (by omega)] at h0 h1 h2 h3
      exact ⟨h0, h1, h2, h3⟩
    · have ht' : (l ++ t :: d)[l.length]? = some t := by
        rw [List.getElem?_append_right (Nat.le_refl _), Nat.sub_self]; simp
      have : l.length = i ∨ l.length = i + 1 ∨ l.length = i + 2 ∨ l.length = i + 3 := by omega
      rcases this with e | e | e | e <;> rw [e] at ht'
      · rw [ht'] at h0; exact ht (by simpa using h0)
      · rw [ht'] at h1; exact ht (by simpa using h1)
      · rw [ht'] at h2; exact ht (by simpa using h2)
      · rw [ht'] at h3; exact ht (by simpa using h3)

@[simp] theorem qoi_encode_flush_px_prev (s : qoi_encoder) :
    (qoi_encode_flush s).px_prev = s.px_prev := by
  rcases qoi_encode_flush_eq s with ⟨_, h⟩ | ⟨_, _, h⟩ | ⟨_, _, h⟩ <;> rw [h]

@[simp] theorem qoi_encode_flush_px (s : qoi_encoder) :
    (qoi_encode_flush s).px = s.px := by
  rcases qoi_encode_flush_eq s with ⟨_, h⟩ | ⟨_, _, h⟩ | ⟨_, _, h⟩ <;> rw [h]

@[simp] theorem qoi_encode_flush_index (s : qoi_encoder) :
    (qoi_encode_flush s).index = s.index := by
  rcases qoi_encode_flush_eq s with ⟨_, h⟩ | ⟨_, _, h⟩ | ⟨_, _, h⟩ <;> rw [h]

@[simp] theorem qoi_encode_flush_index_pos (s : qoi_encoder) :
    (qoi_encode_flush s).index_pos = s.index_pos := by
  rcases qoi_encode_flush_eq s with ⟨_, h⟩ | ⟨_, _, h⟩ | ⟨_, _, h⟩ <;> rw [h]

@[simp] theorem qoi_encode_flush_index_lookup (s : qoi_encoder) :
    (qoi_encode_flush s).index_lookup = s.index_lookup := by
  rcases qoi_encode_flush_eq s with ⟨_, h⟩ | ⟨_, _, h⟩ | ⟨_, _, h⟩ <;> rw [h]

@[simp] theorem qoi_encode_flush_run (s : qoi_encoder) :
    (qoi_encode_flush s).run = 0 := by
  rcases qoi_encode_flush_eq s with ⟨h0, h⟩ | ⟨_, _, h⟩ | ⟨_, _, h⟩ <;> rw [h]
  exact h0

theorem qoi_encode_flush_bytes (s : qoi_encoder) :
    ∃ c, (qoi_encode_flush s).bytes = s.bytes ++ c ∧ qoi_soft_chunk c ∧
      c.length ≤ (if s.run > 0 then 2 else 0) := by
  rcases qoi_encode_flush_eq s with ⟨h0, h⟩ | ⟨h0, h1, h⟩ | ⟨h0, _, h⟩ <;> rw [h]
  · exact ⟨[], by simp, Or.inl rfl, by simp⟩
  · refine ⟨_, rfl, Or.inr ⟨_, [], rfl, ?_, by simp⟩, by simp [h0]⟩
    have := run_bits _ h1
    simp only [QOI_OP_RUN]; omega
  · refine ⟨_, rfl, Or.inr ⟨_, _, rfl, ?_, by simp⟩, by simp [h0]⟩
    have := run2_tag (s.run - 1)
    simp only [QOI_OP_RUN2]; omega

theorem and_63_lt (x : Nat) : x &&& 63 < 64 := by
  have := @Nat.and_le_right x 63
  omega

theorem getD_lt_of_forall (l : List Nat) (i : Nat) (h : ∀ x ∈ l, x < 64) : l.getD i 0 < 64 := by
  rw [List.getD_eq_getElem?_getD]
  cases hi : l[i]? with
  | none => simp
  | some v => simpa using h v (List.getElem?_mem hi)

theorem qoi_encode_body_tables (px : qoi_rgba_t) (last : Bool) (s : qoi_encoder)
    (h : qoi_encoder_tables_ok s) : qoi_encoder_tables_ok (qoi_encode_body px last s) := by
  obtain ⟨h1, h2⟩ := h
  unfold qoi_encode_body
  simp only
  by_cases c1 : px.v = s.px_prev.v
  · rw [if_pos c1]
    by_cases c2 : s.run + 1 = 1024 ∨ last = true
    · rw [if_pos c2]; exact ⟨h1, h2⟩
    · rw [if_neg c2]; exact ⟨h1, h2⟩
  · rw [if_neg c1]
    split_ifs
    · exact ⟨by simpa using h1, by simpa using h2⟩
    · refine ⟨and_63_lt _, ?_⟩
      intro x hx
      simp only [qoi_encode_flush_index_lookup, qoi_encode_flush_index_pos] at hx
      rcases List.mem_or_eq_of_mem_set hx with hx | hx
      · exact h2 x hx
      · omega

theorem qoi_encode_alpha_soft (px pp : qoi_rgba_t) :
    qoi_soft_chunk (qoi_encode_alpha px pp) ∧
    (qoi_encode_alpha px pp).length ≤ (if px.a = pp.a then 0 else 2) := by
  unfold qoi_encode_alpha
  by_cases h : px.a = pp.a
  · simp [h, qoi_soft_chunk]
  · rw [if_pos h]
    exact ⟨Or.inr ⟨_, _, rfl, by decide, by simp⟩, by simp [h]⟩

/-- The bytes one loop iteration of the encoder appends: at most three chunks. -/
theorem qoi_encode_body_bytes (px : qoi_rgba_t) (last : Bool) (s : qoi_encoder)
    (h : qoi_encoder_tables_ok s) :
    ∃ c1 c2 c3, (qoi_encode_body px last s).bytes = s.bytes ++ c1 ++ c2 ++ c3 ∧
      qoi_soft_chunk c1 ∧ qoi_soft_chunk c2 ∧ qoi_soft_chunk c3 := by
  obtain ⟨h1, h2⟩ := h
  unfold qoi_encode_body
  simp only
  by_cases c1 : px.v = s.px_prev.v
  · rw [if_pos c1]
    by_cases c2 : s.run + 1 = 1024 ∨ last = true
    · rw [if_pos c2]
      refine ⟨[(QOI_OP_RUN2 ||| (((s.run + 1 - 1) >>> 8) &&& 3)) % 256,
          ((s.run + 1 - 1) &&& 0xff) % 256], [], [], by simp, Or.inr ⟨_, _, rfl, ?_, by simp⟩,
        Or.inl rfl, Or.inl rfl⟩
      have := run2_tag (s.run + 1 - 1)
      simp only [QOI_OP_RUN2]; omega
    · rw [if_neg c2]
      exact ⟨[], [], [], by simp, Or.inl rfl, Or.inl rfl, Or.inl rfl⟩
  · rw [if_neg c1]
    obtain ⟨c, hc, hs, -⟩ := qoi_encode_flush_bytes s
    split_ifs
    · refine ⟨c, [(QOI_OP_INDEX ||| s.index_lookup.getD (QOI_COLOR_HASH px) 0) % 256], [],
        by rw [hc, qoi_encode_flush_index_lookup, List.append_nil], hs,
        Or.inr ⟨_, [], rfl, ?_, by simp⟩, Or.inl rfl⟩
      have := index_bits _ (getD_lt_of_forall s.index_lookup (QOI_COLOR_HASH px) h2)
      simp only [QOI_OP_INDEX]
      omega
    · obtain ⟨t, d, hd, ht, hdl⟩ := qoi_encode_diff_shape px s.px_prev
      refine ⟨c, _, _, by rw [hc], hs, (qoi_encode_alpha_soft _ _).1, ?_⟩
      simp only [qoi_encode_flush_px_prev]
      exact Or.inr ⟨t, d, hd, by omega, hdl⟩

/-- The size accounting of one loop iteration: a pending run is charged two bytes in
advance; then an iteration costs at most four bytes, and two more when alpha changes. -/
theorem qoi_encode_body_length (px : qoi_rgba_t) (last : Bool) (s : qoi_encoder) :
    (qoi_encode_body px last s).bytes.length +
        (if (qoi_encode_body px last s).run > 0 then 2 else 0) ≤
      s.bytes.length + (if s.run > 0 then 2 else 0) + 4 +
        (if px.a = s.px_prev.a then 0 else 2) ∧
    ((qoi_encode_body px last s).px_prev = px ∨
      ((qoi_encode_body px last s).px_prev = s.px_prev ∧ px.v = s.px_prev.v)) ∧
    (qoi_encode_body px last s).px = s.px := by
  unfold qoi_encode_body
  simp only
  by_cases c1 : px.v = s.px_prev.v
  · rw [if_pos c1]
    by_cases c2 : s.run + 1 = 1024 ∨ last = true
    · rw [if_pos c2]
      refine ⟨?_, Or.inr ⟨rfl, c1⟩, rfl⟩
      simp only [List.length_append, List.length_cons, List.length_nil]
      split_ifs <;> omega
    · rw [if_neg c2]
      refine ⟨?_, Or.inr ⟨rfl, c1⟩, rfl⟩
      simp only
      split_ifs <;> omega
  · rw [if_neg c1]
    obtain ⟨c, hc, -, hcl⟩ := qoi_encode_flush_bytes s
    by_cases c3 : ((qoi_encode_flush s).index.getD
      ((qoi_encode_flush s).index_lookup.getD (QOI_COLOR_HASH px) 0) qoi_zero_px).v = px.v
    · rw [if_pos c3]
      refine ⟨?_, Or.inl rfl, by simp⟩
      simp only [hc, List.length_append, List.length_cons, List.length_nil,
        qoi_encode_flush_run]
      split_ifs at hcl ⊢ <;> omega
    · rw [if_neg c3]
      obtain ⟨t, d, hd, ht, hdl⟩ := qoi_encode_diff_shape px s.px_prev
      have ha := (qoi_encode_alpha_soft px s.px_prev).2
      refine ⟨?_, Or.inl rfl, by simp⟩
      simp only [hc, hd, List.length_append, List.length_cons, qoi_encode_flush_run,
        qoi_encode_flush_px_prev]
      split_ifs at hcl ha ⊢ <;> omega

/-- The pixel loop of `qoi_encode` stopped after any number of iterations: the state
satisfies the invariant at the number `m` of pixels consumed, and `m = n` when the fuel
suffices. -/
theorem qoi_encode_loop_inv_any (pixels : List Nat) (ch px_end n : Nat) (hch : 0 < ch)
    (P : Nat → qoi_encoder → Prop)
    (hstep : ∀ k s, k < n → P k s → P (k + 1) (qoi_encode_pixel pixels ch px_end (k * ch) s)) :
    ∀ fuel k s, k ≤ n → P k s →
      ∃ m, k ≤ m ∧ m ≤ n ∧ P m (qoi_encode_loop pixels ch (n * ch) px_end fuel (k * ch) s) := by
  intro fuel
  induction fuel with
  | zero =>
    intro k s hk hP
    exact ⟨k, Nat.le_refl _, hk, by simpa [qoi_encode_loop] using hP⟩
  | succ f ih =>
    intro k s hk hP
    by_cases hlt : k < n
    · have h1 : k * ch < n * ch := Nat.mul_lt_mul_of_pos_right hlt hch
      have h2 : k * ch + ch = (k + 1) * ch := by rw [Nat.add_mul, Nat.one_mul]
      simp only [qoi_encode_loop, h1, if_true, h2]
      obtain ⟨m, hm1, hm2, hm3⟩ := ih (k + 1) _ (by omega) (hstep k s hlt hP)
      exact ⟨m, by omega, hm2, hm3⟩
    · have : k = n := by omega
      subst this
      exact ⟨k, Nat.le_refl _, Nat.le_refl _, by simpa [qoi_encode_loop] using hP⟩

theorem qoi_encode_start_bytes (desc : qoi_desc) :
    (qoi_encode_start desc).bytes = qoi_header_bytes desc := by
  simp only [qoi_encode_start, qoi_write_32_eq, QOI_MAGIC_eq, qoi_header_bytes]
  norm_num

/-- What the descriptor test of `qoi_encode` lets through. -/
theorem qoi_desc_accepted (desc : qoi_desc) (hw : 0 < desc.width) (hh : 0 < desc.height)
    (hc : desc.channels = 3 ∨ desc.channels = 4) (hs : desc.colorspace ≤ 1)
    (hcap : desc.height < 350000000 / desc.width) :
    qoi_desc_rejected desc = false ∧ desc.width * desc.height < 350000000 := by
  constructor
  · unfold qoi_desc_rejected QOI_PIXELS_MAX
    simp only [decide_eq_false_iff_not]
    omega
  · have h1 : desc.height + 1 ≤ 350000000 / desc.width := hcap
    rw [Nat.le_div_iff_mul_le hw] at h1
    rw [Nat.add_mul, Nat.mul_comm desc.height] at h1
    omega

theorem qoi_encode_inv_start (desc : qoi_desc) : qoi_encode_inv desc 0 (qoi_encode_start desc) := by
  refine ⟨⟨?_, ?_⟩, ⟨[], ?_, ?_⟩, ?_, ?_⟩
  · show 0 < 64
    omega
  · intro x hx
    have hx' : x ∈ List.replicate 1024 0 := hx
    rw [List.eq_of_mem_replicate hx']; omega
  · rw [qoi_encode_start_bytes, List.append_nil]
  · intro i; simp
  · have hr : (qoi_encode_start desc).run = 0 := rfl
    rw [hr, qoi_encode_start_bytes]
    simp [qoi_header_bytes]
  · intro _; rfl

theorem qoi_encode_inv_step (pixels : List Nat) (desc : qoi_desc) (px_end : Nat)
    (hc : desc.channels = 3 ∨ desc.channels = 4) (k : Nat) (s : qoi_encoder)
    (h : qoi_encode_inv desc k s) :
    qoi_encode_inv desc (k + 1)
      (qoi_encode_pixel pixels desc.channels px_end (k * desc.channels) s) := by
  obtain ⟨h1, ⟨body, h2, h3⟩, h4, h5⟩ := h
  unfold qoi_encode_pixel
  simp only
  generalize hpx : qoi_encode_load pixels desc.channels (k * desc.channels) s.px = px
  generalize decide (k * desc.channels = px_end) = last
  have ht : qoi_encoder_tables_ok { s with px := px } := h1
  obtain ⟨c1, c2, c3, e1, e2, e3, e4⟩ := qoi_encode_body_bytes px last { s with px := px } ht
  obtain ⟨l1, l2, l3⟩ := qoi_encode_body_length px last { s with px := px }
  simp only at e1 l1 l2 l3
  have hpa : desc.channels ≠ 4 → px.a = s.px.a := by
    intro h4; rw [← hpx]; simp [qoi_encode_load, h4]
  refine ⟨qoi_encode_body_tables px last _ ht, ⟨body ++ c1 ++ c2 ++ c3, ?_, ?_⟩, ?_, ?_⟩
  · rw [e1, h2]; simp
  · exact qoi_no_ff_quad_append _ _ (qoi_no_ff_quad_append _ _
      (qoi_no_ff_quad_append _ _ h3 e2) e3) e4
  · rcases hc with hc | hc
    · have : px.a = s.px_prev.a := by rw [hpa (by omega), h5 (by omega)]
      rw [if_pos this] at l1
      simp only [hc, if_true] at h4 ⊢
      split_ifs at l1 h4 ⊢ <;> omega
    · simp only [hc] at h4 ⊢
      norm_num at h4 ⊢
      split_ifs at l1 h4 ⊢ <;> omega
  · intro h4
    rw [l3]
    rcases l2 with l2 | ⟨l2, -⟩
    · rw [l2]
    · rw [l2, hpa h4, h5 h4]

/-- The shape of every successful encoding: header, a chunk region free of `ff ff ff ff`
and within the size budget, padding. The same bound holds for the cursor when the loop is
stopped early. -/
theorem qoi_encode_shape (pixels : List Nat) (desc : qoi_desc)
    (hw : 0 < desc.width) (hh : 0 < desc.height)
    (hc : desc.channels = 3 ∨ desc.channels = 4) (hs : desc.colorspace ≤ 1)
    (hcap : desc.height < 350000000 / desc.width) :
    (∃ body, qoi_encode pixels desc = some (qoi_header_bytes desc ++ body ++ qoi_padding) ∧
      qoi_no_ff_quad body ∧
      body.length ≤ desc.width * desc.height * (if desc.channels = 3 then 4 else 6)) ∧
    (∀ fuel, (qoi_encode_loop pixels desc.channels
        ((desc.width * desc.height * desc.channels) % 2 ^ 32)
        ((desc.width * desc.height * desc.channels) % 2 ^ 32 - desc.channels) fuel 0
        (qoi_encode_start desc)).bytes.length ≤
      14 + desc.width * desc.height * (if desc.channels = 3 then 4 else 6)) ∧
    qoi_max_size desc = 18 + desc.width * desc.height * (if desc.channels = 3 then 4 else 6) := by
  obtain ⟨hrej, hsmall⟩ := qoi_desc_accepted desc hw hh hc hs hcap
  have hch : 0 < desc.channels := by omega
  have hlen : (desc.width * desc.height * desc.channels) % 2 ^ 32 =
      desc.width * desc.height * desc.channels := by
    apply Nat.mod_eq_of_lt
    rcases hc with hc | hc <;> rw [hc] <;> omega
  have hstep := fun k s (_ : k < desc.width * desc.height) h =>
    qoi_encode_inv_step pixels desc
      (desc.width * desc.height * desc.channels - desc.channels) hc k s h
  refine ⟨?_, ?_, ?_⟩
  · have hfin := qoi_encode_loop_inv pixels desc.channels
      (desc.width * desc.height * desc.channels - desc.channels) (desc.width * desc.height) hch
      (qoi_encode_inv desc) hstep (desc.width * desc.height * desc.channels) 0
      (qoi_encode_start desc) (Nat.zero_le _) (by simp) (qoi_encode_inv_start desc)
    obtain ⟨-, ⟨body, hb1, hb2⟩, hb3, -⟩ := hfin
    rw [Nat.zero_mul] at hb1 hb3
    refine ⟨body, ?_, hb2, ?_⟩
    · unfold qoi_encode
      rw [hrej]
      simp only [hlen, Bool.false_eq_true, if_false]
      rw [hb1]
    · rw [hb1] at hb3
      simp only [List.length_append, qoi_header_bytes, List.length_cons, List.length_nil] at hb3
      split_ifs at hb3 ⊢ <;> omega
  · intro fuel
    rw [hlen]
    obtain ⟨m, -, hm, -, -, hb3, -⟩ := qoi_encode_loop_inv_any pixels desc.channels
      (desc.width * desc.height * desc.channels - desc.channels) (desc.width * desc.height) hch
      (qoi_encode_inv desc) hstep fuel 0 (qoi_encode_start desc) (Nat.zero_le _)
      (qoi_encode_inv_start desc)
    rw [Nat.zero_mul] at hb3
    have : m * (if desc.channels = 3 then 4 else 6) ≤
        desc.width * desc.height * (if desc.channels = 3 then 4 else 6) :=
      Nat.mul_le_mul_right _ hm
    omega
  · unfold qoi_max_size QOI_HEADER_SIZE
    rcases hc with hc | hc <;> simp only [hc] <;> norm_num <;> omega

/-! ## Header round trip and validation -/

theorem be32_read (v : Nat) (hv : v < 2 ^ 32) :
    (((v / 2 ^ 24 % 256) <<< 24) ||| ((v / 2 ^ 16 % 256) <<< 16) |||
      ((v / 2 ^ 8 % 256) <<< 8) ||| (v % 256)) % 2 ^ 32 = v := by
  rw [be32_join _ _ _ _ (Nat.mod_lt _ (by norm_num)) (Nat.mod_lt _ (by norm_num))
    (Nat.mod_lt _ (by norm_num))]
  norm_num at hv ⊢
  omega

theorem qoi_read_32_header (desc : qoi_desc) (rest : List Nat)
    (hw : desc.width < 2 ^ 32) (hh : desc.height < 2 ^ 32) :
    qoi_read_32 (qoi_header_bytes desc ++ rest) 0 = some QOI_MAGIC ∧
    qoi_read_32 (qoi_header_bytes desc ++ rest) 4 = some desc.width ∧
    qoi_read_32 (qoi_header_bytes desc ++ rest) 8 = some desc.height ∧
    (qoi_header_bytes desc ++ rest)[12]? = some desc.channels ∧
    (qoi_header_bytes desc ++ rest)[13]? = some desc.colorspace := by
  refine ⟨?_, ?_, ?_, ?_, ?_⟩
  · simp only [qoi_read_32, qoi_header_bytes, List.cons_append, List.getElem?_cons_zero,
      List.getElem?_cons_succ, QOI_MAGIC]
    rfl
  · simp only [qoi_read_32, qoi_header_bytes, List.cons_append, List.getElem?_cons_zero,
      List.getElem?_cons_succ, be32_read _ hw]
  · simp only [qoi_read_32, qoi_header_bytes, List.cons_append, List.getElem?_cons_zero,
      List.getElem?_cons_succ, be32_read _ hh]
  · simp [qoi_header_bytes]
  · simp [qoi_header_bytes]

theorem qoi_read_32_magic (data : List Nat) (hb : ∀ b ∈ data, b < 256) (h18 : 18 ≤ data.length)
    (hm : data.take 4 ≠ [0x71, 0x6f, 0x69, 0x32]) :
    ∃ magic, qoi_read_32 data 0 = some magic ∧ magic ≠ QOI_MAGIC := by
  rcases data with _ | ⟨a, _ | ⟨b, _ | ⟨c, _ | ⟨d, rest⟩⟩⟩⟩
  · simp at h18
  · simp at h18
  · simp at h18
  · simp at h18
  have ha : a < 256 := hb a (by simp)
  have hb' : b < 256 := hb b (by simp)
  have hc : c < 256 := hb c (by simp)
  have hd : d < 256 := hb d (by simp)
  refine ⟨((a <<< 24) ||| (b <<< 16) ||| (c <<< 8) ||| d) % 2 ^ 32,
    by simp only [qoi_read_32, List.getElem?_cons_zero, List.getElem?_cons_succ], ?_⟩
  rw [be32_join a b c d hb' hc hd, QOI_MAGIC_eq]
  intro heq
  apply hm
  have h2 : a * 16777216 + b * 65536 + c * 256 + d = 0x716f6932 := by
    rw [Nat.mod_eq_of_lt (by norm_num; omega)] at heq
    exact heq
  have : a = 0x71 ∧ b = 0x6f ∧ c = 0x69 ∧ d = 0x32 := by
    norm_num at h2 ⊢; omega
  obtain ⟨rfl, rfl, rfl, rfl⟩ := this
  rfl

/-! ## Pixel arithmetic: the decoder inverts the cascade -/

theorem qoi_v_inj (p q : qoi_rgba_t) (hp : qoi_px_ok p) (hq : qoi_px_ok q) (h : p.v = q.v) :
    p = q := by
  obtain ⟨pr, pg, pb, pa⟩ := p
  obtain ⟨qr, qg, qb, qa⟩ := q
  simp only [qoi_px_ok, qoi_rgba_t.v] at hp hq h
  norm_num at h
  simp only [qoi_rgba_t.mk.injEq]
  omega

theorem qoi_luma_neg (px pp : qoi_rgba_t) (hpx : qoi_px_ok px) (hpp : qoi_px_ok pp)
    (ha : pp.a = px.a) (vg vg_r vg_b : Int)
    (hvg : vg = to_s8 ((px.g : Int) - pp.g))
    (hvr : vg_r = to_s8 ((px.r : Int) - pp.r - vg))
    (hvb : vg_b = to_s8 ((px.b : Int) - pp.b - vg))
    (h : vg ≥ -4 ∧ vg < 0 ∧ vg_r ≥ -1 ∧ vg_r ≤ 2 ∧ vg_b ≥ -1 ∧ vg_b ≤ 2) :
    (QOI_OP_LUMA ||| ((vg + 4).toNat <<< 4) ||| ((vg_r + 1).toNat <<< 2) |||
        (vg_b + 1).toNat) % 256 < 0x80 ∧
    qoi_luma pp ((QOI_OP_LUMA ||| ((vg + 4).toNat <<< 4) ||| ((vg_r + 1).toNat <<< 2) |||
        (vg_b + 1).toNat) % 256) = px := by
  obtain ⟨l1, l2, l3, l4⟩ := luma_bits _ (show (vg + 4).toNat < 8 by omega)
    _ (show (vg_r + 1).toNat < 4 by omega) _ (show (vg_b + 1).toNat < 4 by omega)
  refine ⟨l1, ?_⟩
  obtain ⟨pr, pg, pb, pa⟩ := px
  obtain ⟨qr, qg, qb, qa⟩ := pp
  simp only [qoi_px_ok, to_s8] at *
  simp only [qoi_luma, QOI_OP_LUMA, l2, l3, l4, to_u8]
  have hneg : ((vg + 4).toNat : Int) - 4 < 0 := by omega
  rw [if_pos hneg]
  simp only [qoi_rgba_t.mk.injEq]
  omega

theorem qoi_luma_pos (px pp : qoi_rgba_t) (hpx : qoi_px_ok px) (hpp : qoi_px_ok pp)
    (ha : pp.a = px.a) (vg vg_r vg_b : Int)
    (hvg : vg = to_s8 ((px.g : Int) - pp.g))
    (hvr : vg_r = to_s8 ((px.r : Int) - pp.r - vg))
    (hvb : vg_b = to_s8 ((px.b : Int) - pp.b - vg))
    (h : vg ≥ 0 ∧ vg ≤ 3 ∧ vg_r ≥ -2 ∧ vg_r ≤ 1 ∧ vg_b ≥ -2 ∧ vg_b ≤ 1) :
    (QOI_OP_LUMA ||| ((vg + 4).toNat <<< 4) ||| ((vg_r + 2).toNat <<< 2) |||
        (vg_b + 2).toNat) % 256 < 0x80 ∧
    qoi_luma pp ((QOI_OP_LUMA ||| ((vg + 4).toNat <<< 4) ||| ((vg_r + 2).toNat <<< 2) |||
        (vg_b + 2).toNat) % 256) = px := by
  obtain ⟨l1, l2, l3, l4⟩ := luma_bits _ (show (vg + 4).toNat < 8 by omega)
    _ (show (vg_r + 2).toNat < 4 by omega) _ (show (vg_b + 2).toNat < 4 by omega)
  refine ⟨l1, ?_⟩
  obtain ⟨pr, pg, pb, pa⟩ := px
  obtain ⟨qr, qg, qb, qa⟩ := pp
  simp only [qoi_px_ok, to_s8] at *
  simp only [qoi_luma, QOI_OP_LUMA, l2, l3, l4, to_u8]
  have hneg : ¬ ((vg + 4).toNat : Int) - 4 < 0 := by omega
  rw [if_neg hneg]
  simp only [qoi_rgba_t.mk.injEq]
  omega

theorem qoi_luma2_inv (px pp : qoi_rgba_t) (hpx : qoi_px_ok px) (hpp : qoi_px_ok pp)
    (ha : pp.a = px.a) (vg vg_r vg_b : Int)
    (hvg : vg = to_s8 ((px.g : Int) - pp.g))
    (hvr : vg_r = to_s8 ((px.r : Int) - pp.r - vg))
    (hvb : vg_b = to_s8 ((px.b : Int) - pp.b - vg))
    (h : vg_r ≥ -8 ∧ vg_r ≤ 7 ∧ vg ≥ -16 ∧ vg ≤ 15 ∧ vg_b ≥ -8 ∧ vg_b ≤ 7) :
    0xc0 ≤ (QOI_OP_LUMA2 ||| (vg + 16).toNat) % 256 ∧
    (QOI_OP_LUMA2 ||| (vg + 16).toNat) % 256 < 0xe0 ∧
    qoi_luma2 pp ((QOI_OP_LUMA2 ||| (vg + 16).toNat) % 256)
      ((((vg_r + 8).toNat <<< 4) ||| (vg_b + 8).toNat) % 256) = px := by
  obtain ⟨l1, l2, l3⟩ := luma2_bits1 _ (show (vg + 16).toNat < 32 by omega)
  obtain ⟨l4, l5⟩ := luma2_bits2 _ (show (vg_r + 8).toNat < 16 by omega)
    _ (show (vg_b + 8).toNat < 16 by omega)
  refine ⟨l1, l2, ?_⟩
  obtain ⟨pr, pg, pb, pa⟩ := px
  obtain ⟨qr, qg, qb, qa⟩ := pp
  simp only [qoi_px_ok, to_s8] at *
  simp only [qoi_luma2, QOI_OP_LUMA2, l3, l4, l5, to_u8]
  simp only [qoi_rgba_t.mk.injEq]
  omega

theorem qoi_luma3_inv (px pp : qoi_rgba_t) (hpx : qoi_px_ok px) (hpp : qoi_px_ok pp)
    (ha : pp.a = px.a) (vg vg_r vg_b : Int)
    (hvg : vg = to_s8 ((px.g : Int) - pp.g))
    (hvr : vg_r = to_s8 ((px.r : Int) - pp.r - vg))
    (hvb : vg_b = to_s8 ((px.b : Int) - pp.b - vg))
    (h : vg_r ≥ -32 ∧ vg_r ≤ 31 ∧ vg_b ≥ -32 ∧ vg_b ≤ 31) :
    0xe0 ≤ (QOI_OP_LUMA3 ||| ((vg_r + 32).toNat >>> 2)) % 256 ∧
    (QOI_OP_LUMA3 ||| ((vg_r + 32).toNat >>> 2)) % 256 < 0xf0 ∧
    qoi_luma3 pp ((QOI_OP_LUMA3 ||| ((vg_r + 32).toNat >>> 2)) % 256)
      (((((vg_r + 32).toNat &&& 3) <<< 6) ||| (vg_b + 32).toNat) % 256)
      (to_u8 (vg + 128)) = px := by
  obtain ⟨l1, l2, l3⟩ := luma3_bits1 _ (show (vg_r + 32).toNat < 64 by omega)
  obtain ⟨l4, l5⟩ := l3 _ (show (vg_b + 32).toNat < 64 by omega)
  refine ⟨l1, l2, ?_⟩
  obtain ⟨pr, pg, pb, pa⟩ := px
  obtain ⟨qr, qg, qb, qa⟩ := pp
  simp only [qoi_px_ok, to_s8] at *
  simp only [qoi_luma3, QOI_OP_LUMA3, l4, l5, to_u8]
  simp only [qoi_rgba_t.mk.injEq]
  omega

/-- The bytes of the cascade, read back by the arithmetic of the matching decoder branch,
give the pixel that was encoded. -/
theorem qoi_encode_diff_inv (px pp : qoi_rgba_t) (hpx : qoi_px_ok px) (hpp : qoi_px_ok pp)
    (ha : pp.a = px.a) :
    (∃ b1, qoi_encode_diff px pp = [b1] ∧ b1 < 0x80 ∧ qoi_luma pp b1 = px) ∨
    (∃ b2, qoi_encode_diff px pp = [QOI_OP_GRAY, b2] ∧
      { pp with r := b2 % 256, g := b2 % 256, b := b2 % 256 } = px) ∨
    (∃ b1 b2, qoi_encode_diff px pp = [b1, b2] ∧ 0xc0 ≤ b1 ∧ b1 < 0xe0 ∧
      qoi_luma2 pp b1 b2 = px) ∨
    (∃ b1 b2 b3, qoi_encode_diff px pp = [b1, b2, b3] ∧ 0xe0 ≤ b1 ∧ b1 < 0xf0 ∧
      qoi_luma3 pp b1 b2 b3 = px) ∨
    (∃ r g b, qoi_encode_diff px pp = [QOI_OP_RGB, r, g, b] ∧
      { pp with r := r, g := g, b := b } = px) := by
  unfold qoi_encode_diff
  simp only
  by_cases h1 : to_s8 (↑px.g - ↑pp.g) ≥ -4 ∧ to_s8 (↑px.g - ↑pp.g) < 0 ∧
      to_s8 (↑px.r - ↑pp.r - to_s8 (↑px.g - ↑pp.g)) ≥ -1 ∧
      to_s8 (↑px.r - ↑pp.r - to_s8 (↑px.g - ↑pp.g)) ≤ 2 ∧
      to_s8 (↑px.b - ↑pp.b - to_s8 (↑px.g - ↑pp.g)) ≥ -1 ∧
      to_s8 (↑px.b - ↑pp.b - to_s8 (↑px.g - ↑pp.g)) ≤ 2
  · rw [if_pos h1]
    obtain ⟨e1, e2⟩ := qoi_luma_neg px pp hpx hpp ha _ _ _ rfl rfl rfl h1
    exact Or.inl ⟨_, rfl, e1, e2⟩
  rw [if_neg h1]
  by_cases h2 : to_s8 (↑px.g - ↑pp.g) ≥ 0 ∧ to_s8 (↑px.g - ↑pp.g) ≤ 3 ∧
      to_s8 (↑px.r - ↑pp.r - to_s8 (↑px.g - ↑pp.g)) ≥ -2 ∧
      to_s8 (↑px.r - ↑pp.r - to_s8 (↑px.g - ↑pp.g)) ≤ 1 ∧
      to_s8 (↑px.b - ↑pp.b - to_s8 (↑px.g - ↑pp.g)) ≥ -2 ∧
      to_s8 (↑px.b - ↑pp.b - to_s8 (↑px.g - ↑pp.g)) ≤ 1
  · rw [if_pos h2]
    obtain ⟨e1, e2⟩ := qoi_luma_pos px pp hpx hpp ha _ _ _ rfl rfl rfl h2
    exact Or.inl ⟨_, rfl, e1, e2⟩
  rw [if_neg h2]
  by_cases h3 : px.g = px.r ∧ px.g = px.b
  · rw [if_pos h3]
    refine Or.inr (Or.inl ⟨_, rfl, ?_⟩)
    obtain ⟨pr, pg, pb, pa⟩ := px
    obtain ⟨qr, qg, qb, qa⟩ := pp
    simp only [qoi_px_ok] at *
    simp only [qoi_rgba_t.mk.injEq]
    omega
  rw [if_neg h3]
  by_cases h4 : to_s8 (↑px.r - ↑pp.r - to_s8 (↑px.g - ↑pp.g)) ≥ -8 ∧
      to_s8 (↑px.r - ↑pp.r - to_s8 (↑px.g - ↑pp.g)) ≤ 7 ∧
      to_s8 (↑px.g - ↑pp.g) ≥ -16 ∧ to_s8 (↑px.g - ↑pp.g) ≤ 15 ∧
      to_s8 (↑px.b - ↑pp.b - to_s8 (↑px.g - ↑pp.g)) ≥ -8 ∧
      to_s8 (↑px.b - ↑pp.b - to_s8 (↑px.g - ↑pp.g)) ≤ 7
  · rw [if_pos h4]
    obtain ⟨e1, e2, e3⟩ := qoi_luma2_inv px pp hpx hpp ha _ _ _ rfl rfl rfl h4
    exact Or.inr (Or.inr (Or.inl ⟨_, _, rfl, e1, e2, e3⟩))
  rw [if_neg h4]
  by_cases h5 : to_s8 (↑px.r - ↑pp.r - to_s8 (↑px.g - ↑pp.g)) ≥ -32 ∧
      to_s8 (↑px.r - ↑pp.r - to_s8 (↑px.g - ↑pp.g)) ≤ 31 ∧
      to_s8 (↑px.b - ↑pp.b - to_s8 (↑px.g - ↑pp.g)) ≥ -32 ∧
      to_s8 (↑px.b - ↑pp.b - to_s8 (↑px.g - ↑pp.g)) ≤ 31
  · rw [if_pos h5]
    obtain ⟨e1, e2, e3⟩ := qoi_luma3_inv px pp hpx hpp ha _ _ _ rfl rfl rfl h5
    exact Or.inr (Or.inr (Or.inr (Or.inl ⟨_, _, _, rfl, e1, e2, e3⟩)))
  rw [if_neg h5]
  refine Or.inr (Or.inr (Or.inr (Or.inr ⟨_, _, _, rfl, ?_⟩)))
  obtain ⟨pr, pg, pb, pa⟩ := px
  obtain ⟨qr, qg, qb, qa⟩ := pp
  simp only [qoi_rgba_t.mk.injEq, true_and]
  exact ha

/-! ## The decoder on the bytes of one chunk -/

theorem qoi_step_chunk (out : List Nat) (cl : Nat) (d : qoi_decoder)
    (hr : d.run = 0) (hp : d.p < cl) :
    qoi_decode_step out cl d = qoi_decode_chunk out d := by
  unfold qoi_decode_step
  rw [if_neg (by omega), if_pos hp]

theorem qoi_chunk_luma (out : List Nat) (d : qoi_decoder) (b1 : Nat)
    (h0 : out[d.p]? = some b1) (ht : b1 < 0x80) :
    qoi_decode_chunk out d = some (.emit (qoi_decode_insert
      { d with p := d.p + 1, tags := d.tags ++ [b1] } (qoi_luma d.px b1))) := by
  unfold qoi_decode_chunk
  rw [h0]
  dsimp only
  rw [if_pos ht]

theorem qoi_chunk_index (out : List Nat) (d : qoi_decoder) (b1 : Nat)
    (h0 : out[d.p]? = some b1) (ht : 0x80 ≤ b1 ∧ b1 < 0xc0) :
    qoi_decode_chunk out d = some (.emit
      { d with p := d.p + 1, tags := d.tags ++ [b1],
               px := d.index.getD (b1 &&& 63) qoi_zero_px }) := by
  unfold qoi_decode_chunk
  rw [h0]
  dsimp only
  rw [if_neg (by omega), if_pos ht.2]

theorem qoi_chunk_luma2 (out : List Nat) (d : qoi_decoder) (b1 b2 : Nat)
    (h0 : out[d.p]? = some b1) (h1 : out[d.p + 1]? = some b2) (ht : 0xc0 ≤ b1 ∧ b1 < 0xe0) :
    qoi_decode_chunk out d = some (.emit (qoi_decode_insert
      { d with p := d.p + 1 + 1, tags := d.tags ++ [b1] } (qoi_luma2 d.px b1 b2))) := by
  unfold qoi_decode_chunk
  rw [h0]
  dsimp only
  rw [if_neg (by omega), if_neg (by omega), if_pos ht.2, h1]

theorem qoi_chunk_luma3 (out : List Nat) (d : qoi_decoder) (b1 b2 b3 : Nat)
    (h0 : out[d.p]? = some b1) (h1 : out[d.p + 1]? = some b2)
    (h2 : out[d.p + 1 + 1]? = some b3) (ht : 0xe0 ≤ b1 ∧ b1 < 0xf0) :
    qoi_decode_chunk out d = some (.emit (qoi_decode_insert
      { d with p := d.p + 1 + 2, tags := d.tags ++ [b1] } (qoi_luma3 d.px b1 b2 b3))) := by
  unfold qoi_decode_chunk
  rw [h0]
  dsimp only
  rw [if_neg (by omega), if_neg (by omega), if_neg (by omega), if_pos ht.2, h1, h2]

theorem qoi_chunk_run (out : List Nat) (d : qoi_decoder) (b1 : Nat)
    (h0 : out[d.p]? = some b1) (ht : 0xf0 ≤ b1 ∧ b1 < 0xf8) :
    qoi_decode_chunk out d = some (.emit
      { d with p := d.p + 1, tags := d.tags ++ [b1], run := b1 &&& 7 }) := by
  unfold qoi_decode_chunk
  rw [h0]
  dsimp only
  rw [if_neg (by omega), if_neg (by omega), if_neg (by omega), if_neg (by omega), if_pos ht.2]

theorem qoi_chunk_run2 (out : List Nat) (d : qoi_decoder) (b1 b2 : Nat)
    (h0 : out[d.p]? = some b1) (h1 : out[d.p + 1]? = some b2) (ht : 0xf8 ≤ b1 ∧ b1 < 0xfc) :
    qoi_decode_chunk out d = some (.emit
      { d with p := d.p + 1 + 1, tags := d.tags ++ [b1], run := ((b1 &&& 3) <<< 8) ||| b2 }) := by
  unfold qoi_decode_chunk
  rw [h0]
  dsimp only
  rw [if_neg (by omega), if_neg (by omega), if_neg (by omega), if_neg (by omega),
    if_neg (by omega), if_pos ht.2, h1]

theorem qoi_chunk_gray (out : List Nat) (d : qoi_decoder) (b2 : Nat)
    (h0 : out[d.p]? = some QOI_OP_GRAY) (h1 : out[d.p + 1]? = some b2) :
    qoi_decode_chunk out d = some (.emit (qoi_decode_insert
      { d with p := d.p + 1 + 1, tags := d.tags ++ [QOI_OP_GRAY] }
      { d.px with r := b2 % 256, g := b2 % 256, b := b2 % 256 })) := by
  unfold qoi_decode_chunk
  rw [h0]
  dsimp only
  rw [if_neg (by decide), if_neg (by decide), if_neg (by decide), if_neg (by decide),
    if_neg (by decide), if_neg (by decide), if_pos rfl, h1]

theorem qoi_chunk_rgb (out : List Nat) (d : qoi_decoder) (r g b : Nat)
    (h0 : out[d.p]? = some QOI_OP_RGB) (h1 : out[d.p + 1]? = some r)
    (h2 : out[d.p + 1 + 1]? = some g) (h3 : out[d.p + 1 + 2]? = some b) :
    qoi_decode_chunk out d = some (.emit (qoi_decode_insert
      { d with p := d.p + 1 + 3, tags := d.tags ++ [QOI_OP_RGB] }
      { d.px with r := r, g := g, b := b })) := by
  unfold qoi_decode_chunk
  rw [h0]
  dsimp only
  rw [if_neg (by decide), if_neg (by decide), if_neg (by decide), if_neg (by decide),
    if_neg (by decide), if_neg (by decide), if_neg (by decide), if_pos rfl, h1, h2, h3]

theorem qoi_chunk_alpha (out : List Nat) (d : qoi_decoder) (a : Nat)
    (h0 : out[d.p]? = some QOI_OP_A) (h1 : out[d.p + 1]? = some a) :
    qoi_decode_chunk out d = some (.again
      { d with p := d.p + 1 + 1, tags := d.tags ++ [QOI_OP_A], px := { d.px with a := a } }) := by
  unfold qoi_decode_chunk
  rw [h0]
  dsimp only
  rw [if_neg (by decide), if_neg (by decide), if_neg (by decide), if_neg (by decide),
    if_neg (by decide), if_neg (by decide), if_neg (by decide), if_neg (by decide),
    if_pos rfl, h1]

/-- Reading inside a known segment of the buffer. -/
theorem prefix_get (A e out : List Nat) (h : A ++ e <+: out) (i : Nat) (hi : i < e.length) :
    out[A.length + i]? = e[i]? := by
  obtain ⟨t, rfl⟩ := h
  rw [List.append_assoc, List.getElem?_append_right (by omega), Nat.add_sub_cancel_left,
    List.getElem?_append_left hi]

theorem qoi_px_bytes_length (channels : Nat) (px : qoi_rgba_t)
    (h : channels = 3 ∨ channels = 4) : (qoi_px_bytes channels px).length = channels := by
  rcases h with h | h <;> simp [qoi_px_bytes, h]

/-- A pending run of `m` in the decoder: `m` iterations, each writing the current pixel. -/
theorem qoi_decode_run_repeat (out : List Nat) (pl och : Nat)
    (hlen : 4 ≤ out.length) (hoch : 0 < och) :
    ∀ (m : Nat) (d : qoi_decoder), d.run = m → d.px_pos + m * och ≤ pl →
      qoi_decode_run out (out.length - 4) pl och d =
        qoi_decode_run out (out.length - 4) pl och
          { d with run := 0, px_pos := d.px_pos + m * och,
                   pixels := d.pixels ++ (List.replicate m (qoi_px_bytes och d.px)).flatten } := by
  intro m
  induction m with
  | zero =>
    intro d hr _
    congr 1
    obtain ⟨a, b, c, r, e, f, g, h⟩ := d
    simp only at hr
    simp [hr]
  | succ m ih =>
    intro d hr hroom
    have hlt : d.px_pos < pl := by
      rw [Nat.succ_mul] at hroom; omega
    have hst : qoi_decode_step out (out.length - 4) d = some (.emit { d with run := d.run - 1 }) := by
      unfold qoi_decode_step
      rw [if_pos (by omega)]
    rw [qoi_decode_run_emit out _ pl och (by omega) hoch d _ hlt hst]
    rw [ih (qoi_decode_write och { d with run := d.run - 1 })
      (by simp only [qoi_decode_write]; omega)
      (by simp only [qoi_decode_write]; rw [Nat.succ_mul] at hroom; omega)]
    congr 1
    simp only [qoi_decode_write, qoi_px_bytes, List.replicate_succ, List.flatten_cons,
      List.append_assoc, Nat.succ_mul]
    congr 1
    omega

/-- A run chunk (by the first iteration `d ↦ d1`) of stored value `m` writes `m + 1` copies
of the current pixel. -/
theorem qoi_decode_run_chunk (out : List Nat) (pl och : Nat)
    (hlen : 4 ≤ out.length) (hoch : 0 < och) (d d1 : qoi_decoder) (m : Nat)
    (hst : qoi_decode_step out (out.length - 4) d = some (.emit d1))
    (h1 : d1.run = m) (h2 : d1.px = d.px) (h3 : d1.pixels = d.pixels)
    (h4 : d1.px_pos = d.px_pos) (hroom : d.px_pos + (m + 1) * och ≤ pl) :
    qoi_decode_run out (out.length - 4) pl och d =
      qoi_decode_run out (out.length - 4) pl och
        { d1 with run := 0, px_pos := d.px_pos + (m + 1) * och,
                  pixels := d.pixels ++
                    (List.replicate (m + 1) (qoi_px_bytes och d.px)).flatten } := by
  have hlt : d.px_pos < pl := by
    rw [Nat.succ_mul] at hroom; omega
  rw [qoi_decode_run_emit out _ pl och (by omega) hoch d _ hlt hst]
  rw [qoi_decode_run_repeat out pl och hlen hoch m (qoi_decode_write och d1)
    (by simp only [qoi_decode_write]; exact h1)
    (by simp only [qoi_decode_write]; rw [Nat.succ_mul] at hroom; omega)]
  congr 1
  simp only [qoi_decode_write, qoi_px_bytes, List.replicate_succ, List.flatten_cons,
    List.append_assoc, Nat.succ_mul, h2, h3, h4]
  congr 1
  omega

/-! ## The decoder on the chunks of one encoder iteration -/

/-- The decoder reads a run chunk of stored value `m` as `m + 1` copies of its pixel. -/
theorem qoi_sim_run (out : List Nat) (pl och : Nat) (hlen : 4 ≤ out.length) (hoch : 0 < och)
    (A c : List Nat) (m : Nat) (hc : qoi_run_chunk m c) (d : qoi_decoder)
    (hp : d.p = A.length) (hr : d.run = 0)
    (hpre : A ++ c <+: out) (h4 : (A ++ c).length + 4 ≤ out.length)
    (hroom : d.px_pos + (m + 1) * och ≤ pl) :
    ∃ d1, qoi_decode_run out (out.length - 4) pl och d =
        qoi_decode_run out (out.length - 4) pl och d1 ∧
      d1.p = (A ++ c).length ∧ d1.run = 0 ∧ d1.px = d.px ∧ d1.index = d.index ∧
      d1.index_pos = d.index_pos ∧ d1.px_pos = d.px_pos + (m + 1) * och ∧
      d1.pixels = d.pixels ++ (List.replicate (m + 1) (qoi_px_bytes och d.px)).flatten := by
  rcases hc with ⟨hm, rfl⟩ | ⟨hm, rfl⟩
  · obtain ⟨t1, t2, t3⟩ := run_bits m hm
    have h0 : out[d.p]? = some ((QOI_OP_RUN ||| m) % 256) := by
      have := prefix_get A _ out hpre 0 (by simp)
      rw [hp]; simpa using this
    simp only [List.length_append, List.length_cons, List.length_nil] at h4 ⊢
    have hst : qoi_decode_step out (out.length - 4) d = some (.emit
        { d with p := d.p + 1, tags := d.tags ++ [(QOI_OP_RUN ||| m) % 256],
                 run := ((QOI_OP_RUN ||| m) % 256) &&& 7 }) := by
      rw [qoi_step_chunk out _ d hr (by omega)]
      exact qoi_chunk_run out d _ h0 (by simp only [QOI_OP_RUN]; omega)
    refine ⟨_, qoi_decode_run_chunk out pl och hlen hoch d _ m hst
      (by simp only [QOI_OP_RUN]; exact t3) rfl rfl rfl hroom, ?_⟩
    simp only [hp, and_self, true_and]
  · obtain ⟨t1, t2, t3⟩ := run2_bits m hm
    have h0 : out[d.p]? = some ((QOI_OP_RUN2 ||| ((m >>> 8) &&& 3)) % 256) := by
      have := prefix_get A _ out hpre 0 (by simp)
      rw [hp]; simpa using this
    have h1 : out[d.p + 1]? = some ((m &&& 0xff) % 256) := by
      have := prefix_get A _ out hpre 1 (by simp)
      rw [hp]; simpa using this
    simp only [List.length_append, List.length_cons, List.length_nil] at h4 ⊢
    have hst : qoi_decode_step out (out.length - 4) d = some (.emit
        { d with p := d.p + 1 + 1,
                 tags := d.tags ++ [(QOI_OP_RUN2 ||| ((m >>> 8) &&& 3)) % 256],
                 run := ((((QOI_OP_RUN2 ||| ((m >>> 8) &&& 3)) % 256) &&& 3) <<< 8) |||
                   ((m &&& 0xff) % 256) }) := by
      rw [qoi_step_chunk out _ d hr (by omega)]
      exact qoi_chunk_run2 out d _ _ h0 h1 (by simp only [QOI_OP_RUN2]; omega)
    refine ⟨_, qoi_decode_run_chunk out pl och hlen hoch d _ m hst
      (by simp only [QOI_OP_RUN2]; exact t3) rfl rfl rfl hroom, ?_⟩
    simp only [hp, and_self, true_and]

/-- The decoder reads a `QOI_OP_INDEX` chunk as the pixel in the named slot. -/
theorem qoi_sim_index (out : List Nat) (pl och : Nat) (hlen : 4 ≤ out.length) (hoch : 0 < och)
    (A : List Nat) (slot : Nat) (hslot : slot < 64) (d : qoi_decoder)
    (hp : d.p = A.length) (hr : d.run = 0)
    (hpre : A ++ [(QOI_OP_INDEX ||| slot) % 256] <+: out)
    (h4 : (A ++ [(QOI_OP_INDEX ||| slot) % 256]).length + 4 ≤ out.length)
    (hroom : d.px_pos < pl) :
    ∃ d1, qoi_decode_run out (out.length - 4) pl och d =
        qoi_decode_run out (out.length - 4) pl och d1 ∧
      d1.p = (A ++ [(QOI_OP_INDEX ||| slot) % 256]).length ∧ d1.run = 0 ∧
      d1.px = d.index.getD slot qoi_zero_px ∧ d1.index = d.index ∧
      d1.index_pos = d.index_pos ∧ d1.px_pos = d.px_pos + och ∧
      d1.pixels = d.pixels ++ qoi_px_bytes och (d.index.getD slot qoi_zero_px) := by
  obtain ⟨t1, t2, t3⟩ := index_bits slot hslot
  have h0 : out[d.p]? = some ((QOI_OP_INDEX ||| slot) % 256) := by
    have := prefix_get A _ out hpre 0 (by simp)
    rw [hp]; simpa using this
  simp only [List.length_append, List.length_cons, List.length_nil] at h4 ⊢
  have hst : qoi_decode_step out (out.length - 4) d = some (.emit
      { d with p := d.p + 1, tags := d.tags ++ [(QOI_OP_INDEX ||| slot) % 256],
               px := d.index.getD (((QOI_OP_INDEX ||| slot) % 256) &&& 63) qoi_zero_px }) := by
    rw [qoi_step_chunk out _ d hr (by omega)]
    exact qoi_chunk_index out d _ h0 (by simp only [QOI_OP_INDEX]; omega)
  refine ⟨_, qoi_decode_run_emit out _ pl och (by omega) hoch d _ hroom hst, ?_⟩
  simp only [QOI_OP_INDEX] at t3 ⊢
  simp only [qoi_decode_write, qoi_px_bytes, hp, hr, t3, and_self, true_and, List.append_assoc]

/-- The decoder reads the bytes of the cascade as the encoded pixel, and inserts it. -/
theorem qoi_sim_diff (out : List Nat) (pl och : Nat) (hlen : 4 ≤ out.length) (hoch : 0 < och)
    (A : List Nat) (px : qoi_rgba_t) (d : qoi_decoder)
    (hpx : qoi_px_ok px) (hdpx : qoi_px_ok d.px) (ha : d.px.a = px.a)
    (hp : d.p = A.length) (hr : d.run = 0)
    (hpre : A ++ qoi_encode_diff px d.px <+: out)
    (h4 : (A ++ qoi_encode_diff px d.px).length + 4 ≤ out.length)
    (hroom : d.px_pos < pl) :
    ∃ d1, qoi_decode_run out (out.length - 4) pl och d =
        qoi_decode_run out (out.length - 4) pl och d1 ∧
      d1.p = (A ++ qoi_encode_diff px d.px).length ∧ d1.run = 0 ∧
      d1.px = px ∧ d1.index = d.index.set (d.index_pos &&& 63) px ∧
      d1.index_pos = d.index_pos + 1 ∧ d1.px_pos = d.px_pos + och ∧
      d1.pixels = d.pixels ++ qoi_px_bytes och px := by
  rcases qoi_encode_diff_inv px d.px hpx hdpx ha with
    ⟨b1, he, t1, e1⟩ | ⟨b2, he, e1⟩ | ⟨b1, b2, he, t1, t2, e1⟩ |
    ⟨b1, b2, b3, he, t1, t2, e1⟩ | ⟨r, g, b, he, e1⟩
  · rw [he] at hpre h4 ⊢
    have h0 : out[d.p]? = some b1 := by
      have := prefix_get A _ out hpre 0 (by simp)
      rw [hp]; simpa using this
    simp only [List.length_append, List.length_cons, List.length_nil] at h4 ⊢
    have hst := qoi_chunk_luma out d b1 h0 t1
    rw [← qoi_step_chunk out (out.length - 4) d hr (by omega)] at hst
    refine ⟨_, qoi_decode_run_emit out _ pl och (by omega) hoch d _ hroom hst, ?_⟩
    simp only [qoi_decode_write, qoi_decode_insert, qoi_px_bytes, hp, hr, e1, and_self, List.append_assoc,
      true_and]
  · rw [he] at hpre h4 ⊢
    have h0 : out[d.p]? = some QOI_OP_GRAY := by
      have := prefix_get A _ out hpre 0 (by simp)
      rw [hp]; simpa using this
    have h1 : out[d.p + 1]? = some b2 := by
      have := prefix_get A _ out hpre 1 (by simp)
      rw [hp]; simpa using this
    simp only [List.length_append, List.length_cons, List.length_nil] at h4 ⊢
    have hst := qoi_chunk_gray out d b2 h0 h1
    rw [← qoi_step_chunk out (out.length - 4) d hr (by omega)] at hst
    refine ⟨_, qoi_decode_run_emit out _ pl och (by omega) hoch d _ hroom hst, ?_⟩
    simp only [qoi_decode_write, qoi_decode_insert, qoi_px_bytes, hp, hr, e1, and_self, List.append_assoc,
      true_and]
  · rw [he] at hpre h4 ⊢
    have h0 : out[d.p]? = some b1 := by
      have := prefix_get A _ out hpre 0 (by simp)
      rw [hp]; simpa using this
    have h1 : out[d.p + 1]? = some b2 := by
      have := prefix_get A _ out hpre 1 (by simp)
      rw [hp]; simpa using this
    simp only [List.length_append, List.length_cons, List.length_nil] at h4 ⊢
    have hst := qoi_chunk_luma2 out d b1 b2 h0 h1 ⟨t1, t2⟩
    rw [← qoi_step_chunk out (out.length - 4) d hr (by omega)] at hst
    refine ⟨_, qoi_decode_run_emit out _ pl och (by omega) hoch d _ hroom hst, ?_⟩
    simp only [qoi_decode_write, qoi_decode_insert, qoi_px_bytes, hp, hr, e1, and_self, List.append_assoc,
      true_and]
  · rw [he] at hpre h4 ⊢
    have h0 : out[d.p]? = some b1 := by
      have := prefix_get A _ out hpre 0 (by simp)
      rw [hp]; simpa using this
    have h1 : out[d.p + 1]? = some b2 := by
      have := prefix_get A _ out hpre 1 (by simp)
      rw [hp]; simpa using this
    have h2 : out[d.p + 1 + 1]? = some b3 := by
      have := prefix_get A _ out hpre 2 (by simp)
      rw [hp]; simpa using this
    simp only [List.length_append, List.length_cons, List.length_nil] at h4 ⊢
    have hst := qoi_chunk_luma3 out d b1 b2 b3 h0 h1 h2 ⟨t1, t2⟩
    rw [← qoi_step_chunk out (out.length - 4) d hr (by omega)] at hst
    refine ⟨_, qoi_decode_run_emit out _ pl och (by omega) hoch d _ hroom hst, ?_⟩
    simp only [qoi_decode_write, qoi_decode_insert, qoi_px_bytes, hp, hr, e1, and_self, List.append_assoc,
      true_and]
  · rw [he] at hpre h4 ⊢
    have h0 : out[d.p]? = some QOI_OP_RGB := by
      have := prefix_get A _ out hpre 0 (by simp)
      rw [hp]; simpa using this
    have h1 : out[d.p + 1]? = some r := by
      have := prefix_get A _ out hpre 1 (by simp)
      rw [hp]; simpa using this
    have h2 : out[d.p + 1 + 1]? = some g := by
      have := prefix_get A _ out hpre 2 (by simp)
      rw [hp]; simpa using this
    have h3 : out[d.p + 1 + 2]? = some b := by
      have := prefix_get A _ out hpre 3 (by simp)
      rw [hp]; simpa using this
    simp only [List.length_append, List.length_cons, List.length_nil] at h4 ⊢
    have hst := qoi_chunk_rgb out d r g b h0 h1 h2 h3
    rw [← qoi_step_chunk out (out.length - 4) d hr (by omega)] at hst
    refine ⟨_, qoi_decode_run_emit out _ pl och (by omega) hoch d _ hroom hst, ?_⟩
    simp only [qoi_decode_write, qoi_decode_insert, qoi_px_bytes, hp, hr, e1, and_self, List.append_assoc,
      true_and]

theorem qoi_encode_diff_alpha (px pp : qoi_rgba_t) (a : Nat) :
    qoi_encode_diff px { pp with a := a } = qoi_encode_diff px pp := rfl

/-- The decoder reads the alpha preamble and the cascade bytes as the encoded pixel. -/
theorem qoi_sim_alpha_diff (out : List Nat) (pl och : Nat) (hlen : 4 ≤ out.length)
    (hoch : 0 < och) (A : List Nat) (px : qoi_rgba_t) (d : qoi_decoder)
    (hpx : qoi_px_ok px) (hdpx : qoi_px_ok d.px)
    (hp : d.p = A.length) (hr : d.run = 0)
    (hpre : A ++ qoi_encode_alpha px d.px ++ qoi_encode_diff px d.px <+: out)
    (h4 : (A ++ qoi_encode_alpha px d.px ++ qoi_encode_diff px d.px).length + 4 ≤ out.length)
    (hroom : d.px_pos < pl) :
    ∃ d1, qoi_decode_run out (out.length - 4) pl och d =
        qoi_decode_run out (out.length - 4) pl och d1 ∧
      d1.p = (A ++ qoi_encode_alpha px d.px ++ qoi_encode_diff px d.px).length ∧ d1.run = 0 ∧
      d1.px = px ∧ d1.index = d.index.set (d.index_pos &&& 63) px ∧
      d1.index_pos = d.index_pos + 1 ∧ d1.px_pos = d.px_pos + och ∧
      d1.pixels = d.pixels ++ qoi_px_bytes och px := by
  by_cases h : px.a = d.px.a
  · have hal : qoi_encode_alpha px d.px = [] := by simp [qoi_encode_alpha, h]
    rw [hal, List.append_nil] at hpre h4 ⊢
    exact qoi_sim_diff out pl och hlen hoch A px d hpx hdpx h.symm hp hr hpre h4 hroom
  · have hal : qoi_encode_alpha px d.px = [QOI_OP_A, px.a] := by simp [qoi_encode_alpha, h]
    rw [hal] at hpre h4 ⊢
    have hpre0 : A ++ [QOI_OP_A, px.a] <+: out :=
      List.IsPrefix.trans (List.prefix_append _ _) hpre
    have h0 : out[d.p]? = some QOI_OP_A := by
      have := prefix_get A _ out hpre0 0 (by simp)
      rw [hp]; simpa using this
    have h1 : out[d.p + 1]? = some px.a := by
      have := prefix_get A _ out hpre0 1 (by simp)
      rw [hp]; simpa using this
    have hl4 := h4
    simp only [List.length_append, List.length_cons, List.length_nil] at hl4
    have hst := qoi_chunk_alpha out d px.a h0 h1
    rw [← qoi_step_chunk out (out.length - 4) d hr (by omega)] at hst
    rw [qoi_decode_run_again out _ pl och (by omega) hoch d _ hroom hst]
    obtain ⟨d1, e1, e2, e3, e4, e5, e6, e7, e8⟩ := qoi_sim_diff out pl och hlen hoch
      (A ++ [QOI_OP_A, px.a]) px
      { d with p := d.p + 1 + 1, tags := d.tags ++ [QOI_OP_A], px := { d.px with a := px.a } }
      hpx ⟨hdpx.1, hdpx.2.1, hdpx.2.2.1, hpx.2.2.2⟩ rfl
      (by simp [hp]) hr (by rw [qoi_encode_diff_alpha]; exact hpre)
      (by rw [qoi_encode_diff_alpha]; exact h4) hroom
    rw [qoi_encode_diff_alpha] at e2
    exact ⟨d1, e1, e2, e3, e4, e5, e6, e7, e8⟩

/-! ## The image as the encoder reads it, and as the decoder writes it -/

theorem qoi_expected_zero (pixels : List Nat) (ch och : Nat) :
    qoi_expected pixels ch och 0 = [] := rfl

theorem qoi_expected_succ (pixels : List Nat) (ch och k : Nat) :
    qoi_expected pixels ch och (k + 1) =
      qoi_expected pixels ch och k ++ qoi_px_bytes och (qoi_pixel_at pixels ch k) := by
  simp [qoi_expected, List.range_succ]

theorem qoi_expected_run (pixels : List Nat) (ch och : Nat) (p : qoi_rgba_t) :
    ∀ (r k : Nat), r ≤ k → (∀ j, j < r → qoi_pixel_at pixels ch (k - 1 - j) = p) →
      qoi_expected pixels ch och k =
        qoi_expected pixels ch och (k - r) ++ (List.replicate r (qoi_px_bytes och p)).flatten := by
  intro r
  induction r with
  | zero => intro k _ _; simp
  | succ r ih =>
    intro k hk hp
    obtain ⟨k, rfl⟩ : ∃ k', k = k' + 1 := ⟨k - 1, by omega⟩
    rw [qoi_expected_succ, ih k (by omega) (fun j hj => by
      have := hp (j + 1) (by omega)
      rw [show k + 1 - 1 - (j + 1) = k - 1 - j by omega] at this
      exact this)]
    have h0 := hp 0 (by omega)
    rw [show k + 1 - 1 - 0 = k by omega] at h0
    rw [h0, show k + 1 - (r + 1) = k - r by omega, List.replicate_succ', List.flatten_append,
      List.append_assoc]
    simp

theorem qoi_pixel_at_ok (pixels : List Nat) (ch k : Nat) (hpix : ∀ b ∈ pixels, b < 256) :
    qoi_px_ok (qoi_pixel_at pixels ch k) := by
  have key : ∀ i, pixels.getD i 0 < 256 := by
    intro i
    rw [List.getD_eq_getElem?_getD]
    cases hi : pixels[i]? with
    | none => simp
    | some v => simpa using hpix v (List.getElem?_mem hi)
  unfold qoi_pixel_at qoi_encode_load qoi_px_ok
  refine ⟨key _, key _, key _, ?_⟩
  simp only
  split_ifs
  · exact key _
  · simp [qoi_start_px]

theorem qoi_encode_load_eq (pixels : List Nat) (ch k : Nat) (px0 : qoi_rgba_t)
    (h : ch ≠ 4 → px0.a = 255) :
    qoi_encode_load pixels ch (k * ch) px0 = qoi_pixel_at pixels ch k := by
  unfold qoi_pixel_at qoi_encode_load
  by_cases h4 : ch = 4
  · simp [h4]
  · simp [h4, h h4, qoi_start_px]

/-! ## The simulation invariant -/

theorem qoi_pixel_at_alpha (pixels : List Nat) (ch k : Nat) (h : ch ≠ 4) :
    (qoi_pixel_at pixels ch k).a = 255 := by
  simp [qoi_pixel_at, qoi_encode_load, h, qoi_start_px]

theorem getD_px_ok (l : List qoi_rgba_t) (i : Nat) (h : ∀ e ∈ l, qoi_px_ok e) :
    qoi_px_ok (l.getD i qoi_zero_px) := by
  rw [List.getD_eq_getElem?_getD]
  cases hi : l[i]? with
  | none => simp [qoi_px_ok, qoi_zero_px]
  | some v => simpa using h v (List.getElem?_mem hi)

/-- One encoder iteration keeps the encoder side of the invariant. -/
theorem qoi_enc_ok_step (pixels : List Nat) (ch n : Nat) (hpix : ∀ b ∈ pixels, b < 256)
    (k : Nat) (s : qoi_encoder) (he : qoi_enc_ok pixels ch n k s)
    (last : Bool) (hlast : last = true ↔ k + 1 = n) :
    qoi_enc_ok pixels ch n (k + 1)
      (qoi_encode_body (qoi_pixel_at pixels ch k) last
        { s with px := qoi_pixel_at pixels ch k }) := by
  obtain ⟨h1, h2, h3, h4, h5, h6, h7, h8⟩ := he
  have hpx := qoi_pixel_at_ok pixels ch k hpix
  have htab := qoi_encode_body_tables (qoi_pixel_at pixels ch k) last
    { s with px := qoi_pixel_at pixels ch k } h1
  have hrun : ∀ j, j < s.run + 1 → qoi_pixel_at pixels ch k = s.px_prev →
      qoi_pixel_at pixels ch (k + 1 - 1 - j) = s.px_prev := by
    intro j hj heq
    rcases Nat.eq_zero_or_pos j with rfl | hjp
    · exact heq
    · have := h7 (j - 1) (by omega)
      rw [show k - 1 - (j - 1) = k + 1 - 1 - j by omega] at this
      exact this
  refine ⟨htab, ?_⟩
  unfold qoi_encode_body
  simp only
  by_cases c1 : (qoi_pixel_at pixels ch k).v = s.px_prev.v
  · have heq := qoi_v_inj _ _ hpx h3 c1
    rw [if_pos c1]
    by_cases c2 : s.run + 1 = 1024 ∨ last = true
    · rw [if_pos c2]
      exact ⟨fun h => qoi_pixel_at_alpha pixels ch k h, h3, h4, Nat.zero_le _,
        by simp only; omega, fun j hj => absurd hj (Nat.not_lt_zero _), fun _ => rfl⟩
    · rw [if_neg c2]
      refine ⟨fun h => qoi_pixel_at_alpha pixels ch k h, h3, h4, by simp only; omega,
        by simp only; omega, fun j hj => hrun j hj heq, ?_⟩
      intro hn
      exact absurd (Or.inr (hlast.2 hn)) c2
  · rw [if_neg c1]
    by_cases c3 : ((qoi_encode_flush { s with px := qoi_pixel_at pixels ch k }).index.getD
        ((qoi_encode_flush { s with px := qoi_pixel_at pixels ch k }).index_lookup.getD
          (QOI_COLOR_HASH (qoi_pixel_at pixels ch k)) 0) qoi_zero_px).v =
        (qoi_pixel_at pixels ch k).v
    · rw [if_pos c3]
      simp only [qoi_encode_flush_px, qoi_encode_flush_index, qoi_encode_flush_run]
      exact ⟨fun h => qoi_pixel_at_alpha pixels ch k h, hpx, h4, Nat.zero_le _, by omega,
        fun j hj => absurd hj (Nat.not_lt_zero _), fun _ => trivial⟩
    · rw [if_neg c3]
      simp only [qoi_encode_flush_px, qoi_encode_flush_index, qoi_encode_flush_run,
        qoi_encode_flush_index_pos]
      refine ⟨fun h => qoi_pixel_at_alpha pixels ch k h, hpx, ?_, Nat.zero_le _, by omega,
        fun j hj => absurd hj (Nat.not_lt_zero _), fun _ => trivial⟩
      intro e he
      rcases List.mem_or_eq_of_mem_set he with he | he
      · exact h4 e he
      · rw [he]; exact hpx

theorem sub_mul_add_mul (k r och : Nat) (h : r ≤ k) : (k - r) * och + r * och = k * och := by
  rw [← Nat.add_mul, Nat.sub_add_cancel h]

/-- The decoder follows the pending-run flush of the encoder. -/
theorem qoi_sync_flush (pixels : List Nat) (ch och n : Nat) (hoch : 0 < och)
    (k : Nat) (hk : k ≤ n) (s : qoi_encoder)
    (h5 : s.run ≤ k) (h6 : s.run < 1024)
    (h7 : ∀ j, j < s.run → qoi_pixel_at pixels ch (k - 1 - j) = s.px_prev)
    (out : List Nat) (hlen : 4 ≤ out.length) (d : qoi_decoder)
    (hs : qoi_sync pixels ch och k s d)
    (hpre : (qoi_encode_flush s).bytes <+: out)
    (h4 : (qoi_encode_flush s).bytes.length + 4 ≤ out.length) :
    ∃ d1, qoi_decode_run out (out.length - 4) (n * och) och d =
        qoi_decode_run out (out.length - 4) (n * och) och d1 ∧
      d1.p = (qoi_encode_flush s).bytes.length ∧ d1.run = 0 ∧ d1.px = s.px_prev ∧
      d1.index = s.index ∧ d1.index_pos % 64 = s.index_pos ∧ d1.px_pos = k * och ∧
      d1.pixels = qoi_expected pixels ch och k := by
  obtain ⟨s1, s2, s3, s4, s5, s6, s7⟩ := hs
  have hchunk : ∀ c, qoi_run_chunk (s.run - 1) c → 0 < s.run →
      s.bytes ++ c <+: out → (s.bytes ++ c).length + 4 ≤ out.length →
      ∃ d1, qoi_decode_run out (out.length - 4) (n * och) och d =
        qoi_decode_run out (out.length - 4) (n * och) och d1 ∧
      d1.p = (s.bytes ++ c).length ∧ d1.run = 0 ∧ d1.px = s.px_prev ∧
      d1.index = s.index ∧ d1.index_pos % 64 = s.index_pos ∧ d1.px_pos = k * och ∧
      d1.pixels = qoi_expected pixels ch och k := by
    intro c hc h0 hp1 hp2
    have hroom : d.px_pos + (s.run - 1 + 1) * och ≤ n * och := by
      rw [s6, Nat.sub_add_cancel h0, sub_mul_add_mul k s.run och h5]
      exact Nat.mul_le_mul_right _ hk
    obtain ⟨d1, e1, e2, e3, e4, e5, e6, e7, e8⟩ := qoi_sim_run out (n * och) och hlen hoch
      s.bytes c (s.run - 1) hc d s1 s2 hp1 hp2 hroom
    refine ⟨d1, e1, e2, e3, by rw [e4, s3], by rw [e5, s4], by rw [e6, s5], ?_, ?_⟩
    · rw [e7, s6, Nat.sub_add_cancel h0, sub_mul_add_mul k s.run och h5]
    · rw [e8, s7, s3, Nat.sub_add_cancel h0]
      exact (qoi_expected_run pixels ch och s.px_prev s.run k h5 h7).symm
  rcases qoi_encode_flush_eq s with ⟨h0, h⟩ | ⟨h0, h8, h⟩ | ⟨h0, h8, h⟩
  · rw [h]
    rw [h0, Nat.sub_zero] at s6 s7
    exact ⟨d, rfl, s1, s2, s3, s4, s5, s6, s7⟩
  · rw [h] at hpre h4 ⊢
    exact hchunk _ (Or.inl ⟨h8, rfl⟩) h0 hpre h4
  · rw [h] at hpre h4 ⊢
    exact hchunk _ (Or.inr ⟨by omega, rfl⟩) h0 hpre h4

/-- The decoder follows one iteration of the encoder. -/
theorem qoi_sync_step (pixels : List Nat) (ch och n : Nat) (hpix : ∀ b ∈ pixels, b < 256)
    (hoch : 0 < och) (k : Nat) (hk : k < n) (s : qoi_encoder)
    (he : qoi_enc_ok pixels ch n k s) (last : Bool)
    (out : List Nat) (hlen : 4 ≤ out.length) (d : qoi_decoder)
    (hs : qoi_sync pixels ch och k s d)
    (hpre : (qoi_encode_body (qoi_pixel_at pixels ch k) last
      { s with px := qoi_pixel_at pixels ch k }).bytes <+: out)
    (h4 : (qoi_encode_body (qoi_pixel_at pixels ch k) last
      { s with px := qoi_pixel_at pixels ch k }).bytes.length + 4 ≤ out.length) :
    ∃ d1, qoi_decode_run out (out.length - 4) (n * och) och d =
        qoi_decode_run out (out.length - 4) (n * och) och d1 ∧
      qoi_sync pixels ch och (k + 1)
        (qoi_encode_body (qoi_pixel_at pixels ch k) last
          { s with px := qoi_pixel_at pixels ch k }) d1 := by
  obtain ⟨h1, h2, h3, h4', h5, h6, h7, h8⟩ := he
  have hpx := qoi_pixel_at_ok pixels ch k hpix
  have hk1 : (k + 1) * och ≤ n * och := Nat.mul_le_mul_right _ hk
  have hklt : k * och < n * och := Nat.mul_lt_mul_of_pos_right hk hoch
  unfold qoi_encode_body at hpre h4 ⊢
  simp only at hpre h4 ⊢
  by_cases c1 : (qoi_pixel_at pixels ch k).v = s.px_prev.v
  · have heq := qoi_v_inj _ _ hpx h3 c1
    rw [if_pos c1] at hpre h4 ⊢
    have hrun : ∀ j, j < s.run + 1 → qoi_pixel_at pixels ch (k + 1 - 1 - j) = s.px_prev := by
      intro j hj
      rcases Nat.eq_zero_or_pos j with rfl | hjp
      · exact heq
      · have := h7 (j - 1) (by omega)
        rw [show k - 1 - (j - 1) = k + 1 - 1 - j by omega] at this
        exact this
    by_cases c2 : s.run + 1 = 1024 ∨ last = true
    · rw [if_pos c2] at hpre h4 ⊢
      simp only [Nat.add_sub_cancel] at hpre h4 ⊢
      obtain ⟨s1, s2, s3, s4, s5, s6, s7⟩ := hs
      have hroom : d.px_pos + (s.run + 1) * och ≤ n * och := by
        rw [s6, Nat.add_mul, ← Nat.add_assoc, sub_mul_add_mul k s.run och h5, Nat.one_mul,
          ← Nat.succ_mul]
        exact hk1
      obtain ⟨d1, e1, e2, e3, e4, e5, e6, e7, e8⟩ := qoi_sim_run out (n * och) och hlen hoch
        s.bytes _ s.run (Or.inr ⟨h6, rfl⟩) d s1 s2 hpre h4 hroom
      refine ⟨d1, e1, e2, e3, by rw [e4, s3], by rw [e5, s4], by rw [e6, s5], ?_, ?_⟩
      · simp only [Nat.sub_zero]
        rw [e7, s6, Nat.add_mul, ← Nat.add_assoc, sub_mul_add_mul k s.run och h5, Nat.one_mul,
          ← Nat.succ_mul]
      · simp only [Nat.sub_zero]
        rw [e8, s7, s3]
        have := qoi_expected_run pixels ch och s.px_prev (s.run + 1) (k + 1) (by omega) hrun
        rw [show k + 1 - (s.run + 1) = k - s.run by omega] at this
        exact this.symm
    · rw [if_neg c2] at hpre h4 ⊢
      obtain ⟨s1, s2, s3, s4, s5, s6, s7⟩ := hs
      refine ⟨d, rfl, s1, s2, s3, s4, s5, ?_, ?_⟩
      · simp only [show k + 1 - (s.run + 1) = k - s.run by omega]; exact s6
      · simp only [show k + 1 - (s.run + 1) = k - s.run by omega]; exact s7
  · rw [if_neg c1] at hpre h4 ⊢
    have g1 := qoi_encode_flush_px_prev { s with px := qoi_pixel_at pixels ch k }
    have g2 := qoi_encode_flush_index { s with px := qoi_pixel_at pixels ch k }
    have g3 := qoi_encode_flush_index_lookup { s with px := qoi_pixel_at pixels ch k }
    have g4 := qoi_encode_flush_index_pos { s with px := qoi_pixel_at pixels ch k }
    have g5 := qoi_encode_flush_run { s with px := qoi_pixel_at pixels ch k }
    have hsim := qoi_sync_flush pixels ch och n hoch k
        (Nat.le_of_lt hk) { s with px := qoi_pixel_at pixels ch k } h5 h6 h7 out hlen d hs
    simp only at g1 g2 g3 g4 g5
    generalize qoi_encode_flush { s with px := qoi_pixel_at pixels ch k } = sf at *
    by_cases c3 : (sf.index.getD (sf.index_lookup.getD
        (QOI_COLOR_HASH (qoi_pixel_at pixels ch k)) 0) qoi_zero_px).v =
        (qoi_pixel_at pixels ch k).v
    · rw [if_pos c3] at hpre h4 ⊢
      simp only at hpre h4
      have hpre0 : sf.bytes <+: out := List.IsPrefix.trans (List.prefix_append _ _) hpre
      have h40 : sf.bytes.length + 4 ≤ out.length := by
        simp only [List.length_append] at h4; omega
      obtain ⟨df, f1, f2, f3, f4, f5, f6, f7, f8⟩ := hsim hpre0 h40
      have hent := qoi_v_inj _ _ (getD_px_ok sf.index
        (sf.index_lookup.getD (QOI_COLOR_HASH (qoi_pixel_at pixels ch k)) 0)
        (by rw [g2]; exact h4')) hpx c3
      obtain ⟨d1, e1, e2, e3, e4, e5, e6, e7, e8⟩ := qoi_sim_index out (n * och) och hlen hoch
        sf.bytes _ (getD_lt_of_forall sf.index_lookup
          (QOI_COLOR_HASH (qoi_pixel_at pixels ch k)) (by rw [g3]; exact h1.2))
        df f2 f3 hpre h4 (by rw [f7]; exact hklt)
      rw [f5, ← g2, hent] at e4 e8
      refine ⟨d1, by rw [f1, e1], ?_⟩
      unfold qoi_sync
      simp only [g5, Nat.sub_zero]
      refine ⟨e2, e3, e4, by rw [e5, f5, g2], by rw [e6, f6, g4], ?_, ?_⟩
      · rw [e7, f7, Nat.succ_mul]
      · rw [e8, f8, qoi_expected_succ]
    · rw [if_neg c3] at hpre h4 ⊢
      simp only at hpre h4
      have hpre0 : sf.bytes <+: out := by
        rw [List.append_assoc] at hpre
        exact List.IsPrefix.trans (List.prefix_append _ _) hpre
      have h40 : sf.bytes.length + 4 ≤ out.length := by
        simp only [List.length_append] at h4; omega
      obtain ⟨df, f1, f2, f3, f4, f5, f6, f7, f8⟩ := hsim hpre0 h40
      rw [g1, ← f4] at hpre h4
      obtain ⟨d1, e1, e2, e3, e4, e5, e6, e7, e8⟩ := qoi_sim_alpha_diff out (n * och) och hlen
        hoch sf.bytes (qoi_pixel_at pixels ch k) df hpx (by rw [f4]; exact h3) f2 f3 hpre h4
        (by rw [f7]; exact hklt)
      rw [f4, ← g1] at e2
      refine ⟨d1, by rw [f1, e1], ?_⟩
      unfold qoi_sync
      simp only [g5, Nat.sub_zero]
      have h63 : ∀ x : Nat, x &&& 63 = x % 64 := by
        intro x
        rw [show (63 : Nat) = 2 ^ 6 - 1 by norm_num, Nat.and_pow_two_sub_one_eq_mod]
      refine ⟨e2, e3, e4, ?_, ?_, ?_, ?_⟩
      · rw [e5, f5, g2, g4, h63, f6]
      · rw [e6, h63, g4]
        have hmod : ∀ a b : Nat, a % 64 = b → (a + 1) % 64 = (b + 1) % 64 := by
          intro a b h; omega
        exact hmod _ _ f6
      · rw [e7, f7, Nat.succ_mul]
      · rw [e8, f8, qoi_expected_succ]

/-! ## Decoding what the encoder wrote -/

theorem qoi_last_iff (k n ch : Nat) (hch : 0 < ch) (hk : k < n) :
    decide (k * ch = n * ch - ch) = true ↔ k + 1 = n := by
  rw [decide_eq_true_iff]
  have h1 : ch ≤ n * ch := Nat.le_mul_of_pos_left ch (by omega)
  constructor
  · intro h
    have h2 : (k + 1) * ch = n * ch := by rw [Nat.succ_mul]; omega
    exact Nat.eq_of_mul_eq_mul_right hch h2
  · intro h
    rw [← h, Nat.succ_mul]; omega

theorem qoi_sim_start (pixels : List Nat) (desc : qoi_desc) (och n : Nat) :
    qoi_sim pixels desc.channels och n 0 (qoi_encode_start desc) := by
  refine ⟨⟨(qoi_encode_inv_start desc).1, fun _ => rfl,
    by show qoi_px_ok qoi_start_px; simp [qoi_px_ok, qoi_start_px], ?_, Nat.le_refl _, by show 0 < 1024; omega, fun j hj => absurd hj (Nat.not_lt_zero _),
    fun _ => rfl⟩, ?_⟩
  · intro e he
    have he' : e ∈ List.replicate 64 qoi_zero_px := he
    rw [List.eq_of_mem_replicate he']
    simp [qoi_px_ok, qoi_zero_px]
  · intro out _ _
    refine ⟨qoi_decode_start, rfl, ?_, rfl, rfl, rfl, rfl, ?_, rfl⟩
    · rw [qoi_encode_start_bytes]; rfl
    · show 0 = (0 - 0) * och
      simp

theorem qoi_sim_step (pixels : List Nat) (ch och n : Nat) (hpix : ∀ b ∈ pixels, b < 256)
    (hch : 0 < ch) (hoch : 0 < och) (k : Nat) (s : qoi_encoder) (hk : k < n)
    (h : qoi_sim pixels ch och n k s) :
    qoi_sim pixels ch och n (k + 1) (qoi_encode_pixel pixels ch (n * ch - ch) (k * ch) s) := by
  obtain ⟨he, hd⟩ := h
  unfold qoi_encode_pixel
  simp only
  rw [qoi_encode_load_eq pixels ch k s.px he.2.1]
  have hlast := qoi_last_iff k n ch hch hk
  refine ⟨qoi_enc_ok_step pixels ch n hpix k s he _ hlast, ?_⟩
  intro out hpre h4
  obtain ⟨c1, c2, c3, hb, -⟩ := qoi_encode_body_bytes (qoi_pixel_at pixels ch k)
    (decide (k * ch = n * ch - ch)) { s with px := qoi_pixel_at pixels ch k } he.1
  simp only at hb
  have hpre0 : s.bytes <+: out := by
    rw [hb, List.append_assoc, List.append_assoc] at hpre
    exact List.IsPrefix.trans (List.prefix_append _ _) hpre
  have h40 : s.bytes.length + 4 ≤ out.length := by
    rw [hb] at h4
    simp only [List.length_append] at h4
    omega
  obtain ⟨d, hd1, hd2⟩ := hd out hpre0 h40
  obtain ⟨d1, g1, g2⟩ := qoi_sync_step pixels ch och n hpix hoch k hk s he _ out (by omega) d
    hd2 hpre h4
  exact ⟨d1, by rw [hd1, g1], g2⟩

/-- The decoder, run on a successful encoding with `och` output channels, ends its loop with
every pixel of the image written. -/
theorem qoi_codec_sim (pixels : List Nat) (desc : qoi_desc)
    (hw : 0 < desc.width) (hh : 0 < desc.height)
    (hc : desc.channels = 3 ∨ desc.channels = 4) (hs : desc.colorspace ≤ 1)
    (hcap : desc.height < 350000000 / desc.width)
    (hpix : ∀ b ∈ pixels, b < 256) (och : Nat) (hoch : 0 < och) :
    ∃ enc final, qoi_encode pixels desc = some enc ∧
      qoi_decode_run enc (enc.length - 4) (desc.width * desc.height * och) och
        qoi_decode_start = .done final ∧
      final.px_pos = desc.width * desc.height * och ∧
      final.pixels = qoi_expected pixels desc.channels och (desc.width * desc.height) := by
  obtain ⟨hrej, hsmall⟩ := qoi_desc_accepted desc hw hh hc hs hcap
  have hch : 0 < desc.channels := by omega
  have hlen : (desc.width * desc.height * desc.channels) % 2 ^ 32 =
      desc.width * desc.height * desc.channels := by
    apply Nat.mod_eq_of_lt
    rcases hc with hc | hc <;> rw [hc] <;> omega
  have hfin := qoi_encode_loop_inv pixels desc.channels
    (desc.width * desc.height * desc.channels - desc.channels) (desc.width * desc.height) hch
    (qoi_sim pixels desc.channels och (desc.width * desc.height))
    (fun k s hk h => qoi_sim_step pixels desc.channels och _ hpix hch hoch k s hk h)
    (desc.width * desc.height * desc.channels) 0
    (qoi_encode_start desc) (Nat.zero_le _) (by simp) (qoi_sim_start pixels desc och _)
  rw [Nat.zero_mul] at hfin
  obtain ⟨S, hS⟩ : ∃ S, S = qoi_encode_loop pixels desc.channels
      (desc.width * desc.height * desc.channels)
      (desc.width * desc.height * desc.channels - desc.channels)
      (desc.width * desc.height * desc.channels) 0 (qoi_encode_start desc) := ⟨_, rfl⟩
  rw [← hS] at hfin
  obtain ⟨he, hd⟩ := hfin
  have hrun0 := he.2.2.2.2.2.2.2 rfl
  obtain ⟨d, hd1, hd2⟩ := hd (S.bytes ++ qoi_padding) (List.prefix_append _ _)
    (by simp [qoi_padding])
  obtain ⟨s1, s2, s3, s4, s5, s6, s7⟩ := hd2
  rw [hrun0, Nat.sub_zero] at s6 s7
  refine ⟨S.bytes ++ qoi_padding, d, ?_, ?_, s6, s7⟩
  · unfold qoi_encode
    rw [hrej]
    simp only [hlen, Bool.false_eq_true, if_false]
    rw [hS]
  · rw [hd1]
    exact qoi_decode_run_done _ _ _ _ d (by omega)

/-! ## The decoded buffer, byte by byte -/

theorem qoi_expected_length (pixels : List Nat) (ch och : Nat) (hoch : och = 3 ∨ och = 4) :
    ∀ k, (qoi_expected pixels ch och k).length = k * och := by
  intro k
  induction k with
  | zero => simp [qoi_expected]
  | succ k ih =>
    rw [qoi_expected_succ, List.length_append, ih, qoi_px_bytes_length och _ hoch, Nat.succ_mul]

theorem qoi_expected_get (pixels : List Nat) (ch och : Nat) (hoch : och = 3 ∨ och = 4) :
    ∀ k i j, i < k → j < och →
      (qoi_expected pixels ch och k)[i * och + j]? =
        (qoi_px_bytes och (qoi_pixel_at pixels ch i))[j]? := by
  intro k
  induction k with
  | zero => intro i j hi; omega
  | succ k ih =>
    intro i j hi hj
    rw [qoi_expected_succ]
    by_cases hik : i < k
    · have h1 : i * och + j < (qoi_expected pixels ch och k).length := by
        rw [qoi_expected_length pixels ch och hoch]
        have : (i + 1) * och ≤ k * och := Nat.mul_le_mul_right _ hik
        rw [Nat.succ_mul] at this
        omega
      rw [List.getElem?_append_left h1]
      exact ih i j hik hj
    · have hik' : i = k := by omega
      subst hik'
      rw [List.getElem?_append_right
        (by rw [qoi_expected_length pixels ch och hoch]; omega),
        qoi_expected_length pixels ch och hoch, Nat.add_sub_cancel_left]

theorem getD_eq_of_lt (l : List Nat) (i : Nat) (h : i < l.length) :
    some (l.getD i 0) = l[i]? := by
  rw [List.getD_eq_getElem?_getD, List.getElem?_eq_getElem h]
  rfl

/-- The colour bytes written for pixel `i` are the colour bytes of pixel `i` of the input. -/
theorem qoi_px_bytes_rgb (pixels : List Nat) (ch och i j : Nat) (hj : j < 3)
    (hin : i * ch + j < pixels.length) :
    (qoi_px_bytes och (qoi_pixel_at pixels ch i))[j]? = pixels[i * ch + j]? := by
  unfold qoi_px_bytes qoi_pixel_at qoi_encode_load
  have h3 : j = 0 ∨ j = 1 ∨ j = 2 := by omega
  rcases h3 with rfl | rfl | rfl
  · simp only [List.cons_append, List.getElem?_cons_zero]
    exact getD_eq_of_lt _ _ hin
  · simp only [List.cons_append, List.getElem?_cons_succ, List.getElem?_cons_zero]
    exact getD_eq_of_lt _ _ hin
  · simp only [List.cons_append, List.getElem?_cons_succ, List.getElem?_cons_zero]
    exact getD_eq_of_lt _ _ hin

/-- The fourth byte written for pixel `i`: the input alpha with four input channels, else
255. -/
theorem qoi_px_bytes_alpha (pixels : List Nat) (ch i : Nat) :
    (qoi_px_bytes 4 (qoi_pixel_at pixels ch i))[3]? =
      some (if ch = 4 then pixels.getD (i * ch + 3) 0 else 255) := by
  unfold qoi_px_bytes qoi_pixel_at qoi_encode_load
  simp [qoi_start_px]

theorem qoi_expected_self (pixels : List Nat) (ch n : Nat) (hc : ch = 3 ∨ ch = 4)
    (hlen : pixels.length = n * ch) : qoi_expected pixels ch ch n = pixels := by
  apply List.ext_getElem?
  intro m
  by_cases hm : m < n * ch
  · have hch : 0 < ch := by omega
    have hdm : ch * (m / ch) + m % ch = m := Nat.div_add_mod m ch
    have hmod : m % ch < ch := Nat.mod_lt _ hch
    have hi : m / ch < n := by
      rw [Nat.div_lt_iff_lt_mul hch]; exact hm
    have hm' : m = (m / ch) * ch + m % ch := by rw [Nat.mul_comm]; exact hdm.symm
    rw [hm', qoi_expected_get pixels ch ch hc n _ _ hi hmod]
    by_cases h3 : m % ch < 3
    · exact qoi_px_bytes_rgb pixels ch ch _ _ h3 (by rw [← hm', hlen]; exact hm)
    · have hc4 : ch = 4 := by omega
      have hm3 : m % ch = 3 := by omega
      rw [hm3]
      subst hc4
      rw [qoi_px_bytes_alpha, if_pos rfl]
      exact getD_eq_of_lt _ _ (by rw [← hm3, ← hm', hlen]; exact hm)
  · rw [List.getElem?_eq_none (by rw [qoi_expected_length pixels ch ch hc]; omega),
      List.getElem?_eq_none (by omega)]

/-! ## Encode, then decode -/

theorem qoi_desc_eta (desc : qoi_desc) :
    ({ width := desc.width, height := desc.height, channels := desc.channels,
       colorspace := desc.colorspace } : qoi_desc) = desc := rfl

/-- Decoding a successful encoding, for any of the three admitted values of the requested
channel count: the call succeeds, fills the descriptor with the encoder's, and writes every
pixel of the image with the output channel count. -/
theorem qoi_decode_encode (pixels : List Nat) (desc : qoi_desc)
    (hw : 0 < desc.width) (hh : 0 < desc.height)
    (hc : desc.channels = 3 ∨ desc.channels = 4) (hs : desc.colorspace ≤ 1)
    (hcap : desc.height < 350000000 / desc.width)
    (hpix : ∀ b ∈ pixels, b < 256)
    (channels : Int) (hchan : channels = 0 ∨ channels = 3 ∨ channels = 4) :
    ∃ enc final, qoi_encode pixels desc = some enc ∧
      qoi_decode enc channels = .ok desc final ∧
      final.px_pos = desc.width * desc.height * qoi_out_channels channels desc.channels ∧
      final.pixels = qoi_expected pixels desc.channels
        (qoi_out_channels channels desc.channels) (desc.width * desc.height) := by
  have hoc : qoi_out_channels channels desc.channels = 3 ∨
      qoi_out_channels channels desc.channels = 4 := by
    unfold qoi_out_channels
    rcases hchan with h | h | h
    · rw [if_pos h]; exact hc
    · rw [if_neg (by omega), h]; exact Or.inl rfl
    · rw [if_neg (by omega), h]; exact Or.inr rfl
  obtain ⟨hrej, hsmall⟩ := qoi_desc_accepted desc hw hh hc hs hcap
  obtain ⟨enc, final, h1, h2, h3, h4⟩ := qoi_codec_sim pixels desc hw hh hc hs hcap hpix
    (qoi_out_channels channels desc.channels) (by omega)
  obtain ⟨⟨body, hb1, -, -⟩, -, -⟩ := qoi_encode_shape pixels desc hw hh hc hs hcap
  have henc : enc = qoi_header_bytes desc ++ body ++ qoi_padding := by
    rw [h1] at hb1; exact Option.some.inj hb1
  have hwlt : desc.width < 2 ^ 32 := by
    have : desc.width * 1 ≤ desc.width * desc.height := Nat.mul_le_mul_left _ hh
    norm_num; omega
  have hhlt : desc.height < 2 ^ 32 := by
    have : 1 * desc.height ≤ desc.width * desc.height := Nat.mul_le_mul_right _ hw
    norm_num; omega
  obtain ⟨r1, r2, r3, r4, r5⟩ := qoi_read_32_header desc (body ++ qoi_padding) hwlt hhlt
  rw [← List.append_assoc, ← henc] at r1 r2 r3 r4 r5
  have hacc : ¬ qoi_header_rejected QOI_MAGIC desc.width desc.height desc.channels
      desc.colorspace := by
    unfold qoi_header_rejected QOI_PIXELS_MAX
    omega
  have h18 : 18 ≤ enc.length := by
    rw [henc]; simp [qoi_header_bytes, qoi_padding]
  obtain ⟨final1, g1, g2⟩ := qoi_decode_accepted enc channels _ _ _ _ _ h18 hchan r1 r2 r3 r4 r5
    hacc
  have hmod : (desc.width * desc.height * qoi_out_channels channels desc.channels) % 2 ^ 32 =
      desc.width * desc.height * qoi_out_channels channels desc.channels := by
    apply Nat.mod_eq_of_lt
    rcases hoc with h | h <;> rw [h] <;> omega
  rw [hmod, h2] at g1
  have hf : final = final1 := by
    injection g1
  rw [qoi_desc_eta, ← hf] at g2
  exact ⟨enc, final, h1, g2, h3, h4⟩

/-! ## The index cursor of the decoder -/

theorem qoi_decode_step_log (bytes : List Nat) (cl : Nat) (s : qoi_decoder) (fl : qoi_flow)
    (h : qoi_decode_step bytes cl s = some fl) :
    (fl.state.tags = s.tags ∧ fl.state.index_pos = s.index_pos ∧ fl.state.index = s.index) ∨
    (∃ b1, fl.state.tags = s.tags ++ [b1] ∧
      (qoi_tag_inserts b1 = true → fl.state.index_pos = s.index_pos + 1) ∧
      (qoi_tag_inserts b1 = false →
        fl.state.index_pos = s.index_pos ∧ fl.state.index = s.index)) := by
  unfold qoi_decode_step at h
  split_ifs at h with h1 h2
  · cases h; exact Or.inl ⟨rfl, rfl, rfl⟩
  · obtain ⟨b1, -, f1, -, -, -, -, -, f2, f3⟩ := qoi_decode_chunk_frame bytes s fl h
    exact Or.inr ⟨b1, f1, f2, f3⟩
  · cases h; exact Or.inl ⟨rfl, rfl, rfl⟩

/-- Over the whole loop, the index cursor advances by the number of inserting chunks
dispatched, and the ring is untouched when there is none. -/
theorem qoi_decode_loop_log (bytes : List Nat) (cl pl ch : Nat) :
    ∀ (fuel : Nat) (s r : qoi_decoder),
      qoi_decode_loop bytes cl pl ch fuel s = .done r →
      ∃ new, r.tags = s.tags ++ new ∧
        r.index_pos = s.index_pos + (new.filter qoi_tag_inserts).length ∧
        (new.filter qoi_tag_inserts = [] → r.index = s.index) := by
  intro fuel
  induction fuel with
  | zero =>
    intro s r h
    unfold qoi_decode_loop at h
    split_ifs at h
    cases h
    exact ⟨[], by simp, by simp, fun _ => rfl⟩
  | succ n ih =>
    intro s r h
    unfold qoi_decode_loop at h
    by_cases h0 : s.px_pos < pl
    · rw [if_pos h0] at h
      cases hst : qoi_decode_step bytes cl s with
      | none => rw [hst] at h; cases h
      | some fl =>
        rw [hst] at h
        have hlog := qoi_decode_step_log bytes cl s fl hst
        have key : ∀ r1 : qoi_decoder, r1.tags = fl.state.tags →
            r1.index_pos = fl.state.index_pos → r1.index = fl.state.index →
            (∃ new, r.tags = r1.tags ++ new ∧
              r.index_pos = r1.index_pos + (new.filter qoi_tag_inserts).length ∧
              (new.filter qoi_tag_inserts = [] → r.index = r1.index)) →
            ∃ new, r.tags = s.tags ++ new ∧
              r.index_pos = s.index_pos + (new.filter qoi_tag_inserts).length ∧
              (new.filter qoi_tag_inserts = [] → r.index = s.index) := by
          intro r1 t1 t2 t3 ⟨new, n1, n2, n3⟩
          rcases hlog with ⟨l1, l2, l3⟩ | ⟨b1, l1, l2, l3⟩
          · exact ⟨new, by rw [n1, t1, l1], by rw [n2, t2, l2],
              fun hn => by rw [n3 hn, t3, l3]⟩
          · refine ⟨b1 :: new, by rw [n1, t1, l1]; simp, ?_, ?_⟩
            · cases hb : qoi_tag_inserts b1 with
              | true =>
                rw [n2, t2, l2 hb]
                simp [List.filter_cons, hb]
                omega
              | false =>
                rw [n2, t2, (l3 hb).1]
                simp [List.filter_cons, hb]
            · intro hn
              cases hb : qoi_tag_inserts b1 with
              | true => simp [List.filter_cons, hb] at hn
              | false =>
                simp only [List.filter_cons, hb, Bool.false_eq_true, if_false] at hn
                rw [n3 hn, t3, (l3 hb).2]
        cases fl with
        | emit s1 =>
          simp only at h
          exact key (qoi_decode_write ch s1) rfl rfl rfl (ih _ r h)
        | again s1 =>
          simp only at h
          exact key s1 rfl rfl rfl (ih _ r h)
        | stop s1 =>
          simp only at h
          cases h
          exact key r rfl rfl rfl ⟨[], by simp, by simp, fun _ => rfl⟩
    · rw [if_neg h0] at h
      cases h
      exact ⟨[], by simp, by simp, fun _ => rfl⟩

theorem qoi_decode_ok_loop (data : List Nat) (channels : Int) (desc : qoi_desc)
    (final : qoi_decoder) (h : qoi_decode data channels = .ok desc final) :
    ∃ cl pl ch fuel, qoi_decode_loop data cl pl ch fuel qoi_decode_start = .done final := by
  unfold qoi_decode at h
  simp only at h
  split at h
  · cases h
  split at h
  · split at h
    · cases h
    split at h
    · cases h
    · cases h
    · rename_i s hs
      injection h with h1 h2
      subst h2
      exact ⟨_, _, _, _, hs⟩
  · cases h

/-! ## The claims -/

/-- Claim C1 (round trip). For every descriptor `qoi_encode` accepts and every pixel buffer
of `width * height * channels` bytes, `qoi_encode` succeeds, and `qoi_decode` on its output
with requested channels 0 succeeds, fills the descriptor with the input descriptor and
returns a completely written buffer equal to the input pixels. -/
theorem encode_decode_round_trip (pixels : List Nat) (desc : qoi_desc)
    (hw : 0 < desc.width) (hh : 0 < desc.height)
    (hc : desc.channels = 3 ∨ desc.channels = 4) (hs : desc.colorspace ≤ 1)
    (hcap : desc.height < 350000000 / desc.width)
    (hlen : pixels.length = desc.width * desc.height * desc.channels)
    (hpix : ∀ b ∈ pixels, b < 256) :
    ∃ enc final, qoi_encode pixels desc = some enc ∧
      qoi_decode enc 0 = .ok desc final ∧
      final.pixels = pixels ∧ final.px_pos = pixels.length := by
  obtain ⟨enc, final, h1, h2, h3, h4⟩ :=
    qoi_decode_encode pixels desc hw hh hc hs hcap hpix 0 (Or.inl rfl)
  have ho : qoi_out_channels 0 desc.channels = desc.channels := by simp [qoi_out_channels]
  rw [ho] at h3 h4
  rw [qoi_expected_self pixels desc.channels _ hc hlen] at h4
  exact ⟨enc, final, h1, h2, h4, by rw [h3, hlen]⟩

/-- The round trip on the 2x1 opaque red image. -/
theorem encode_decode_round_trip_witness :
    (0 < (⟨2, 1, 3, 0⟩ : qoi_desc).width ∧ 0 < (⟨2, 1, 3, 0⟩ : qoi_desc).height ∧
      (⟨2, 1, 3, 0⟩ : qoi_desc).height < 350000000 / (⟨2, 1, 3, 0⟩ : qoi_desc).width ∧
      ([255, 0, 0, 255, 0, 0] : List Nat).length = 2 * 1 * 3) ∧
    ∃ enc final, qoi_encode [255, 0, 0, 255, 0, 0] ⟨2, 1, 3, 0⟩ = some enc ∧
      qoi_decode enc 0 = .ok ⟨2, 1, 3, 0⟩ final ∧
      final.pixels = [255, 0, 0, 255, 0, 0] ∧
      final.px_pos = ([255, 0, 0, 255, 0, 0] : List Nat).length :=
  ⟨by decide, encode_decode_round_trip [255, 0, 0, 255, 0, 0] ⟨2, 1, 3, 0⟩
    (by decide) (by decide) (by decide) (by decide) (by decide) (by decide) (by decide)⟩

/-- Claim C2 (header round trip). For every descriptor `qoi_encode` accepts, the first 14
bytes of the encoding are `71 6f 69 32`, the width and the height as four big-endian bytes
each, the channels byte and the colorspace byte; and `qoi_read_32` at offsets 0, 4 and 8 and
the bytes at offsets 12 and 13, as `qoi_decode` reads them, give back the magic, width,
height, channels and colorspace. -/
theorem header_fields_recovered (pixels : List Nat) (desc : qoi_desc)
    (hw : 0 < desc.width) (hh : 0 < desc.height)
    (hc : desc.channels = 3 ∨ desc.channels = 4) (hs : desc.colorspace ≤ 1)
    (hcap : desc.height < 350000000 / desc.width) :
    ∃ enc, qoi_encode pixels desc = some enc ∧
      enc.take 14 =
        [0x71, 0x6f, 0x69, 0x32,
         desc.width / 2 ^ 24 % 256, desc.width / 2 ^ 16 % 256, desc.width / 2 ^ 8 % 256,
         desc.width % 256,
         desc.height / 2 ^ 24 % 256, desc.height / 2 ^ 16 % 256, desc.height / 2 ^ 8 % 256,
         desc.height % 256,
         desc.channels, desc.colorspace] ∧
      qoi_read_32 enc 0 = some QOI_MAGIC ∧
      qoi_read_32 enc 4 = some desc.width ∧
      qoi_read_32 enc 8 = some desc.height ∧
      enc[12]? = some desc.channels ∧
      enc[13]? = some desc.colorspace := by
  obtain ⟨-, hsmall⟩ := qoi_desc_accepted desc hw hh hc hs hcap
  obtain ⟨⟨body, hb1, -, -⟩, -, -⟩ := qoi_encode_shape pixels desc hw hh hc hs hcap
  have hwlt : desc.width < 2 ^ 32 := by
    have : desc.width * 1 ≤ desc.width * desc.height := Nat.mul_le_mul_left _ hh
    norm_num; omega
  have hhlt : desc.height < 2 ^ 32 := by
    have : 1 * desc.height ≤ desc.width * desc.height := Nat.mul_le_mul_right _ hw
    norm_num; omega
  obtain ⟨r1, r2, r3, r4, r5⟩ := qoi_read_32_header desc (body ++ qoi_padding) hwlt hhlt
  rw [← List.append_assoc] at r1 r2 r3 r4 r5
  refine ⟨_, hb1, ?_, r1, r2, r3, r4, r5⟩
  rw [List.append_assoc, List.take_append_of_le_length (by simp [qoi_header_bytes])]
  simp [qoi_header_bytes]

/-- The header of a 258x3 RGBA image. -/
theorem header_fields_recovered_witness :
    (0 < (⟨258, 3, 4, 1⟩ : qoi_desc).width ∧ 0 < (⟨258, 3, 4, 1⟩ : qoi_desc).height ∧
      (⟨258, 3, 4, 1⟩ : qoi_desc).height < 350000000 / (⟨258, 3, 4, 1⟩ : qoi_desc).width) ∧
    ∃ enc, qoi_encode [] ⟨258, 3, 4, 1⟩ = some enc ∧
      enc.take 14 =
        [0x71, 0x6f, 0x69, 0x32, 258 / 2 ^ 24 % 256, 258 / 2 ^ 16 % 256, 258 / 2 ^ 8 % 256,
         258 % 256, 3 / 2 ^ 24 % 256, 3 / 2 ^ 16 % 256, 3 / 2 ^ 8 % 256, 3 % 256, 4, 1] ∧
      qoi_read_32 enc 0 = some QOI_MAGIC ∧
      qoi_read_32 enc 4 = some 258 ∧
      qoi_read_32 enc 8 = some 3 ∧
      enc[12]? = some 4 ∧
      enc[13]? = some 1 :=
  ⟨by decide, header_fields_recovered [] ⟨258, 3, 4, 1⟩
    (by decide) (by decide) (by decide) (by decide) (by decide)⟩

/-- Claim C3 (padding). Every successful encoding has at least 18 bytes, ends in
`ff ff ff ff`, and its chunk region (from offset 14 up to the last four bytes) holds no four
consecutive `0xff` bytes. -/
theorem padding_and_no_ff_quad (pixels : List Nat) (desc : qoi_desc)
    (hw : 0 < desc.width) (hh : 0 < desc.height)
    (hc : desc.channels = 3 ∨ desc.channels = 4) (hs : desc.colorspace ≤ 1)
    (hcap : desc.height < 350000000 / desc.width) :
    ∃ enc, qoi_encode pixels desc = some enc ∧
      18 ≤ enc.length ∧
      enc.drop (enc.length - 4) = [0xff, 0xff, 0xff, 0xff] ∧
      qoi_no_ff_quad ((enc.drop 14).take (enc.length - 18)) := by
  obtain ⟨⟨body, hb1, hb2, -⟩, -, -⟩ := qoi_encode_shape pixels desc hw hh hc hs hcap
  have hl : (qoi_header_bytes desc).length = 14 := by simp [qoi_header_bytes]
  refine ⟨_, hb1, ?_, ?_, ?_⟩
  · simp [hl, qoi_padding]; omega
  · have : (qoi_header_bytes desc ++ body ++ qoi_padding).length - 4 =
        (qoi_header_bytes desc ++ body).length := by simp [qoi_padding]; omega
    rw [this, List.drop_left]
    rfl
  · have h1 : (qoi_header_bytes desc ++ body ++ qoi_padding).length - 18 = body.length := by
      simp [hl, qoi_padding]; omega
    rw [h1, List.append_assoc, ← hl, List.drop_left, List.take_left]
    exact hb2

/-- The padding of the encoding of the 2x1 opaque red image. -/
theorem padding_and_no_ff_quad_witness :
    (0 < (⟨2, 1, 3, 0⟩ : qoi_desc).width ∧ 0 < (⟨2, 1, 3, 0⟩ : qoi_desc).height ∧
      (⟨2, 1, 3, 0⟩ : qoi_desc).height < 350000000 / (⟨2, 1, 3, 0⟩ : qoi_desc).width) ∧
    ∃ enc, qoi_encode [255, 0, 0, 255, 0, 0] ⟨2, 1, 3, 0⟩ = some enc ∧
      18 ≤ enc.length ∧
      enc.drop (enc.length - 4) = [0xff, 0xff, 0xff, 0xff] ∧
      qoi_no_ff_quad ((enc.drop 14).take (enc.length - 18)) :=
  ⟨by decide, padding_and_no_ff_quad [255, 0, 0, 255, 0, 0] ⟨2, 1, 3, 0⟩
    (by decide) (by decide) (by decide) (by decide) (by decide)⟩

/-- Claim C4 (size bound). For every descriptor `qoi_encode` accepts, the returned length is
at most `18 + width * height * (4 if channels == 3 else 6)`, which is the value of
`max_size`; and after any number of loop iterations the write cursor leaves room for the four
padding bytes inside `max_size`, so every store lies inside the allocated buffer. -/
theorem encoded_size_bound (pixels : List Nat) (desc : qoi_desc)
    (hw : 0 < desc.width) (hh : 0 < desc.height)
    (hc : desc.channels = 3 ∨ desc.channels = 4) (hs : desc.colorspace ≤ 1)
    (hcap : desc.height < 350000000 / desc.width) :
    (∃ enc, qoi_encode pixels desc = some enc ∧
      enc.length ≤ 18 + desc.width * desc.height * (if desc.channels = 3 then 4 else 6) ∧
      enc.length ≤ qoi_max_size desc) ∧
    ∀ fuel, (qoi_encode_loop pixels desc.channels
        ((desc.width * desc.height * desc.channels) % 2 ^ 32)
        ((desc.width * desc.height * desc.channels) % 2 ^ 32 - desc.channels) fuel 0
        (qoi_encode_start desc)).bytes.length + 4 ≤ qoi_max_size desc := by
  obtain ⟨⟨body, hb1, -, hb3⟩, hb4, hb5⟩ := qoi_encode_shape pixels desc hw hh hc hs hcap
  have hl : (qoi_header_bytes desc).length = 14 := by simp [qoi_header_bytes]
  have hlen : (qoi_header_bytes desc ++ body ++ qoi_padding).length = 18 + body.length := by
    simp [hl, qoi_padding]; omega
  refine ⟨⟨_, hb1, ?_, ?_⟩, ?_⟩
  · rw [hlen]; omega
  · rw [hlen, hb5]; omega
  · intro fuel
    have := hb4 fuel
    rw [hb5]; omega

/-- The size bound on the encoding of the 2x1 opaque red image. -/
theorem encoded_size_bound_witness :
    (0 < (⟨2, 1, 3, 0⟩ : qoi_desc).width ∧ 0 < (⟨2, 1, 3, 0⟩ : qoi_desc).height ∧
      (⟨2, 1, 3, 0⟩ : qoi_desc).height < 350000000 / (⟨2, 1, 3, 0⟩ : qoi_desc).width) ∧
    ((∃ enc, qoi_encode [255, 0, 0, 255, 0, 0] ⟨2, 1, 3, 0⟩ = some enc ∧
      enc.length ≤ 18 + (⟨2, 1, 3, 0⟩ : qoi_desc).width * (⟨2, 1, 3, 0⟩ : qoi_desc).height *
        (if (⟨2, 1, 3, 0⟩ : qoi_desc).channels = 3 then 4 else 6) ∧
      enc.length ≤ qoi_max_size ⟨2, 1, 3, 0⟩) ∧
    ∀ fuel, (qoi_encode_loop [255, 0, 0, 255, 0, 0] (⟨2, 1, 3, 0⟩ : qoi_desc).channels
        (((⟨2, 1, 3, 0⟩ : qoi_desc).width * (⟨2, 1, 3, 0⟩ : qoi_desc).height *
          (⟨2, 1, 3, 0⟩ : qoi_desc).channels) % 2 ^ 32)
        (((⟨2, 1, 3, 0⟩ : qoi_desc).width * (⟨2, 1, 3, 0⟩ : qoi_desc).height *
          (⟨2, 1, 3, 0⟩ : qoi_desc).channels) % 2 ^ 32 - (⟨2, 1, 3, 0⟩ : qoi_desc).channels)
        fuel 0 (qoi_encode_start ⟨2, 1, 3, 0⟩)).bytes.length + 4 ≤ qoi_max_size ⟨2, 1, 3, 0⟩) :=
  ⟨by decide, encoded_size_bound [255, 0, 0, 255, 0, 0] ⟨2, 1, 3, 0⟩
    (by decide) (by decide) (by decide) (by decide) (by decide)⟩

/-- Claim C5 (validation). `qoi_decode` returns `NULL` for every buffer of fewer than 18
bytes, for every byte buffer of at least 18 bytes whose first four bytes are not `qoi2`, and
whenever the requested channel count is not 0, 3 or 4. -/
theorem decode_rejects_invalid (data : List Nat) (channels : Int)
    (h : data.length < 18 ∨
      ((∀ b ∈ data, b < 256) ∧ 18 ≤ data.length ∧ data.take 4 ≠ [0x71, 0x6f, 0x69, 0x32]) ∨
      (channels ≠ 0 ∧ channels ≠ 3 ∧ channels ≠ 4)) :
    qoi_decode data channels = .null := by
  rcases h with h | ⟨hb, h18, hm⟩ | h
  · exact qoi_decode_small data channels h
  · obtain ⟨magic, hr, hne⟩ := qoi_read_32_magic data hb h18 hm
    obtain ⟨w, hw⟩ := qoi_read_32_some data 4 (by omega)
    obtain ⟨ht, hh⟩ := qoi_read_32_some data 8 (by omega)
    obtain ⟨ch, hc⟩ := getElem?_some_of_lt data 12 (by omega)
    obtain ⟨cs, hs⟩ := getElem?_some_of_lt data 13 (by omega)
    exact qoi_decode_rejected data channels magic w ht ch cs hr hw hh hc hs
      (Or.inr (Or.inr (Or.inr (Or.inr (Or.inr (Or.inl hne))))))
  · exact qoi_decode_bad_channels data channels h

/-- The truncated input `71 6f 69` is rejected. -/
theorem decode_rejects_invalid_witness :
    ([0x71, 0x6f, 0x69] : List Nat).length < 18 ∧ qoi_decode [0x71, 0x6f, 0x69] 0 = .null :=
  ⟨by decide, decode_rejects_invalid [0x71, 0x6f, 0x69] 0 (Or.inl (by decide))⟩

/-- Claim C6, refuted as stated. The 18-byte buffer below has the magic `qoi2`, width 3,
height 116666666, 3 channels and colorspace 0, so `width * height = 349999998` does not
exceed 350000000; yet `qoi_decode` returns `NULL`, and `qoi_encode` rejects the same
descriptor, because `116666666 >= 350000000 / 3`. -/
theorem header_cap_counterexample :
    qoi_decode [0x71, 0x6f, 0x69, 0x32, 0x00, 0x00, 0x00, 0x03, 0x06, 0xf4, 0x31, 0x2a,
      0x03, 0x00, 0xff, 0xff, 0xff, 0xff] 0 = .null ∧
    qoi_read_32 [0x71, 0x6f, 0x69, 0x32, 0x00, 0x00, 0x00, 0x03, 0x06, 0xf4, 0x31, 0x2a,
      0x03, 0x00, 0xff, 0xff, 0xff, 0xff] 0 = some QOI_MAGIC ∧
    qoi_read_32 [0x71, 0x6f, 0x69, 0x32, 0x00, 0x00, 0x00, 0x03, 0x06, 0xf4, 0x31, 0x2a,
      0x03, 0x00, 0xff, 0xff, 0xff, 0xff] 4 = some 3 ∧
    qoi_read_32 [0x71, 0x6f, 0x69, 0x32, 0x00, 0x00, 0x00, 0x03, 0x06, 0xf4, 0x31, 0x2a,
      0x03, 0x00, 0xff, 0xff, 0xff, 0xff] 8 = some 116666666 ∧
    ¬ (3 * 116666666 > 350000000) ∧
    qoi_encode [] ⟨3, 116666666, 3, 0⟩ = none := by
  refine ⟨?_, ?_, ?_, ?_, ?_, ?_⟩
  · rfl
  · rfl
  · rfl
  · rfl
  · decide
  · rfl

/-- Claim C6, amended. For a buffer of at least 18 bytes and requested channels in
{0, 3, 4}, with `magic`, `w`, `h`, `ch`, `cs` the header fields as `qoi_decode` reads them:
the call returns `NULL` when the magic is not `qoi2`, `w` or `h` is 0, `ch` is not 3 or 4,
`cs > 1`, or `h >= 350000000 / w` (integer division); otherwise it succeeds and fills the
descriptor with the header fields. `qoi_encode` returns `NULL` exactly on the same test of
its descriptor. -/
theorem header_acceptance_by_quotient (data : List Nat) (channels : Int)
    (magic w h ch cs : Nat)
    (h18 : 18 ≤ data.length) (hchan : channels = 0 ∨ channels = 3 ∨ channels = 4)
    (hm : qoi_read_32 data 0 = some magic) (hw : qoi_read_32 data 4 = some w)
    (hh : qoi_read_32 data 8 = some h) (hc : data[12]? = some ch) (hs : data[13]? = some cs) :
    ((magic ≠ QOI_MAGIC ∨ w = 0 ∨ h = 0 ∨ (ch ≠ 3 ∧ ch ≠ 4) ∨ cs > 1 ∨ h ≥ 350000000 / w) →
      qoi_decode data channels = .null) ∧
    (¬ (magic ≠ QOI_MAGIC ∨ w = 0 ∨ h = 0 ∨ (ch ≠ 3 ∧ ch ≠ 4) ∨ cs > 1 ∨
        h ≥ 350000000 / w) →
      ∃ final, qoi_decode data channels =
        .ok { width := w, height := h, channels := ch, colorspace := cs } final) ∧
    (∀ (pixels : List Nat) (desc : qoi_desc),
      qoi_encode pixels desc = none ↔
        (desc.width = 0 ∨ desc.height = 0 ∨ (desc.channels ≠ 3 ∧ desc.channels ≠ 4) ∨
          desc.colorspace > 1 ∨ desc.height ≥ 350000000 / desc.width)) := by
  refine ⟨?_, ?_, ?_⟩
  · intro hrej
    apply qoi_decode_rejected data channels magic w h ch cs hm hw hh hc hs
    unfold qoi_header_rejected QOI_PIXELS_MAX
    omega
  · intro hacc
    have hacc' : ¬ qoi_header_rejected magic w h ch cs := by
      unfold qoi_header_rejected QOI_PIXELS_MAX
      omega
    obtain ⟨final, -, hf⟩ := qoi_decode_accepted data channels magic w h ch cs h18 hchan
      hm hw hh hc hs hacc'
    exact ⟨final, hf⟩
  · intro pixels desc
    unfold qoi_encode qoi_desc_rejected QOI_PIXELS_MAX
    constructor
    · intro he
      by_contra hcon
      rw [if_neg (by simp only [decide_eq_true_eq]; omega)] at he
      exact absurd he (by simp)
    · intro hrej
      rw [if_pos (by simp only [decide_eq_true_eq]; omega)]

/-- The amended acceptance test on a 1x1 RGBA header followed by one chunk and the padding. -/
theorem header_acceptance_by_quotient_witness :
    (18 ≤ ([0x71, 0x6f, 0x69, 0x32, 0, 0, 0, 1, 0, 0, 0, 1, 4, 0, 0x80,
        0xff, 0xff, 0xff, 0xff] : List Nat).length ∧
      qoi_read_32 [0x71, 0x6f, 0x69, 0x32, 0, 0, 0, 1, 0, 0, 0, 1, 4, 0, 0x80,
        0xff, 0xff, 0xff, 0xff] 4 = some 1) ∧
    (¬ (QOI_MAGIC ≠ QOI_MAGIC ∨ 1 = 0 ∨ 1 = 0 ∨ (4 ≠ 3 ∧ 4 ≠ 4) ∨ 0 > 1 ∨
        1 ≥ 350000000 / 1) →
      ∃ final, qoi_decode [0x71, 0x6f, 0x69, 0x32, 0, 0, 0, 1, 0, 0, 0, 1, 4, 0, 0x80,
        0xff, 0xff, 0xff, 0xff] 0 =
        .ok { width := 1, height := 1, channels := 4, colorspace := 0 } final) :=
  ⟨⟨by decide, rfl⟩,
    (header_acceptance_by_quotient [0x71, 0x6f, 0x69, 0x32, 0, 0, 0, 1, 0, 0, 0, 1, 4, 0, 0x80,
      0xff, 0xff, 0xff, 0xff] 0 QOI_MAGIC 1 1 4 0 (by decide) (Or.inl rfl) rfl rfl rfl rfl
      rfl).2.1⟩

/-- Claim C7 (alpha for 3-channel inputs). For every valid 3-channel image, decoding its
encoding with requested channels 4 succeeds and writes `4 * width * height` bytes: for every
pixel `i` the input r, g, b followed by 255. -/
theorem rgb_input_decodes_opaque (pixels : List Nat) (desc : qoi_desc)
    (hw : 0 < desc.width) (hh : 0 < desc.height)
    (hc : desc.channels = 3) (hs : desc.colorspace ≤ 1)
    (hcap : desc.height < 350000000 / desc.width)
    (hlen : pixels.length = desc.width * desc.height * 3)
    (hpix : ∀ b ∈ pixels, b < 256) :
    ∃ enc final, qoi_encode pixels desc = some enc ∧
      qoi_decode enc 4 = .ok desc final ∧
      final.pixels.length = desc.width * desc.height * 4 ∧
      ∀ i, i < desc.width * desc.height →
        final.pixels[i * 4]? = pixels[i * 3]? ∧
        final.pixels[i * 4 + 1]? = pixels[i * 3 + 1]? ∧
        final.pixels[i * 4 + 2]? = pixels[i * 3 + 2]? ∧
        final.pixels[i * 4 + 3]? = some 255 := by
  obtain ⟨enc, final, h1, h2, h3, h4⟩ :=
    qoi_decode_encode pixels desc hw hh (Or.inl hc) hs hcap hpix 4 (Or.inr (Or.inr rfl))
  have ho : qoi_out_channels 4 desc.channels = 4 := by simp [qoi_out_channels]
  rw [ho, hc] at h4
  refine ⟨enc, final, h1, h2, ?_, ?_⟩
  · rw [h4, qoi_expected_length pixels 3 4 (Or.inr rfl)]
  · intro i hi
    have hin : i * 3 + 2 < pixels.length := by rw [hlen]; omega
    have g := fun j hj => qoi_expected_get pixels 3 4 (Or.inr rfl) (desc.width * desc.height)
      i j hi hj
    rw [h4]
    refine ⟨?_, ?_, ?_, ?_⟩
    · have := g 0 (by omega)
      rw [Nat.add_zero] at this
      rw [this]
      exact qoi_px_bytes_rgb pixels 3 4 i 0 (by omega) (by omega)
    · rw [g 1 (by omega)]
      exact qoi_px_bytes_rgb pixels 3 4 i 1 (by omega) (by omega)
    · rw [g 2 (by omega)]
      exact qoi_px_bytes_rgb pixels 3 4 i 2 (by omega) (by omega)
    · rw [g 3 (by omega), qoi_px_bytes_alpha]
      simp

/-- The 2x1 opaque red RGB image decoded to RGBA. -/
theorem rgb_input_decodes_opaque_witness :
    ((⟨2, 1, 3, 0⟩ : qoi_desc).channels = 3 ∧
      (⟨2, 1, 3, 0⟩ : qoi_desc).height < 350000000 / (⟨2, 1, 3, 0⟩ : qoi_desc).width ∧
      ([255, 0, 0, 255, 0, 0] : List Nat).length = 2 * 1 * 3) ∧
    ∃ enc final, qoi_encode [255, 0, 0, 255, 0, 0] ⟨2, 1, 3, 0⟩ = some enc ∧
      qoi_decode enc 4 = .ok ⟨2, 1, 3, 0⟩ final ∧
      final.pixels.length = 2 * 1 * 4 ∧
      ∀ i, i < 2 * 1 →
        final.pixels[i * 4]? = [255, 0, 0, 255, 0, 0][i * 3]? ∧
        final.pixels[i * 4 + 1]? = [255, 0, 0, 255, 0, 0][i * 3 + 1]? ∧
        final.pixels[i * 4 + 2]? = [255, 0, 0, 255, 0, 0][i * 3 + 2]? ∧
        final.pixels[i * 4 + 3]? = some 255 :=
  ⟨by decide, rgb_input_decodes_opaque [255, 0, 0, 255, 0, 0] ⟨2, 1, 3, 0⟩
    (by decide) (by decide) (by decide) (by decide) (by decide) (by decide) (by decide)⟩

/-- Claim C8 (decoder overrun discipline). For every buffer of at least 18 bytes, whatever
its contents, `qoi_decode` reads no byte at an index `>= size`: the model faults on such a
read, and the call never faults. One loop iteration, from any state, reads none either and
moves the read cursor forward by at most four bytes, as long as four bytes follow
`chunks_len`. -/
theorem decode_reads_within_buffer (data : List Nat) (channels : Int)
    (h18 : 18 ≤ data.length) :
    qoi_decode data channels ≠ .fault ∧
    ∀ (chunks_len : Nat) (s : qoi_decoder), chunks_len + 4 ≤ data.length →
      ∃ fl, qoi_decode_step data chunks_len s = some fl ∧
        s.p ≤ fl.state.p ∧ fl.state.p ≤ s.p + 4 := by
  constructor
  · by_cases hchan : channels = 0 ∨ channels = 3 ∨ channels = 4
    · obtain ⟨magic, hm⟩ := qoi_read_32_some data 0 (by omega)
      obtain ⟨w, hw⟩ := qoi_read_32_some data 4 (by omega)
      obtain ⟨h, hh⟩ := qoi_read_32_some data 8 (by omega)
      obtain ⟨ch, hc⟩ := getElem?_some_of_lt data 12 (by omega)
      obtain ⟨cs, hs⟩ := getElem?_some_of_lt data 13 (by omega)
      by_cases hrej : qoi_header_rejected magic w h ch cs
      · rw [qoi_decode_rejected data channels magic w h ch cs hm hw hh hc hs hrej]
        intro hcon; cases hcon
      · obtain ⟨final, -, hf⟩ := qoi_decode_accepted data channels magic w h ch cs h18 hchan
          hm hw hh hc hs hrej
        rw [hf]
        intro hcon; cases hcon
    · rw [qoi_decode_bad_channels data channels (by omega)]
      intro hcon; cases hcon
  · intro chunks_len s hlen
    have hsome := qoi_decode_step_isSome data chunks_len s hlen
    cases hst : qoi_decode_step data chunks_len s with
    | none => rw [hst] at hsome; exact absurd hsome (by simp)
    | some fl =>
      obtain ⟨f1, f2, -⟩ := qoi_decode_step_frame data chunks_len s fl hst
      exact ⟨fl, rfl, f1, f2⟩

/-- A buffer whose last chunk is a `QOI_OP_RGB` tag cut short by the padding. -/
theorem decode_reads_within_buffer_witness :
    18 ≤ ([0x71, 0x6f, 0x69, 0x32, 0, 0, 0, 1, 0, 0, 0, 1, 4, 0, 0xfd,
        0xff, 0xff, 0xff, 0xff] : List Nat).length ∧
    (qoi_decode [0x71, 0x6f, 0x69, 0x32, 0, 0, 0, 1, 0, 0, 0, 1, 4, 0, 0xfd,
        0xff, 0xff, 0xff, 0xff] 0 ≠ .fault ∧
    ∀ (chunks_len : Nat) (s : qoi_decoder),
      chunks_len + 4 ≤ ([0x71, 0x6f, 0x69, 0x32, 0, 0, 0, 1, 0, 0, 0, 1, 4, 0, 0xfd,
        0xff, 0xff, 0xff, 0xff] : List Nat).length →
      ∃ fl, qoi_decode_step [0x71, 0x6f, 0x69, 0x32, 0, 0, 0, 1, 0, 0, 0, 1, 4, 0, 0xfd,
        0xff, 0xff, 0xff, 0xff] chunks_len s = some fl ∧
        s.p ≤ fl.state.p ∧ fl.state.p ≤ s.p + 4) :=
  ⟨by decide, decode_reads_within_buffer [0x71, 0x6f, 0x69, 0x32, 0, 0, 0, 1, 0, 0, 0, 1, 4, 0,
    0xfd, 0xff, 0xff, 0xff, 0xff] 0 (by decide)⟩

/-- Claim C9 (forced output channels). For every valid image: decoding its encoding with
requested channels 0 succeeds and writes `channels` bytes per pixel, `channels` being the
header's; and when the image has 4 channels, decoding with requested channels 3 succeeds,
fills the descriptor with the header's (channels 4) and writes `width * height * 3` bytes,
the r, g, b of each input pixel in order. -/
theorem forced_output_channels (pixels : List Nat) (desc : qoi_desc)
    (hw : 0 < desc.width) (hh : 0 < desc.height)
    (hc : desc.channels = 3 ∨ desc.channels = 4) (hs : desc.colorspace ≤ 1)
    (hcap : desc.height < 350000000 / desc.width)
    (hlen : pixels.length = desc.width * desc.height * desc.channels)
    (hpix : ∀ b ∈ pixels, b < 256) :
    ∃ enc, qoi_encode pixels desc = some enc ∧
      (∃ final, qoi_decode enc 0 = .ok desc final ∧
        final.pixels.length = desc.width * desc.height * desc.channels) ∧
      (desc.channels = 4 →
        ∃ final, qoi_decode enc 3 = .ok desc final ∧
          final.pixels.length = desc.width * desc.height * 3 ∧
          ∀ i, i < desc.width * desc.height →
            final.pixels[i * 3]? = pixels[i * 4]? ∧
            final.pixels[i * 3 + 1]? = pixels[i * 4 + 1]? ∧
            final.pixels[i * 3 + 2]? = pixels[i * 4 + 2]?) := by
  obtain ⟨enc, final, h1, h2, h3, h4⟩ :=
    qoi_decode_encode pixels desc hw hh hc hs hcap hpix 0 (Or.inl rfl)
  have ho : qoi_out_channels 0 desc.channels = desc.channels := by simp [qoi_out_channels]
  rw [ho] at h4
  refine ⟨enc, h1, ⟨final, h2, ?_⟩, ?_⟩
  · rw [h4, qoi_expected_length pixels desc.channels desc.channels hc]
  · intro hc4
    obtain ⟨enc3, final3, g1, g2, g3, g4⟩ :=
      qoi_decode_encode pixels desc hw hh hc hs hcap hpix 3 (Or.inr (Or.inl rfl))
    have he : enc3 = enc := by rw [h1] at g1; exact (Option.some.inj g1).symm
    subst he
    have ho3 : qoi_out_channels 3 desc.channels = 3 := by simp [qoi_out_channels]
    rw [ho3, hc4] at g4
    rw [hc4] at hlen
    refine ⟨final3, g2, ?_, ?_⟩
    · rw [g4, qoi_expected_length pixels 4 3 (Or.inl rfl)]
    · intro i hi
      have hin : i * 4 + 3 < pixels.length := by rw [hlen]; omega
      have g := fun j hj => qoi_expected_get pixels 4 3 (Or.inl rfl)
        (desc.width * desc.height) i j hi hj
      rw [g4]
      refine ⟨?_, ?_, ?_⟩
      · have := g 0 (by omega)
        rw [Nat.add_zero] at this
        rw [this]
        exact qoi_px_bytes_rgb pixels 4 3 i 0 (by omega) (by omega)
      · rw [g 1 (by omega)]
        exact qoi_px_bytes_rgb pixels 4 3 i 1 (by omega) (by omega)
      · rw [g 2 (by omega)]
        exact qoi_px_bytes_rgb pixels 4 3 i 2 (by omega) (by omega)

/-- A 2x1 RGBA image with two alpha values, decoded to RGB. -/
theorem forced_output_channels_witness :
    ((⟨2, 1, 4, 1⟩ : qoi_desc).height < 350000000 / (⟨2, 1, 4, 1⟩ : qoi_desc).width ∧
      ([10, 20, 30, 40, 200, 100, 50, 7] : List Nat).length = 2 * 1 * 4) ∧
    ∃ enc, qoi_encode [10, 20, 30, 40, 200, 100, 50, 7] ⟨2, 1, 4, 1⟩ = some enc ∧
      (∃ final, qoi_decode enc 0 = .ok ⟨2, 1, 4, 1⟩ final ∧
        final.pixels.length = 2 * 1 * 4) ∧
      ((⟨2, 1, 4, 1⟩ : qoi_desc).channels = 4 →
        ∃ final, qoi_decode enc 3 = .ok ⟨2, 1, 4, 1⟩ final ∧
          final.pixels.length = 2 * 1 * 3 ∧
          ∀ i, i < 2 * 1 →
            final.pixels[i * 3]? = [10, 20, 30, 40, 200, 100, 50, 7][i * 4]? ∧
            final.pixels[i * 3 + 1]? = [10, 20, 30, 40, 200, 100, 50, 7][i * 4 + 1]? ∧
            final.pixels[i * 3 + 2]? = [10, 20, 30, 40, 200, 100, 50, 7][i * 4 + 2]?) :=
  ⟨by decide, forced_output_channels [10, 20, 30, 40, 200, 100, 50, 7] ⟨2, 1, 4, 1⟩
    (by decide) (by decide) (by decide) (by decide) (by decide) (by decide) (by decide)⟩

/-- Claim C10 (index-write asymmetry). In `qoi_decode` a `QOI_OP_INDEX`, `QOI_OP_RUN`,
`QOI_OP_RUN2` or `QOI_OP_A` chunk leaves the index ring and the cursor `index_pos` as they
were. After any successful decode the cursor equals the number of chunks dispatched whose
kind inserts (LUMA, LUMA2, LUMA3, GRAY, RGB); so when every chunk dispatched is of one of
the four other kinds, or the end marker, the cursor is 0 and the ring is still all zero. -/
theorem index_cursor_counts_inserts (data : List Nat) (channels : Int) (desc : qoi_desc)
    (final : qoi_decoder) (h : qoi_decode data channels = .ok desc final) :
    final.index_pos = (final.tags.filter qoi_tag_inserts).length ∧
    ((∀ t ∈ final.tags, (0x80 ≤ t ∧ t < 0xc0) ∨ (0xf0 ≤ t ∧ t < 0xf8) ∨
        (0xf8 ≤ t ∧ t < 0xfc) ∨ t = QOI_OP_A ∨ t = QOI_OP_END) →
      final.index_pos = 0 ∧ final.index = List.replicate 64 qoi_zero_px) ∧
    (∀ (bytes : List Nat) (s : qoi_decoder) (fl : qoi_flow) (b1 : Nat),
      bytes[s.p]? = some b1 → qoi_decode_chunk bytes s = some fl →
      ((0x80 ≤ b1 ∧ b1 < 0xc0) ∨ (0xf0 ≤ b1 ∧ b1 < 0xf8) ∨ (0xf8 ≤ b1 ∧ b1 < 0xfc) ∨
        b1 = QOI_OP_A) →
      fl.state.index = s.index ∧ fl.state.index_pos = s.index_pos) := by
  obtain ⟨cl, pl, ch, fuel, hloop⟩ := qoi_decode_ok_loop data channels desc final h
  obtain ⟨new, n1, n2, n3⟩ := qoi_decode_loop_log data cl pl ch fuel _ _ hloop
  have ht : final.tags = new := by rw [n1]; rfl
  have hz : final.index_pos = 0 + (new.filter qoi_tag_inserts).length := n2
  rw [Nat.zero_add] at hz
  refine ⟨by rw [ht]; exact hz, ?_, ?_⟩
  · intro hall
    have hnone : new.filter qoi_tag_inserts = [] := by
      rw [List.filter_eq_nil_iff]
      intro t htm
      have := hall t (by rw [ht]; exact htm)
      simp only [qoi_tag_inserts, decide_eq_true_eq, QOI_OP_GRAY, QOI_OP_RGB]
      simp only [QOI_OP_A, QOI_OP_END] at this
      omega
    refine ⟨by rw [hz, hnone]; rfl, ?_⟩
    rw [n3 hnone]
    rfl
  · intro bytes s fl b1 hb hfl hk
    obtain ⟨b, hb', -, -, -, -, -, -, -, f3⟩ := qoi_decode_chunk_frame bytes s fl hfl
    rw [hb] at hb'
    have hbb : b1 = b := Option.some.inj hb'
    subst hbb
    have hni : qoi_tag_inserts b1 = false := by
      simp only [qoi_tag_inserts, decide_eq_false_iff_not, QOI_OP_GRAY, QOI_OP_RGB]
      simp only [QOI_OP_A] at hk
      omega
    exact ⟨(f3 hni).2, (f3 hni).1⟩

/-- A 1x1 RGBA stream whose only chunk is a `QOI_OP_INDEX`. -/
theorem index_cursor_counts_inserts_witness :
    qoi_decode [0x71, 0x6f, 0x69, 0x32, 0, 0, 0, 1, 0, 0, 0, 1, 4, 0, 0x80,
        0xff, 0xff, 0xff, 0xff] 0 =
      .ok ⟨1, 1, 4, 0⟩
        { pixels := [0, 0, 0, 0], px_pos := 4, p := 15, run := 0, index_pos := 0,
          index := List.replicate 64 qoi_zero_px, px := qoi_zero_px, tags := [0x80] } ∧
    (0 : Nat) = (([0x80] : List Nat).filter qoi_tag_inserts).length :=
  ⟨rfl, (index_cursor_counts_inserts [0x71, 0x6f, 0x69, 0x32, 0, 0, 0, 1, 0, 0, 0, 1, 4, 0,
    0x80, 0xff, 0xff, 0xff, 0xff] 0 ⟨1, 1, 4, 0⟩
    { pixels := [0, 0, 0, 0], px_pos := 4, p := 15, run := 0, index_pos := 0,
      index := List.replicate 64 qoi_zero_px, px := qoi_zero_px, tags := [0x80] } rfl).1⟩

/-! ## The concrete scenarios -/

set_option maxRecDepth 100000 in
/-- Claim C11 (scenario 1), as stated, fails: on the 2x1 opaque red image the encoder does
not end the chunk region with the single byte `f0` of a `QOI_OP_RUN`. -/
theorem solid_red_run_counterexample :
    qoi_encode [255, 0, 0, 255, 0, 0] ⟨2, 1, 3, 0⟩ ≠
      some [0x71, 0x6f, 0x69, 0x32, 0, 0, 0, 2, 0, 0, 0, 1, 3, 0,
        0x46, 0xf0, 0xff, 0xff, 0xff, 0xff] := by
  decide

set_option maxRecDepth 100000 in
/-- Claim C11 (scenario 1), amended. The 2x1 opaque red image with descriptor (2, 1, 3, 0)
encodes to the 14 header bytes, the `QOI_OP_LUMA` byte `46` for the first pixel, the two
bytes `f8 00` of a `QOI_OP_RUN2` with stored run value 0 for the second pixel (the run flush
at the final pixel always stores a `QOI_OP_RUN2`), and `ff ff ff ff`; the decoder dispatches
exactly these two chunks and returns the two pixels. -/
theorem solid_red_encoding :
    qoi_encode [255, 0, 0, 255, 0, 0] ⟨2, 1, 3, 0⟩ =
      some [0x71, 0x6f, 0x69, 0x32, 0, 0, 0, 2, 0, 0, 0, 1, 3, 0,
        0x46, 0xf8, 0x00, 0xff, 0xff, 0xff, 0xff] ∧
    [0x46, 0xf8, 0x00] =
      qoi_encode_diff ⟨255, 0, 0, 255⟩ qoi_start_px ++
        [(QOI_OP_RUN2 ||| ((0 >>> 8) &&& 3)) % 256, (0 &&& 0xff) % 256] ∧
    ∃ final, qoi_decode [0x71, 0x6f, 0x69, 0x32, 0, 0, 0, 2, 0, 0, 0, 1, 3, 0,
        0x46, 0xf8, 0x00, 0xff, 0xff, 0xff, 0xff] 0 = .ok ⟨2, 1, 3, 0⟩ final ∧
      final.tags = [0x46, 0xf8] ∧ final.pixels = [255, 0, 0, 255, 0, 0] :=
  ⟨by decide, by decide, _, rfl, by decide, by decide⟩

/-- Claim C12 (scenario 2), as stated, fails: on the 1x1 transparent black image the encoder
emits neither the alpha preamble `fe 00` nor a `QOI_OP_LUMA` byte. -/
theorem transparent_black_counterexample :
    qoi_encode [0, 0, 0, 0] ⟨1, 1, 4, 0⟩ ≠
      some [0x71, 0x6f, 0x69, 0x32, 0, 0, 0, 1, 0, 0, 0, 1, 4, 0,
        0xfe, 0x00, 0x46, 0xff, 0xff, 0xff, 0xff] := by
  decide

/-- Claim C12 (scenario 2), amended. The 1x1 4-channel image `[0, 0, 0, 0]` encodes, with
either colorspace, to the 14 header bytes, the single byte `80` and `ff ff ff ff`: the
pixel hashes to entry 0 of the zeroed lookup table, which names slot 0 of the zeroed index,
and that slot equals the pixel, so the encoder stores `QOI_OP_INDEX | 0`. -/
theorem transparent_black_encoding :
    qoi_encode [0, 0, 0, 0] ⟨1, 1, 4, 0⟩ =
      some [0x71, 0x6f, 0x69, 0x32, 0, 0, 0, 1, 0, 0, 0, 1, 4, 0, 0x80,
        0xff, 0xff, 0xff, 0xff] ∧
    qoi_encode [0, 0, 0, 0] ⟨1, 1, 4, 1⟩ =
      some [0x71, 0x6f, 0x69, 0x32, 0, 0, 0, 1, 0, 0, 0, 1, 4, 1, 0x80,
        0xff, 0xff, 0xff, 0xff] ∧
    QOI_COLOR_HASH ⟨0, 0, 0, 0⟩ = 0 ∧
    ((qoi_encode_start ⟨1, 1, 4, 0⟩).index.getD
      ((qoi_encode_start ⟨1, 1, 4, 0⟩).index_lookup.getD 0 0) qoi_zero_px).v =
        (⟨0, 0, 0, 0⟩ : qoi_rgba_t).v ∧
    (QOI_OP_INDEX ||| 0) % 256 = 0x80 :=
  ⟨by decide, by decide, by decide, by decide, by decide⟩

/-- Claim C14 (scenario 4), as stated, fails: the chunk region of the encoded 2x2
checkerboard is not a `QOI_OP_GRAY`, a `QOI_OP_GRAY`, a `QOI_OP_INDEX` of slot 1 and a
`QOI_OP_INDEX` of slot 0, whatever the two gray values. -/
theorem checkerboard_counterexample :
    ¬ ∃ g1 g2, qoi_encode [0, 0, 0, 255, 255, 255, 255, 255, 255, 0, 0, 0] ⟨2, 2, 3, 0⟩ =
      some [0x71, 0x6f, 0x69, 0x32, 0, 0, 0, 2, 0, 0, 0, 2, 3, 0,
        0xfc, g1, 0xfc, g2, 0x81, 0x80, 0xff, 0xff, 0xff, 0xff] := by
  have h : qoi_encode [0, 0, 0, 255, 255, 255, 255, 255, 255, 0, 0, 0] ⟨2, 2, 3, 0⟩ =
      some [0x71, 0x6f, 0x69, 0x32, 0, 0, 0, 2, 0, 0, 0, 2, 3, 0, 0xf0, 0x35, 0xf0, 0x5a,
        0xff, 0xff, 0xff, 0xff] := by decide
  rintro ⟨g1, g2, hg⟩
  rw [h] at hg
  simp at hg

/-- Claim C14 (scenario 4), amended. The 2x2 3-channel checkerboard encodes to the 14 header
bytes, then exactly four one-byte chunks: a `QOI_OP_RUN` with field 0 (`f0`: the first
black pixel equals the initial previous pixel), a `QOI_OP_LUMA` (`35`, white), a
`QOI_OP_RUN` with field 0 (`f0`, white again) and a `QOI_OP_LUMA` (`5a`, black), then
`ff ff ff ff`; the decoder dispatches exactly these four chunks and returns the image. -/
theorem checkerboard_encoding :
    qoi_encode [0, 0, 0, 255, 255, 255, 255, 255, 255, 0, 0, 0] ⟨2, 2, 3, 0⟩ =
      some [0x71, 0x6f, 0x69, 0x32, 0, 0, 0, 2, 0, 0, 0, 2, 3, 0, 0xf0, 0x35, 0xf0, 0x5a,
        0xff, 0xff, 0xff, 0xff] ∧
    [0xf0, 0x35, 0xf0, 0x5a] =
      [(QOI_OP_RUN ||| 0) % 256] ++ qoi_encode_diff ⟨255, 255, 255, 255⟩ ⟨0, 0, 0, 255⟩ ++
      [(QOI_OP_RUN ||| 0) % 256] ++ qoi_encode_diff ⟨0, 0, 0, 255⟩ ⟨255, 255, 255, 255⟩ ∧
    ∃ final, qoi_decode [0x71, 0x6f, 0x69, 0x32, 0, 0, 0, 2, 0, 0, 0, 2, 3, 0,
        0xf0, 0x35, 0xf0, 0x5a, 0xff, 0xff, 0xff, 0xff] 0 = .ok ⟨2, 2, 3, 0⟩ final ∧
      final.tags = [0xf0, 0x35, 0xf0, 0x5a] ∧
      final.pixels = [0, 0, 0, 255, 255, 255, 255, 255, 255, 0, 0, 0] :=
  ⟨by decide, by decide, _, rfl, by decide, by decide⟩

/-! ## A run that reaches the cap on the final pixel -/

/-- Reading pixel `k` of a buffer that repeats the three bytes `a, b, c`. -/
theorem replicate_flatten_getD (a b c : Nat) :
    ∀ n k, k < n →
      (List.replicate n [a, b, c]).flatten.getD (k * 3 + 0) 0 = a ∧
      (List.replicate n [a, b, c]).flatten.getD (k * 3 + 1) 0 = b ∧
      (List.replicate n [a, b, c]).flatten.getD (k * 3 + 2) 0 = c := by
  intro n
  induction n with
  | zero => intro k hk; omega
  | succ n ih =>
    intro k hk
    cases k with
    | zero => simp [List.replicate_succ]
    | succ k =>
      obtain ⟨h1, h2, h3⟩ := ih k (by omega)
      have e0 : (k + 1) * 3 + 0 = (k * 3 + 0) + 1 + 1 + 1 := by omega
      have e1 : (k + 1) * 3 + 1 = (k * 3 + 1) + 1 + 1 + 1 := by omega
      have e2 : (k + 1) * 3 + 2 = (k * 3 + 2) + 1 + 1 + 1 := by omega
      rw [e0, e1, e2]
      simp only [List.replicate_succ, List.flatten_cons, List.cons_append, List.nil_append,
        List.getD_cons_succ]
      exact ⟨h1, h2, h3⟩

/-- The loop body of `qoi_encode` on a pixel equal to the previous one. -/
theorem qoi_encode_body_same (px : qoi_rgba_t) (last : Bool) (s : qoi_encoder)
    (h : px.v = s.px_prev.v) :
    qoi_encode_body px last s =
      if s.run + 1 = 1024 ∨ last = true then
        { s with
          bytes := s.bytes ++
            [(QOI_OP_RUN2 ||| (((s.run + 1 - 1) >>> 8) &&& 3)) % 256,
              ((s.run + 1 - 1) &&& 0xff) % 256]
          run := 0 }
      else { s with run := s.run + 1 } := by
  unfold qoi_encode_body
  rw [if_pos h]

/-- The loop body of `qoi_encode` on a pixel that differs from the previous one and misses
the index probe. -/
theorem qoi_encode_body_miss (px : qoi_rgba_t) (last : Bool) (s : qoi_encoder)
    (h : px.v ≠ s.px_prev.v)
    (hm : (s.index.getD (s.index_lookup.getD (QOI_COLOR_HASH px) 0) qoi_zero_px).v ≠ px.v) :
    qoi_encode_body px last s =
      { qoi_encode_flush s with
        index_lookup := s.index_lookup.set (QOI_COLOR_HASH px) (s.index_pos % 256)
        index := s.index.set s.index_pos px
        index_pos := (s.index_pos + 1) &&& 63
        bytes := (qoi_encode_flush s).bytes ++ qoi_encode_alpha px s.px_prev ++
          qoi_encode_diff px s.px_prev
        px_prev := px } := by
  unfold qoi_encode_body
  rw [if_neg h]
  simp only [qoi_encode_flush_index, qoi_encode_flush_index_lookup, qoi_encode_flush_px_prev,
    qoi_encode_flush_index_pos]
  rw [if_neg hm]

theorem getD_replicate_zero_px (n i : Nat) :
    (List.replicate n qoi_zero_px).getD i qoi_zero_px = qoi_zero_px := by
  rw [List.getD_eq_getElem?_getD]
  exact @List.getElem?_getD_replicate_default_eq _ qoi_zero_px n i

/-- The first opaque red pixel of an image: an index miss, stored as the `QOI_OP_LUMA` byte
`46`. -/
theorem qoi_encode_body_first_red (desc : qoi_desc) :
    (qoi_encode_body ⟨255, 0, 0, 255⟩ false
      { qoi_encode_start desc with px := ⟨255, 0, 0, 255⟩ }).bytes =
        (qoi_encode_start desc).bytes ++ [0x46] ∧
    (qoi_encode_body ⟨255, 0, 0, 255⟩ false
      { qoi_encode_start desc with px := ⟨255, 0, 0, 255⟩ }).run = 0 ∧
    (qoi_encode_body ⟨255, 0, 0, 255⟩ false
      { qoi_encode_start desc with px := ⟨255, 0, 0, 255⟩ }).px_prev = ⟨255, 0, 0, 255⟩ ∧
    (qoi_encode_body ⟨255, 0, 0, 255⟩ false
      { qoi_encode_start desc with px := ⟨255, 0, 0, 255⟩ }).px = ⟨255, 0, 0, 255⟩ := by
  have hfl : qoi_encode_flush { qoi_encode_start desc with px := ⟨255, 0, 0, 255⟩ } =
      { qoi_encode_start desc with px := ⟨255, 0, 0, 255⟩ } := rfl
  have hv : (⟨255, 0, 0, 255⟩ : qoi_rgba_t).v ≠ qoi_start_px.v := by decide
  have hz : qoi_zero_px.v ≠ (⟨255, 0, 0, 255⟩ : qoi_rgba_t).v := by decide
  have ha : qoi_encode_alpha ⟨255, 0, 0, 255⟩ qoi_start_px = [] := by decide
  have hd : qoi_encode_diff ⟨255, 0, 0, 255⟩ qoi_start_px = [0x46] := by decide
  rw [qoi_encode_body_miss _ _ _ hv
    (by
      show ((List.replicate 64 qoi_zero_px).getD _ qoi_zero_px).v ≠ _
      rw [getD_replicate_zero_px]
      exact hz)]
  rw [hfl]
  refine ⟨?_, rfl, rfl, rfl⟩
  show (qoi_encode_start desc).bytes ++ qoi_encode_alpha ⟨255, 0, 0, 255⟩ qoi_start_px ++
    qoi_encode_diff ⟨255, 0, 0, 255⟩ qoi_start_px = _
  rw [ha, hd, List.append_nil]

/-- The pixel loop of `qoi_encode` on 1025 opaque red pixels, three channels: after the first
pixel the output is the header and the byte `46`, the following 1023 pixels only count up
the run, and the last one stores the run as `fb ff`. -/
theorem qoi_encode_red_step (desc : qoi_desc) (k : Nat) (s : qoi_encoder) (hk : k < 1025)
    (h : (k = 0 → s = qoi_encode_start desc) ∧
      (1 ≤ k → k ≤ 1024 → s.bytes = (qoi_encode_start desc).bytes ++ [0x46] ∧
        s.run = k - 1 ∧ s.px_prev = ⟨255, 0, 0, 255⟩ ∧ s.px = ⟨255, 0, 0, 255⟩) ∧
      (k = 1025 → s.bytes = (qoi_encode_start desc).bytes ++ [0x46, 0xfb, 0xff])) :
    (k + 1 = 0 → qoi_encode_pixel (List.replicate 1025 [255, 0, 0]).flatten 3 (1025 * 3 - 3)
        (k * 3) s = qoi_encode_start desc) ∧
      (1 ≤ k + 1 → k + 1 ≤ 1024 →
        (qoi_encode_pixel (List.replicate 1025 [255, 0, 0]).flatten 3 (1025 * 3 - 3)
          (k * 3) s).bytes = (qoi_encode_start desc).bytes ++ [0x46] ∧
        (qoi_encode_pixel (List.replicate 1025 [255, 0, 0]).flatten 3 (1025 * 3 - 3)
          (k * 3) s).run = k + 1 - 1 ∧
        (qoi_encode_pixel (List.replicate 1025 [255, 0, 0]).flatten 3 (1025 * 3 - 3)
          (k * 3) s).px_prev = ⟨255, 0, 0, 255⟩ ∧
        (qoi_encode_pixel (List.replicate 1025 [255, 0, 0]).flatten 3 (1025 * 3 - 3)
          (k * 3) s).px = ⟨255, 0, 0, 255⟩) ∧
      (k + 1 = 1025 →
        (qoi_encode_pixel (List.replicate 1025 [255, 0, 0]).flatten 3 (1025 * 3 - 3)
          (k * 3) s).bytes = (qoi_encode_start desc).bytes ++ [0x46, 0xfb, 0xff]) := by
  obtain ⟨h0, h1, -⟩ := h
  have hload : ∀ px0 : qoi_rgba_t, px0.a = 255 →
      qoi_encode_load (List.replicate 1025 [255, 0, 0]).flatten 3 (k * 3) px0 =
        ⟨255, 0, 0, 255⟩ := by
    intro px0 ha
    obtain ⟨g0, g1, g2⟩ := replicate_flatten_getD 255 0 0 1025 k hk
    unfold qoi_encode_load
    rw [g0, g1, g2, if_neg (by decide), ha]
  unfold qoi_encode_pixel
  simp only
  rcases Nat.eq_zero_or_pos k with hk0 | hkpos
  · subst hk0
    rw [h0 rfl, hload _ rfl]
    have hl : decide (0 * 3 = 1025 * 3 - 3) = false := by decide
    rw [hl]
    obtain ⟨e1, e2, e3, e4⟩ := qoi_encode_body_first_red desc
    exact ⟨fun h => absurd h (by omega), fun _ _ => ⟨e1, e2, e3, e4⟩,
      fun h => absurd h (by omega)⟩
  · obtain ⟨b, r, pp, px⟩ := h1 hkpos (by omega)
    rw [hload s.px (by rw [px])]
    rw [qoi_encode_body_same _ _ _ (by show _ = s.px_prev.v; rw [pp])]
    by_cases hlast : k = 1024
    · subst hlast
      rw [if_pos (Or.inl (by show s.run + 1 = 1024; omega))]
      refine ⟨fun h => absurd h (by omega), fun _ h => absurd h (by omega), fun _ => ?_⟩
      show s.bytes ++ _ = _
      rw [b, r]
      simp only [List.append_assoc, List.cons_append, List.nil_append]
      congr 1
    · have hl : decide (k * 3 = 1025 * 3 - 3) = false := by
        rw [decide_eq_false_iff_not]; omega
      rw [hl, if_neg (by
        show ¬ (s.run + 1 = 1024 ∨ false = true)
        simp only [Bool.false_eq_true, or_false]; omega)]
      exact ⟨fun h => absurd h (by omega), fun _ _ => ⟨b, by show s.run + 1 = _; omega, pp, rfl⟩,
        fun h => absurd h (by omega)⟩

/-- A descriptor of 1025 pixels passes the test of `qoi_encode`. -/
theorem qoi_desc_1025 (desc : qoi_desc) (hwh : desc.width * desc.height = 1025) :
    0 < desc.width ∧ 0 < desc.height ∧ desc.height < 350000000 / desc.width := by
  have hw : 0 < desc.width := by
    rcases Nat.eq_zero_or_pos desc.width with h | h
    · rw [h, Nat.zero_mul] at hwh; omega
    · exact h
  have hh : 0 < desc.height := by
    rcases Nat.eq_zero_or_pos desc.height with h | h
    · rw [h, Nat.mul_zero] at hwh; omega
    · exact h
  have h1 : desc.width ≤ 1025 := by
    rw [← hwh]; exact Nat.le_mul_of_pos_right _ hh
  have h2 : desc.height ≤ 1025 := by
    rw [← hwh]; exact Nat.le_mul_of_pos_left _ hw
  have h3 : 350000000 / 1025 ≤ 350000000 / desc.width := Nat.div_le_div_left h1 hw
  refine ⟨hw, hh, ?_⟩
  have h4 : 350000000 / 1025 = 341463 := by norm_num
  omega

/-- The image of 1025 opaque red pixels, three channels, encodes to the header, the three
bytes `46 fb ff` and the padding. -/
theorem qoi_encode_red_1025 (desc : qoi_desc) (hwh : desc.width * desc.height = 1025)
    (hc : desc.channels = 3) (hs : desc.colorspace ≤ 1) :
    qoi_encode (List.replicate 1025 [255, 0, 0]).flatten desc =
      some (qoi_header_bytes desc ++ [0x46, 0xfb, 0xff] ++ qoi_padding) := by
  obtain ⟨hw, hh, hcap⟩ := qoi_desc_1025 desc hwh
  obtain ⟨hrej, -⟩ := qoi_desc_accepted desc hw hh (Or.inl hc) hs hcap
  have hfin := qoi_encode_loop_inv (List.replicate 1025 [255, 0, 0]).flatten 3 (1025 * 3 - 3)
    1025 (by decide)
    (fun k s => (k = 0 → s = qoi_encode_start desc) ∧
      (1 ≤ k → k ≤ 1024 → s.bytes = (qoi_encode_start desc).bytes ++ [0x46] ∧
        s.run = k - 1 ∧ s.px_prev = ⟨255, 0, 0, 255⟩ ∧ s.px = ⟨255, 0, 0, 255⟩) ∧
      (k = 1025 → s.bytes = (qoi_encode_start desc).bytes ++ [0x46, 0xfb, 0xff]))
    (fun k s hk h => qoi_encode_red_step desc k s hk h)
    (1025 * 3) 0 (qoi_encode_start desc) (Nat.zero_le _) (by decide)
    ⟨fun _ => rfl, fun h => absurd h (by decide), fun h => absurd h (by decide)⟩
  have hb := hfin.2.2 rfl
  rw [Nat.zero_mul] at hb
  unfold qoi_encode
  rw [hrej]
  simp only [Bool.false_eq_true, if_false, hwh, hc]
  have hm : 1025 * 3 % 2 ^ 32 = 1025 * 3 := by decide
  rw [hm, hb, qoi_encode_start_bytes]

/-! ## Size arithmetic -/

/-- What a successful `qoi_decode` call went through: the argument test, the header test,
and the pixel loop. -/
theorem qoi_decode_ok_inv (data : List Nat) (channels : Int) (desc : qoi_desc)
    (final : qoi_decoder) (h : qoi_decode data channels = .ok desc final) :
    (channels = 0 ∨ channels = 3 ∨ channels = 4) ∧ 18 ≤ data.length ∧
    qoi_desc_rejected desc = false ∧
    qoi_decode_loop data (data.length - 4)
      ((desc.width * desc.height * qoi_out_channels channels desc.channels) % 2 ^ 32)
      (qoi_out_channels channels desc.channels)
      ((desc.width * desc.height * qoi_out_channels channels desc.channels) % 2 ^ 32 +
        data.length) qoi_decode_start = .done final := by
  unfold qoi_decode at h
  simp only [QOI_HEADER_SIZE] at h
  split at h
  · cases h
  rename_i harg
  split at h
  · rename_i magic w hh ch cs _ _ _ _ _
    split at h
    · cases h
    rename_i hacc
    split at h
    · cases h
    · cases h
    · rename_i s hs
      injection h with h1 h2
      subst h1 h2
      refine ⟨by omega, by omega, ?_, hs⟩
      unfold qoi_desc_rejected
      simp only [decide_eq_false_iff_not]
      omega
  · cases h

/-- The products computed by `qoi_encode` and `qoi_decode` for an accepted descriptor. -/
theorem qoi_desc_products (desc : qoi_desc) (h : qoi_desc_rejected desc = false) :
    desc.width * desc.height < 350000000 ∧ (desc.channels = 3 ∨ desc.channels = 4) := by
  unfold qoi_desc_rejected QOI_PIXELS_MAX at h
  simp only [decide_eq_false_iff_not] at h
  have hw : 0 < desc.width := by omega
  have hcap : desc.height + 1 ≤ 350000000 / desc.width := by omega
  rw [Nat.le_div_iff_mul_le hw, Nat.add_mul, Nat.mul_comm desc.height] at hcap
  exact ⟨by omega, by omega⟩

/-- Claim C20 (overflow guard). For every descriptor that passes the test of `qoi_encode`,
`width * height * 6 + 18` and `width * height * channels` are below `2^31`, so `max_size`
and `px_len` are computed without 32-bit wraparound (the reductions `% 2^32` of the model do
nothing) and fit a signed 32-bit `int`; and whenever `qoi_decode` succeeds, the same holds
for its `px_len`, with three or four output channels. -/
theorem size_arithmetic_no_overflow (desc : qoi_desc) (h : qoi_desc_rejected desc = false) :
    desc.width * desc.height * 6 + 18 < 2 ^ 31 ∧
    desc.width * desc.height * desc.channels < 2 ^ 31 ∧
    qoi_max_size desc =
      desc.width * desc.height * (if desc.channels = 3 then 4 else 6) + 14 + 4 ∧
    qoi_max_size desc < 2 ^ 31 ∧
    (desc.width * desc.height * desc.channels) % 2 ^ 32 =
      desc.width * desc.height * desc.channels ∧
    (∀ och, och = 3 ∨ och = 4 →
      desc.width * desc.height * och < 2 ^ 31 ∧
      (desc.width * desc.height * och) % 2 ^ 32 = desc.width * desc.height * och) ∧
    (∀ (data : List Nat) (channels : Int) (hdr : qoi_desc) (final : qoi_decoder),
      qoi_decode data channels = .ok hdr final →
        (qoi_out_channels channels hdr.channels = 3 ∨
          qoi_out_channels channels hdr.channels = 4) ∧
        hdr.width * hdr.height * qoi_out_channels channels hdr.channels < 2 ^ 31 ∧
        (hdr.width * hdr.height * qoi_out_channels channels hdr.channels) % 2 ^ 32 =
          hdr.width * hdr.height * qoi_out_channels channels hdr.channels) := by
  obtain ⟨hp, hc⟩ := qoi_desc_products desc h
  have hmax : qoi_max_size desc =
      desc.width * desc.height * (if desc.channels = 3 then 4 else 6) + 14 + 4 := by
    unfold qoi_max_size QOI_HEADER_SIZE
    rcases hc with hc | hc <;> simp only [hc] <;> norm_num <;> omega
  refine ⟨by omega, by rcases hc with hc | hc <;> rw [hc] <;> omega, hmax, ?_, ?_, ?_, ?_⟩
  · rw [hmax]
    split_ifs <;> omega
  · apply Nat.mod_eq_of_lt
    rcases hc with hc | hc <;> rw [hc] <;> omega
  · intro och hoch
    have : desc.width * desc.height * och < 2 ^ 31 := by
      rcases hoch with hoch | hoch <;> rw [hoch] <;> omega
    exact ⟨this, Nat.mod_eq_of_lt (by omega)⟩
  · intro data channels hdr final hok
    obtain ⟨harg, -, hrej, -⟩ := qoi_decode_ok_inv data channels hdr final hok
    obtain ⟨hp2, hc2⟩ := qoi_desc_products hdr hrej
    have hoc : qoi_out_channels channels hdr.channels = 3 ∨
        qoi_out_channels channels hdr.channels = 4 := by
      unfold qoi_out_channels
      rcases harg with h0 | h0 | h0
      · rw [if_pos h0]; exact hc2
      · rw [if_neg (by omega), h0]; exact Or.inl rfl
      · rw [if_neg (by omega), h0]; exact Or.inr rfl
    have : hdr.width * hdr.height * qoi_out_channels channels hdr.channels < 2 ^ 31 := by
      rcases hoc with hoc | hoc <;> rw [hoc] <;> omega
    exact ⟨hoc, this, Nat.mod_eq_of_lt (by omega)⟩

/-- A large image, of 349970556 pixels, that the guard lets through. -/
theorem size_arithmetic_no_overflow_witness :
    qoi_desc_rejected ⟨18708, 18707, 4, 0⟩ = false ∧
    (⟨18708, 18707, 4, 0⟩ : qoi_desc).width * (⟨18708, 18707, 4, 0⟩ : qoi_desc).height * 6 +
      18 < 2 ^ 31 ∧
    qoi_max_size ⟨18708, 18707, 4, 0⟩ < 2 ^ 31 :=
  ⟨by decide, (size_arithmetic_no_overflow ⟨18708, 18707, 4, 0⟩ (by decide)).1,
    (size_arithmetic_no_overflow ⟨18708, 18707, 4, 0⟩ (by decide)).2.2.2.1⟩

/-! ## The chunk selection cascade against its specification -/

theorem qoi_spec_s8_eq (x : Int) : qoi_spec_s8 x = to_s8 x := by
  unfold qoi_spec_s8 to_s8
  split_ifs <;> omega

theorem to_s8_range (x : Int) : -128 ≤ to_s8 x ∧ to_s8 x ≤ 127 := by
  unfold to_s8; omega

theorem luma_pack : ∀ x < 8, ∀ y < 4, ∀ z < 4,
    (0x00 ||| (x <<< 4) ||| (y <<< 2) ||| z) % 256 = x * 16 + y * 4 + z := by decide

theorem luma2_pack1 : ∀ x < 32, (0xc0 ||| x) % 256 = 0xc0 + x := by decide

set_option maxRecDepth 100000 in
theorem luma2_pack2 : ∀ y < 16, ∀ z < 16, ((y <<< 4) ||| z) % 256 = y * 16 + z := by decide

theorem luma3_pack1 : ∀ x < 64, (0xe0 ||| (x >>> 2)) % 256 = 0xe0 + x / 4 := by decide

set_option maxRecDepth 100000 in
theorem luma3_pack2 : ∀ x < 64, ∀ y < 64,
    (((x &&& 3) <<< 6) ||| y) % 256 = x % 4 * 64 + y := by decide

/-- The kind the specification selects, from the branch conditions of the C cascade. -/
theorem qoi_spec_select_eq (px prev : qoi_rgba_t) :
    qoi_spec_select px prev =
      (let vg : Int := to_s8 ((px.g : Int) - prev.g)
       let vg_r : Int := to_s8 ((px.r : Int) - prev.r - vg)
       let vg_b : Int := to_s8 ((px.b : Int) - prev.b - vg)
       if vg ≥ -4 ∧ vg < 0 ∧ vg_r ≥ -1 ∧ vg_r ≤ 2 ∧ vg_b ≥ -1 ∧ vg_b ≤ 2 then .luma
       else if vg ≥ 0 ∧ vg ≤ 3 ∧ vg_r ≥ -2 ∧ vg_r ≤ 1 ∧ vg_b ≥ -2 ∧ vg_b ≤ 1 then .luma
       else if px.g = px.r ∧ px.g = px.b then .gray
       else if vg_r ≥ -8 ∧ vg_r ≤ 7 ∧ vg ≥ -16 ∧ vg ≤ 15 ∧ vg_b ≥ -8 ∧ vg_b ≤ 7 then .luma2
       else if vg_r ≥ -32 ∧ vg_r ≤ 31 ∧ vg_b ≥ -32 ∧ vg_b ≤ 31 then .luma3
       else .rgb) := by
  unfold qoi_spec_select
  simp only [qoi_spec_s8_eq]
  generalize to_s8 ((px.r : Int) - prev.r - to_s8 ((px.g : Int) - prev.g)) = vgr
  generalize to_s8 ((px.b : Int) - prev.b - to_s8 ((px.g : Int) - prev.g)) = vgb
  generalize to_s8 ((px.g : Int) - prev.g) = vg
  by_cases c1 : vg ≥ -4 ∧ vg < 0 ∧ vgr ≥ -1 ∧ vgr ≤ 2 ∧ vgb ≥ -1 ∧ vgb ≤ 2
  · rw [if_pos c1, if_pos (by omega)]
  rw [if_neg c1, if_neg (by omega)]
  by_cases c2 : vg ≥ 0 ∧ vg ≤ 3 ∧ vgr ≥ -2 ∧ vgr ≤ 1 ∧ vgb ≥ -2 ∧ vgb ≤ 1
  · rw [if_pos c2, if_pos (by omega)]
  rw [if_neg c2, if_neg (by omega)]
  by_cases c3 : px.g = px.r ∧ px.g = px.b
  · rw [if_pos c3, if_pos (by omega)]
  rw [if_neg c3, if_neg (by omega)]
  by_cases c4 : vgr ≥ -8 ∧ vgr ≤ 7 ∧ vg ≥ -16 ∧ vg ≤ 15 ∧ vgb ≥ -8 ∧ vgb ≤ 7
  · rw [if_pos c4, if_pos (by omega)]
  rw [if_neg c4, if_neg (by omega)]
  by_cases c5 : vgr ≥ -32 ∧ vgr ≤ 31 ∧ vgb ≥ -32 ∧ vgb ≤ 31
  · rw [if_pos c5, if_pos (by omega)]
  rw [if_neg c5, if_neg (by omega)]

/-- The bytes the C cascade stores are the packing the specification gives for the kind it
selects, and the first byte is in the tag range of that kind. -/
theorem qoi_encode_diff_spec (px prev : qoi_rgba_t) :
    qoi_encode_diff px prev = qoi_spec_pack (qoi_spec_select px prev) px prev ∧
    ∃ b1 rest, qoi_encode_diff px prev = b1 :: rest ∧
      qoi_spec_tag_ok (qoi_spec_select px prev) b1 := by
  rw [qoi_spec_select_eq]
  unfold qoi_encode_diff qoi_spec_pack
  simp only [qoi_spec_s8_eq]
  obtain ⟨r1, r2⟩ := to_s8_range ((px.r : Int) - prev.r - to_s8 ((px.g : Int) - prev.g))
  obtain ⟨b1, b2⟩ := to_s8_range ((px.b : Int) - prev.b - to_s8 ((px.g : Int) - prev.g))
  obtain ⟨g1, g2⟩ := to_s8_range ((px.g : Int) - prev.g)
  generalize to_s8 ((px.r : Int) - prev.r - to_s8 ((px.g : Int) - prev.g)) = vgr at *
  generalize to_s8 ((px.b : Int) - prev.b - to_s8 ((px.g : Int) - prev.g)) = vgb at *
  generalize to_s8 ((px.g : Int) - prev.g) = vg at *
  by_cases c1 : vg ≥ -4 ∧ vg < 0 ∧ vgr ≥ -1 ∧ vgr ≤ 2 ∧ vgb ≥ -1 ∧ vgb ≤ 2
  · rw [if_pos c1, if_pos c1]
    simp only [if_pos c1.2.1]
    have e := luma_pack (vg + 4).toNat (by omega) (vgr + 1).toNat (by omega)
      (vgb + 1).toNat (by omega)
    simp only [QOI_OP_LUMA]
    rw [e]
    exact ⟨rfl, _, _, rfl, by simp only [qoi_spec_tag_ok]; omega⟩
  rw [if_neg c1, if_neg c1]
  by_cases c2 : vg ≥ 0 ∧ vg ≤ 3 ∧ vgr ≥ -2 ∧ vgr ≤ 1 ∧ vgb ≥ -2 ∧ vgb ≤ 1
  · rw [if_pos c2, if_pos c2]
    simp only [if_neg (show ¬ vg < 0 by omega)]
    have e := luma_pack (vg + 4).toNat (by omega) (vgr + 2).toNat (by omega)
      (vgb + 2).toNat (by omega)
    simp only [QOI_OP_LUMA]
    rw [e]
    exact ⟨rfl, _, _, rfl, by simp only [qoi_spec_tag_ok]; omega⟩
  rw [if_neg c2, if_neg c2]
  by_cases c3 : px.g = px.r ∧ px.g = px.b
  · rw [if_pos c3, if_pos c3]
    exact ⟨rfl, _, _, rfl, rfl⟩
  rw [if_neg c3, if_neg c3]
  by_cases c4 : vgr ≥ -8 ∧ vgr ≤ 7 ∧ vg ≥ -16 ∧ vg ≤ 15 ∧ vgb ≥ -8 ∧ vgb ≤ 7
  · rw [if_pos c4, if_pos c4]
    have e1 := luma2_pack1 (vg + 16).toNat (by omega)
    have e2 := luma2_pack2 (vgr + 8).toNat (by omega) (vgb + 8).toNat (by omega)
    simp only [QOI_OP_LUMA2]
    rw [e1, e2]
    exact ⟨rfl, _, _, rfl, by simp only [qoi_spec_tag_ok]; omega⟩
  rw [if_neg c4, if_neg c4]
  by_cases c5 : vgr ≥ -32 ∧ vgr ≤ 31 ∧ vgb ≥ -32 ∧ vgb ≤ 31
  · rw [if_pos c5, if_pos c5]
    have e1 := luma3_pack1 (vgr + 32).toNat (by omega)
    have e2 := luma3_pack2 (vgr + 32).toNat (by omega) (vgb + 32).toNat (by omega)
    have e3 : to_u8 (vg + 128) = (vg + 128).toNat := by unfold to_u8; omega
    simp only [QOI_OP_LUMA3]
    rw [e1, e2, e3]
    exact ⟨rfl, _, _, rfl, by simp only [qoi_spec_tag_ok]; omega⟩
  rw [if_neg c5, if_neg c5]
  exact ⟨rfl, _, _, rfl, rfl⟩

/-- Claim C15 (chunk selection cascade). For a pixel `px` that differs from the previous
pixel and misses the index probe, the loop body of `qoi_encode` appends to the output (after
the chunk of a pending run, if any) the two bytes `QOI_OP_A, px.a` exactly when the alpha
differs from the previous pixel, and then the chunk the specification selects by its
first-match table, packed with the bit layouts and biases of the specification; the first
byte of that chunk lies in the tag range of its kind. -/
theorem cascade_first_match (px : qoi_rgba_t) (last : Bool) (s : qoi_encoder)
    (hne : px.v ≠ s.px_prev.v)
    (hmiss : (s.index.getD (s.index_lookup.getD (QOI_COLOR_HASH px) 0) qoi_zero_px).v ≠
      px.v) :
    (qoi_encode_body px last s).bytes =
      (qoi_encode_flush s).bytes ++
        (if px.a ≠ s.px_prev.a then [QOI_OP_A, px.a] else []) ++
        qoi_spec_pack (qoi_spec_select px s.px_prev) px s.px_prev ∧
    (∃ b1 rest, qoi_spec_pack (qoi_spec_select px s.px_prev) px s.px_prev = b1 :: rest ∧
      qoi_spec_tag_ok (qoi_spec_select px s.px_prev) b1) ∧
    (qoi_encode_body px last s).px_prev = px := by
  obtain ⟨e1, b1, rest, e2, e3⟩ := qoi_encode_diff_spec px s.px_prev
  rw [qoi_encode_body_miss px last s hne hmiss]
  refine ⟨?_, ⟨b1, rest, by rw [← e1, e2], e3⟩, rfl⟩
  show (qoi_encode_flush s).bytes ++ qoi_encode_alpha px s.px_prev ++
    qoi_encode_diff px s.px_prev = _
  rw [e1]
  rfl

set_option maxRecDepth 100000 in
/-- The cascade on the pixel (20, 30, 40, 7) at the start of an image: alpha preamble, then
a `QOI_OP_LUMA3`. -/
theorem cascade_first_match_witness :
    ((⟨20, 30, 40, 7⟩ : qoi_rgba_t).v ≠ (qoi_encode_start ⟨1, 1, 4, 0⟩).px_prev.v ∧
      ((qoi_encode_start ⟨1, 1, 4, 0⟩).index.getD
        ((qoi_encode_start ⟨1, 1, 4, 0⟩).index_lookup.getD
          (QOI_COLOR_HASH ⟨20, 30, 40, 7⟩) 0) qoi_zero_px).v ≠
        (⟨20, 30, 40, 7⟩ : qoi_rgba_t).v) ∧
    (qoi_encode_body ⟨20, 30, 40, 7⟩ true (qoi_encode_start ⟨1, 1, 4, 0⟩)).bytes =
      (qoi_encode_flush (qoi_encode_start ⟨1, 1, 4, 0⟩)).bytes ++
        (if (⟨20, 30, 40, 7⟩ : qoi_rgba_t).a ≠ (qoi_encode_start ⟨1, 1, 4, 0⟩).px_prev.a then
          [QOI_OP_A, (⟨20, 30, 40, 7⟩ : qoi_rgba_t).a] else []) ++
        qoi_spec_pack
          (qoi_spec_select ⟨20, 30, 40, 7⟩ (qoi_encode_start ⟨1, 1, 4, 0⟩).px_prev)
          ⟨20, 30, 40, 7⟩ (qoi_encode_start ⟨1, 1, 4, 0⟩).px_prev :=
  ⟨⟨by decide, by decide⟩,
    (cascade_first_match ⟨20, 30, 40, 7⟩ true (qoi_encode_start ⟨1, 1, 4, 0⟩)
      (by decide) (by decide)).1⟩

/-! ## The decoder loop, iteration by iteration -/

theorem qoi_decode_iter_succ (bytes : List Nat) (cl pl ch : Nat) (j : Nat) (s : qoi_decoder) :
    qoi_decode_iter bytes cl pl ch (j + 1) s =
      if s.px_pos < pl then
        match qoi_decode_step bytes cl s with
        | some (.emit s1) => qoi_decode_iter bytes cl pl ch j (qoi_decode_write ch s1)
        | some (.again s1) => qoi_decode_iter bytes cl pl ch j s1
        | _ => none
      else none := rfl

theorem qoi_decode_loop_succ (bytes : List Nat) (cl pl ch : Nat) (fuel : Nat)
    (s : qoi_decoder) :
    qoi_decode_loop bytes cl pl ch (fuel + 1) s =
      if s.px_pos < pl then
        match qoi_decode_step bytes cl s with
        | none => .fault
        | some (.emit s1) => qoi_decode_loop bytes cl pl ch fuel (qoi_decode_write ch s1)
        | some (.again s1) => qoi_decode_loop bytes cl pl ch fuel s1
        | some (.stop s1) => .done s1
      else .done s := rfl

theorem qoi_decode_iter_emit (bytes : List Nat) (cl pl ch : Nat) (j : Nat)
    (s s1 : qoi_decoder) (h : s.px_pos < pl)
    (hst : qoi_decode_step bytes cl s = some (.emit s1)) :
    qoi_decode_iter bytes cl pl ch (j + 1) s =
      qoi_decode_iter bytes cl pl ch j (qoi_decode_write ch s1) := by
  simp only [qoi_decode_iter, h, hst, if_true]

theorem qoi_decode_iter_again (bytes : List Nat) (cl pl ch : Nat) (j : Nat)
    (s s1 : qoi_decoder) (h : s.px_pos < pl)
    (hst : qoi_decode_step bytes cl s = some (.again s1)) :
    qoi_decode_iter bytes cl pl ch (j + 1) s = qoi_decode_iter bytes cl pl ch j s1 := by
  simp only [qoi_decode_iter, h, hst, if_true]

/-- Iterations compose. -/
theorem qoi_decode_iter_add (bytes : List Nat) (cl pl ch : Nat) :
    ∀ (i j : Nat) (s d : qoi_decoder), qoi_decode_iter bytes cl pl ch i s = some d →
      qoi_decode_iter bytes cl pl ch (i + j) s = qoi_decode_iter bytes cl pl ch j d := by
  intro i
  induction i with
  | zero =>
    intro j s d h
    simp only [qoi_decode_iter, Option.some.injEq] at h
    rw [Nat.zero_add, h]
  | succ i ih =>
    intro j s d h
    rw [show i + 1 + j = (i + j) + 1 by omega, qoi_decode_iter_succ]
    rw [qoi_decode_iter_succ] at h
    by_cases h0 : s.px_pos < pl
    · rw [if_pos h0] at h ⊢
      cases hst : qoi_decode_step bytes cl s with
      | none => rw [hst] at h; cases h
      | some fl =>
        rw [hst] at h
        cases fl with
        | emit s1 => exact ih j _ d h
        | again s1 => exact ih j _ d h
        | stop s1 => cases h
    · rw [if_neg h0] at h; cases h

theorem qoi_decode_reach_refl (bytes : List Nat) (cl pl ch : Nat) (s : qoi_decoder) :
    qoi_decode_reach bytes cl pl ch s s := ⟨0, rfl⟩

theorem qoi_decode_reach_trans (bytes : List Nat) (cl pl ch : Nat) (a b c : qoi_decoder)
    (h1 : qoi_decode_reach bytes cl pl ch a b) (h2 : qoi_decode_reach bytes cl pl ch b c) :
    qoi_decode_reach bytes cl pl ch a c := by
  obtain ⟨i, hi⟩ := h1
  obtain ⟨j, hj⟩ := h2
  exact ⟨i + j, by rw [qoi_decode_iter_add bytes cl pl ch i j a b hi, hj]⟩

theorem qoi_decode_reach_emit (bytes : List Nat) (cl pl ch : Nat) (s s1 : qoi_decoder)
    (h : s.px_pos < pl) (hst : qoi_decode_step bytes cl s = some (.emit s1)) :
    qoi_decode_reach bytes cl pl ch s (qoi_decode_write ch s1) :=
  ⟨1, by rw [qoi_decode_iter_emit bytes cl pl ch 0 s s1 h hst]; rfl⟩

theorem qoi_decode_reach_again (bytes : List Nat) (cl pl ch : Nat) (s s1 : qoi_decoder)
    (h : s.px_pos < pl) (hst : qoi_decode_step bytes cl s = some (.again s1)) :
    qoi_decode_reach bytes cl pl ch s s1 :=
  ⟨1, by rw [qoi_decode_iter_again bytes cl pl ch 0 s s1 h hst]; rfl⟩

/-- The loop of `qoi_decode` goes through the states `qoi_decode_iter` gives: from a state
reached after `j` iterations it goes on as from the start, on `j` units of fuel less. -/
theorem qoi_decode_loop_iter (bytes : List Nat) (cl pl ch : Nat) :
    ∀ (j fuel : Nat) (s d : qoi_decoder), qoi_decode_iter bytes cl pl ch j s = some d →
      qoi_decode_loop bytes cl pl ch (fuel + j) s = qoi_decode_loop bytes cl pl ch fuel d := by
  intro j
  induction j with
  | zero =>
    intro fuel s d h
    simp only [qoi_decode_iter, Option.some.injEq] at h
    rw [Nat.add_zero, h]
  | succ j ih =>
    intro fuel s d h
    rw [show fuel + (j + 1) = (fuel + j) + 1 by omega, qoi_decode_loop_succ]
    rw [qoi_decode_iter_succ] at h
    by_cases h0 : s.px_pos < pl
    · rw [if_pos h0] at h ⊢
      cases hst : qoi_decode_step bytes cl s with
      | none => rw [hst] at h; cases h
      | some fl =>
        rw [hst] at h
        cases fl with
        | emit s1 => exact ih fuel _ d h
        | again s1 => exact ih fuel _ d h
        | stop s1 => cases h
    · rw [if_neg h0] at h; cases h

/-- A pending run of `m` in the decoder: each of the next `m` iterations writes the current
pixel and reads nothing. -/
theorem qoi_decode_iter_repeat (bytes : List Nat) (cl pl ch : Nat) :
    ∀ (j : Nat) (d : qoi_decoder), j ≤ d.run → d.px_pos + j * ch ≤ pl → 0 < ch →
      qoi_decode_iter bytes cl pl ch j d =
        some { d with run := d.run - j, px_pos := d.px_pos + j * ch,
                      pixels := d.pixels ++ (List.replicate j (qoi_px_bytes ch d.px)).flatten } := by
  intro j
  induction j with
  | zero =>
    intro d _ _ _
    simp [qoi_decode_iter]
  | succ j ih =>
    intro d hj hroom hch
    have hlt : d.px_pos < pl := by
      rw [Nat.succ_mul] at hroom; omega
    have hst : qoi_decode_step bytes cl d = some (.emit { d with run := d.run - 1 }) := by
      unfold qoi_decode_step
      rw [if_pos (by omega)]
    rw [qoi_decode_iter_emit bytes cl pl ch j d _ hlt hst]
    rw [ih (qoi_decode_write ch { d with run := d.run - 1 })
      (by simp only [qoi_decode_write]; omega)
      (by simp only [qoi_decode_write]; rw [Nat.succ_mul] at hroom; omega) hch]
    simp only [qoi_decode_write, qoi_px_bytes, List.replicate_succ, List.flatten_cons,
      List.append_assoc, Nat.succ_mul]
    congr 2
    · omega
    · omega

/-! ## Runs in the decoder -/

/-- A run chunk (read by the iteration `d ↦ d1`) of stored value `m`: after `j` iterations,
`1 ≤ j ≤ m + 1`, as long as `j` pixels remain to be written, the decoder has written `j`
copies of the current pixel and read nothing more. -/
theorem qoi_decode_iter_run_chunk (bytes : List Nat) (cl pl ch : Nat) (hch : 0 < ch)
    (d d1 : qoi_decoder) (m : Nat)
    (hst : qoi_decode_step bytes cl d = some (.emit d1))
    (h1 : d1.run = m) (h2 : d1.px = d.px) (h3 : d1.pixels = d.pixels)
    (h4 : d1.px_pos = d.px_pos) :
    ∀ j, 1 ≤ j → j ≤ m + 1 → d.px_pos + j * ch ≤ pl →
      qoi_decode_iter bytes cl pl ch j d =
        some { d1 with run := m + 1 - j, px_pos := d.px_pos + j * ch,
                       pixels := d.pixels ++
                         (List.replicate j (qoi_px_bytes ch d.px)).flatten } := by
  intro j hj1 hj2 hroom
  obtain ⟨i, rfl⟩ : ∃ i, j = i + 1 := ⟨j - 1, by omega⟩
  have hlt : d.px_pos < pl := by
    rw [Nat.succ_mul] at hroom; omega
  have hi : d.px_pos + ch + i * ch ≤ pl := by
    rw [Nat.succ_mul] at hroom; omega
  rw [qoi_decode_iter_emit bytes cl pl ch i d d1 hlt hst]
  rw [qoi_decode_iter_repeat bytes cl pl ch i (qoi_decode_write ch d1)
    (by simp only [qoi_decode_write]; omega)
    (by simp only [qoi_decode_write]; omega) hch]
  simp only [qoi_decode_write, qoi_px_bytes, List.replicate_succ, List.flatten_cons,
    List.append_assoc, Nat.succ_mul, h1, h2, h3, h4]
  congr 2
  · omega
  · omega

set_option maxRecDepth 100000 in
theorem run_field : ∀ b1 < 0xf8, 0xf0 ≤ b1 → b1 &&& 7 = b1 - 0xf0 := by decide

theorem run2_field (b1 b2 : Nat) (h1 : 0xf8 ≤ b1) (h2 : b1 < 0xfc) (hb : b2 < 256) :
    ((b1 &&& 3) <<< 8) ||| b2 = (b1 - 0xf8) * 256 + b2 := by
  have key : ∀ x < 4, (0xf8 + x) &&& 3 = x := by decide
  have := key (b1 - 0xf8) (by omega)
  rw [show 0xf8 + (b1 - 0xf8) = b1 by omega] at this
  rw [this]
  exact or_shift_add _ 8 b2 hb

/-- Claim C17 (decoder run semantics). In a state `d` of the loop of `qoi_decode` in which
the next chunk is due (`run = 0`, `p < chunks_len`) and the byte at `p` is a `QOI_OP_RUN`
with 3-bit field `k = b1 & 7`, or a `QOI_OP_RUN2` with 10-bit field
`n = ((b1 & 3) << 8) | b2`: after `j` iterations, for every `1 ≤ j ≤ k + 1` (respectively
`n + 1`) for which `j` pixels remain to be written, the decoder has written exactly `j`
copies of its current pixel and read only that chunk. So the first copy is written by the
iteration that reads the chunk, and when at least `k + 1` pixels remain, exactly `k + 1`
copies have been written when the run is used up (`run = 0` again, the next chunk due). -/
theorem decoder_run_semantics (bytes : List Nat) (cl pl ch : Nat) (d : qoi_decoder)
    (b1 : Nat) (hch : 0 < ch) (hr : d.run = 0) (hp : d.p < cl)
    (h0 : bytes[d.p]? = some b1) :
    (0xf0 ≤ b1 ∧ b1 < 0xf8 →
      b1 &&& 7 = b1 - 0xf0 ∧
      ∀ j, 1 ≤ j → j ≤ (b1 &&& 7) + 1 → d.px_pos + j * ch ≤ pl →
        qoi_decode_iter bytes cl pl ch j d =
          some { d with
            p := d.p + 1, tags := d.tags ++ [b1], run := (b1 &&& 7) + 1 - j,
            px_pos := d.px_pos + j * ch,
            pixels := d.pixels ++ (List.replicate j (qoi_px_bytes ch d.px)).flatten }) ∧
    (0xf8 ≤ b1 ∧ b1 < 0xfc → ∀ b2, bytes[d.p + 1]? = some b2 →
      (b2 < 256 → ((b1 &&& 3) <<< 8) ||| b2 = (b1 - 0xf8) * 256 + b2) ∧
      ∀ j, 1 ≤ j → j ≤ (((b1 &&& 3) <<< 8) ||| b2) + 1 → d.px_pos + j * ch ≤ pl →
        qoi_decode_iter bytes cl pl ch j d =
          some { d with
            p := d.p + 1 + 1, tags := d.tags ++ [b1],
            run := (((b1 &&& 3) <<< 8) ||| b2) + 1 - j,
            px_pos := d.px_pos + j * ch,
            pixels := d.pixels ++ (List.replicate j (qoi_px_bytes ch d.px)).flatten }) := by
  constructor
  · intro ht
    refine ⟨run_field b1 ht.2 ht.1, ?_⟩
    have hst : qoi_decode_step bytes cl d = some (.emit
        { d with p := d.p + 1, tags := d.tags ++ [b1], run := b1 &&& 7 }) := by
      rw [qoi_step_chunk bytes cl d hr hp]
      exact qoi_chunk_run bytes d b1 h0 ht
    exact qoi_decode_iter_run_chunk bytes cl pl ch hch d _ (b1 &&& 7) hst rfl rfl rfl rfl
  · intro ht b2 h1
    refine ⟨fun hb => run2_field b1 b2 ht.1 ht.2 hb, ?_⟩
    have hst : qoi_decode_step bytes cl d = some (.emit
        { d with p := d.p + 1 + 1, tags := d.tags ++ [b1],
                 run := ((b1 &&& 3) <<< 8) ||| b2 }) := by
      rw [qoi_step_chunk bytes cl d hr hp]
      exact qoi_chunk_run2 bytes d b1 b2 h0 h1 ht
    exact qoi_decode_iter_run_chunk bytes cl pl ch hch d _ _ hst rfl rfl rfl rfl

/-- A 2x2 stream whose only chunk is a `QOI_OP_RUN` with field 3: after four iterations,
four copies of the start pixel. -/
theorem decoder_run_semantics_witness :
    (qoi_decode_start.run = 0 ∧ qoi_decode_start.p < 15 ∧
      [0x71, 0x6f, 0x69, 0x32, 0, 0, 0, 2, 0, 0, 0, 2, 3, 0, 0xf3,
        0xff, 0xff, 0xff, 0xff][qoi_decode_start.p]? = some 0xf3) ∧
    qoi_decode_iter [0x71, 0x6f, 0x69, 0x32, 0, 0, 0, 2, 0, 0, 0, 2, 3, 0, 0xf3,
        0xff, 0xff, 0xff, 0xff] 15 12 3 4 qoi_decode_start =
      some { qoi_decode_start with
        p := 15, tags := [0xf3], run := 0, px_pos := 12,
        pixels := [0, 0, 0, 0, 0, 0, 0, 0, 0, 0, 0, 0] } :=
  ⟨⟨rfl, by decide, rfl⟩,
    ((decoder_run_semantics [0x71, 0x6f, 0x69, 0x32, 0, 0, 0, 2, 0, 0, 0, 2, 3, 0, 0xf3,
      0xff, 0xff, 0xff, 0xff] 15 12 3 qoi_decode_start 0xf3 (by decide) rfl (by decide)
      rfl).1 (by decide)).2 4 (by decide) (by decide) (by decide)⟩

/-! ## Index slots never written -/

/-- The ring after a chunk dispatch: untouched, or the slot under the cursor overwritten. -/
theorem qoi_decode_chunk_ring (bytes : List Nat) (s : qoi_decoder) (fl : qoi_flow)
    (hfl : qoi_decode_chunk bytes s = some fl) :
    fl.state.index = s.index ∨
      ∃ px, fl.state.index = s.index.set (s.index_pos &&& 63) px := by
  unfold qoi_decode_chunk at hfl
  cases h0 : bytes[s.p]? with
  | none => rw [h0] at hfl; exact absurd hfl (by simp)
  | some b1 =>
    rw [h0] at hfl
    dsimp only at hfl
    by_cases c1 : b1 < 0x80
    · rw [if_pos c1] at hfl; cases hfl
      exact Or.inr ⟨_, rfl⟩
    rw [if_neg c1] at hfl
    by_cases c2 : b1 < 0xc0
    · rw [if_pos c2] at hfl; cases hfl
      exact Or.inl rfl
    rw [if_neg c2] at hfl
    by_cases c3 : b1 < 0xe0
    · rw [if_pos c3] at hfl
      cases h1 : bytes[s.p + 1]? with
      | none => rw [h1] at hfl; exact absurd hfl (by simp)
      | some b2 =>
        rw [h1] at hfl; cases hfl
        exact Or.inr ⟨_, rfl⟩
    rw [if_neg c3] at hfl
    by_cases c4 : b1 < 0xf0
    · rw [if_pos c4] at hfl
      cases h1 : bytes[s.p + 1]? with
      | none => rw [h1] at hfl; exact absurd hfl (by simp)
      | some b2 =>
        cases h2 : bytes[s.p + 1 + 1]? with
        | none => rw [h1, h2] at hfl; exact absurd hfl (by simp)
        | some b3 =>
          rw [h1, h2] at hfl; cases hfl
          exact Or.inr ⟨_, rfl⟩
    rw [if_neg c4] at hfl
    by_cases c5 : b1 < 0xf8
    · rw [if_pos c5] at hfl; cases hfl
      exact Or.inl rfl
    rw [if_neg c5] at hfl
    by_cases c6 : b1 < 0xfc
    · rw [if_pos c6] at hfl
      cases h1 : bytes[s.p + 1]? with
      | none => rw [h1] at hfl; exact absurd hfl (by simp)
      | some b2 =>
        rw [h1] at hfl; cases hfl
        exact Or.inl rfl
    rw [if_neg c6] at hfl
    by_cases c7 : b1 = QOI_OP_GRAY
    · rw [if_pos c7] at hfl
      cases h1 : bytes[s.p + 1]? with
      | none => rw [h1] at hfl; exact absurd hfl (by simp)
      | some b2 =>
        rw [h1] at hfl; cases hfl
        exact Or.inr ⟨_, rfl⟩
    rw [if_neg c7] at hfl
    by_cases c8 : b1 = QOI_OP_RGB
    · rw [if_pos c8] at hfl
      cases h1 : bytes[s.p + 1]? with
      | none => rw [h1] at hfl; exact absurd hfl (by simp)
      | some b2 =>
        cases h2 : bytes[s.p + 1 + 1]? with
        | none => rw [h1, h2] at hfl; exact absurd hfl (by simp)
        | some b3 =>
          cases h3 : bytes[s.p + 1 + 2]? with
          | none => rw [h1, h2, h3] at hfl; exact absurd hfl (by simp)
          | some b4 =>
            rw [h1, h2, h3] at hfl; cases hfl
            exact Or.inr ⟨_, rfl⟩
    rw [if_neg c8] at hfl
    by_cases c9 : b1 = QOI_OP_A
    · rw [if_pos c9] at hfl
      cases h1 : bytes[s.p + 1]? with
      | none => rw [h1] at hfl; exact absurd hfl (by simp)
      | some b2 =>
        rw [h1] at hfl; cases hfl
        exact Or.inl rfl
    rw [if_neg c9] at hfl
    cases hfl
    exact Or.inl rfl

theorem and_63_of_lt : ∀ x < 64, x &&& 63 = x := by decide

theorem qoi_index_fresh_step (bytes : List Nat) (cl : Nat) (s : qoi_decoder) (fl : qoi_flow)
    (h : qoi_decode_step bytes cl s = some fl) (hs : qoi_index_fresh s) :
    qoi_index_fresh fl.state := by
  obtain ⟨hs1, hs2⟩ := hs
  unfold qoi_decode_step at h
  split_ifs at h with h1 h2
  · cases h; exact ⟨hs1, hs2⟩
  · obtain ⟨b1, -, f1, -, -, -, -, -, f2, f3⟩ := qoi_decode_chunk_frame bytes s fl h
    have hring := qoi_decode_chunk_ring bytes s fl h
    cases hb : qoi_tag_inserts b1 with
    | false =>
      obtain ⟨g1, g2⟩ := f3 hb
      refine ⟨?_, ?_⟩
      · rw [g1, f1, hs1]
        simp [List.filter_append, List.filter_cons, hb]
      · rw [g1, g2]; exact hs2
    | true =>
      have g1 := f2 hb
      refine ⟨?_, ?_⟩
      · rw [g1, f1, hs1]
        simp [List.filter_append, List.filter_cons, hb]
      · intro i hi h64
        rw [g1] at hi
        rcases hring with hr | ⟨px, hr⟩
        · rw [hr]; exact hs2 i (by omega) h64
        · rw [hr, and_63_of_lt s.index_pos (by omega)]
          rw [List.getD_eq_getElem?_getD, List.getElem?_set_ne (by omega),
            ← List.getD_eq_getElem?_getD]
          exact hs2 i (by omega) h64
  · cases h; exact ⟨hs1, hs2⟩

theorem qoi_index_fresh_iter (bytes : List Nat) (cl pl ch : Nat) :
    ∀ (j : Nat) (s d : qoi_decoder), qoi_index_fresh s →
      qoi_decode_iter bytes cl pl ch j s = some d → qoi_index_fresh d := by
  intro j
  induction j with
  | zero =>
    intro s d hs h
    simp only [qoi_decode_iter, Option.some.injEq] at h
    rw [← h]; exact hs
  | succ j ih =>
    intro s d hs h
    rw [qoi_decode_iter_succ] at h
    by_cases h0 : s.px_pos < pl
    · rw [if_pos h0] at h
      cases hst : qoi_decode_step bytes cl s with
      | none => rw [hst] at h; cases h
      | some fl =>
        rw [hst] at h
        have hfl := qoi_index_fresh_step bytes cl s fl hst hs
        cases fl with
        | emit s1 => exact ih (qoi_decode_write ch s1) d ⟨hfl.1, hfl.2⟩ h
        | again s1 => exact ih s1 d hfl h
        | stop s1 => cases h
    · rw [if_neg h0] at h; cases h

theorem qoi_index_fresh_start : qoi_index_fresh qoi_decode_start := by
  refine ⟨rfl, fun i _ _ => ?_⟩
  exact getD_replicate_zero_px 64 i

/-- Claim C18 (zero-initialised index). Let the loop of `qoi_decode` have come from its
start to a state `d` in which the next chunk is due and is a `QOI_OP_INDEX` (`b1` in
`80..bf`) naming a slot `b1 & 63` that no inserting chunk has written yet: inserts fill the
slots 0, 1, 2, ... in order, and fewer than `(b1 & 63) + 1` inserting chunks were
dispatched. Then this iteration makes the current pixel (0, 0, 0, 0) and writes it, not the
start pixel (0, 0, 0, 255). In particular the 1x1 4-channel stream whose only chunk is the
byte `80` decodes to the pixel bytes `[0, 0, 0, 0]`. -/
theorem index_of_unwritten_slot (bytes : List Nat) (cl pl ch j : Nat) (d : qoi_decoder)
    (b1 : Nat)
    (hreach : qoi_decode_iter bytes cl pl ch j qoi_decode_start = some d)
    (hlt : d.px_pos < pl) (hr : d.run = 0) (hp : d.p < cl)
    (h0 : bytes[d.p]? = some b1) (ht : 0x80 ≤ b1 ∧ b1 < 0xc0)
    (hfresh : (d.tags.filter qoi_tag_inserts).length ≤ b1 &&& 63) :
    qoi_decode_iter bytes cl pl ch (j + 1) qoi_decode_start =
      some { d with
        p := d.p + 1, tags := d.tags ++ [b1], px := qoi_zero_px,
        px_pos := d.px_pos + ch,
        pixels := d.pixels ++ [0, 0, 0] ++ (if ch = 4 then [0] else []) } ∧
    qoi_zero_px ≠ qoi_start_px ∧
    ∃ final, qoi_decode [0x71, 0x6f, 0x69, 0x32, 0, 0, 0, 1, 0, 0, 0, 1, 4, 0, 0x80,
        0xff, 0xff, 0xff, 0xff] 0 = .ok ⟨1, 1, 4, 0⟩ final ∧
      final.pixels = [0, 0, 0, 0] := by
  refine ⟨?_, by decide, _, rfl, by decide⟩
  obtain ⟨i1, i2⟩ := qoi_index_fresh_iter bytes cl pl ch j _ d qoi_index_fresh_start hreach
  have h63 : b1 &&& 63 < 64 := and_63_lt b1
  have hz : d.index.getD (b1 &&& 63) qoi_zero_px = qoi_zero_px :=
    i2 _ (by rw [i1]; exact hfresh) h63
  have hst : qoi_decode_step bytes cl d = some (.emit
      { d with p := d.p + 1, tags := d.tags ++ [b1],
               px := d.index.getD (b1 &&& 63) qoi_zero_px }) := by
    rw [qoi_step_chunk bytes cl d hr hp]
    exact qoi_chunk_index bytes d b1 h0 ht
  rw [qoi_decode_iter_add bytes cl pl ch j 1 _ d hreach,
    qoi_decode_iter_emit bytes cl pl ch 0 d _ hlt hst, hz]
  rfl

/-- The 1x1 4-channel stream whose only chunk is `80`: the first iteration writes
(0, 0, 0, 0). -/
theorem index_of_unwritten_slot_witness :
    (qoi_decode_iter [0x71, 0x6f, 0x69, 0x32, 0, 0, 0, 1, 0, 0, 0, 1, 4, 0, 0x80,
        0xff, 0xff, 0xff, 0xff] 15 4 4 0 qoi_decode_start = some qoi_decode_start ∧
      qoi_decode_start.px_pos < 4 ∧
      [0x71, 0x6f, 0x69, 0x32, 0, 0, 0, 1, 0, 0, 0, 1, 4, 0, 0x80,
        0xff, 0xff, 0xff, 0xff][qoi_decode_start.p]? = some 0x80 ∧
      (qoi_decode_start.tags.filter qoi_tag_inserts).length ≤ 0x80 &&& 63) ∧
    qoi_decode_iter [0x71, 0x6f, 0x69, 0x32, 0, 0, 0, 1, 0, 0, 0, 1, 4, 0, 0x80,
        0xff, 0xff, 0xff, 0xff] 15 4 4 (0 + 1) qoi_decode_start =
      some { qoi_decode_start with
        p := 15, tags := [0x80], px := qoi_zero_px, px_pos := 4, pixels := [0, 0, 0, 0] } :=
  ⟨⟨rfl, by decide, rfl, by decide⟩,
    (index_of_unwritten_slot [0x71, 0x6f, 0x69, 0x32, 0, 0, 0, 1, 0, 0, 0, 1, 4, 0, 0x80,
      0xff, 0xff, 0xff, 0xff] 15 4 4 0 qoi_decode_start 0x80 rfl (by decide) rfl (by decide)
      rfl (by decide) (by decide)).1⟩

/-! ## Termination of the decoder loop -/

/-- How the chunk dispatch leaves the loop body, by the first byte: `QOI_OP_A` continues,
`QOI_OP_END` breaks, every other tag falls through to the pixel write. -/
theorem qoi_decode_chunk_flow (bytes : List Nat) (s : qoi_decoder) (fl : qoi_flow)
    (hfl : qoi_decode_chunk bytes s = some fl) :
    ∃ b1, bytes[s.p]? = some b1 ∧
      (∀ s1, fl = .emit s1 → b1 < QOI_OP_A) ∧
      (∀ s1, fl = .again s1 → b1 = QOI_OP_A) ∧
      (∀ s1, fl = .stop s1 → QOI_OP_END ≤ b1) := by
  unfold qoi_decode_chunk at hfl
  cases h0 : bytes[s.p]? with
  | none => rw [h0] at hfl; exact absurd hfl (by simp)
  | some b1 =>
    refine ⟨b1, rfl, ?_⟩
    rw [h0] at hfl
    dsimp only at hfl
    by_cases c1 : b1 < 0x80
    · rw [if_pos c1] at hfl; cases hfl
      simp [QOI_OP_A]; omega
    rw [if_neg c1] at hfl
    by_cases c2 : b1 < 0xc0
    · rw [if_pos c2] at hfl; cases hfl
      simp [QOI_OP_A]; omega
    rw [if_neg c2] at hfl
    by_cases c3 : b1 < 0xe0
    · rw [if_pos c3] at hfl
      cases h1 : bytes[s.p + 1]? with
      | none => rw [h1] at hfl; exact absurd hfl (by simp)
      | some b2 =>
        rw [h1] at hfl; cases hfl
        simp [QOI_OP_A]; omega
    rw [if_neg c3] at hfl
    by_cases c4 : b1 < 0xf0
    · rw [if_pos c4] at hfl
      cases h1 : bytes[s.p + 1]? with
      | none => rw [h1] at hfl; exact absurd hfl (by simp)
      | some b2 =>
        cases h2 : bytes[s.p + 1 + 1]? with
        | none => rw [h1, h2] at hfl; exact absurd hfl (by simp)
        | some b3 =>
          rw [h1, h2] at hfl; cases hfl
          simp [QOI_OP_A]; omega
    rw [if_neg c4] at hfl
    by_cases c5 : b1 < 0xf8
    · rw [if_pos c5] at hfl; cases hfl
      simp [QOI_OP_A]; omega
    rw [if_neg c5] at hfl
    by_cases c6 : b1 < 0xfc
    · rw [if_pos c6] at hfl
      cases h1 : bytes[s.p + 1]? with
      | none => rw [h1] at hfl; exact absurd hfl (by simp)
      | some b2 =>
        rw [h1] at hfl; cases hfl
        simp [QOI_OP_A]; omega
    rw [if_neg c6] at hfl
    by_cases c7 : b1 = QOI_OP_GRAY
    · rw [if_pos c7] at hfl
      cases h1 : bytes[s.p + 1]? with
      | none => rw [h1] at hfl; exact absurd hfl (by simp)
      | some b2 =>
        rw [h1] at hfl; cases hfl
        simp [QOI_OP_A, c7, QOI_OP_GRAY]
    rw [if_neg c7] at hfl
    by_cases c8 : b1 = QOI_OP_RGB
    · rw [if_pos c8] at hfl
      cases h1 : bytes[s.p + 1]? with
      | none => rw [h1] at hfl; exact absurd hfl (by simp)
      | some b2 =>
        cases h2 : bytes[s.p + 1 + 1]? with
        | none => rw [h1, h2] at hfl; exact absurd hfl (by simp)
        | some b3 =>
          cases h3 : bytes[s.p + 1 + 2]? with
          | none => rw [h1, h2, h3] at hfl; exact absurd hfl (by simp)
          | some b4 =>
            rw [h1, h2, h3] at hfl; cases hfl
            simp [QOI_OP_A, c8, QOI_OP_RGB]
    rw [if_neg c8] at hfl
    by_cases c9 : b1 = QOI_OP_A
    · rw [if_pos c9] at hfl
      cases h1 : bytes[s.p + 1]? with
      | none => rw [h1] at hfl; exact absurd hfl (by simp)
      | some b2 =>
        rw [h1] at hfl; cases hfl
        simp [c9]
    rw [if_neg c9] at hfl
    cases hfl
    simp only [QOI_OP_GRAY, QOI_OP_RGB, QOI_OP_A, QOI_OP_END] at *
    simp
    omega

/-- One iteration of the decoder loop, as the termination argument sees it: it falls through
to the pixel write without dispatching a `QOI_OP_A`, or it dispatches a `QOI_OP_A` with
`p < chunks_len` and consumes its two bytes, or it breaks on a `QOI_OP_END`. -/
theorem qoi_decode_step_cases (bytes : List Nat) (cl : Nat) (s : qoi_decoder) (fl : qoi_flow)
    (h : qoi_decode_step bytes cl s = some fl) :
    (∃ s1, fl = .emit s1 ∧ s1.px_pos = s.px_pos ∧ s.p ≤ s1.p ∧
      s1.tags.count QOI_OP_A = s.tags.count QOI_OP_A) ∨
    (∃ s1, fl = .again s1 ∧ s1.px_pos = s.px_pos ∧ s.run = 0 ∧ s.p < cl ∧
      bytes[s.p]? = some QOI_OP_A ∧ s1.p = s.p + 2 ∧
      s1.tags.count QOI_OP_A = s.tags.count QOI_OP_A + 1) ∨
    (∃ s1 b1, fl = .stop s1 ∧ s1.px_pos = s.px_pos ∧ s.run = 0 ∧ s.p < cl ∧
      bytes[s.p]? = some b1 ∧ QOI_OP_END ≤ b1 ∧ s.p ≤ s1.p ∧
      s1.tags.count QOI_OP_A = s.tags.count QOI_OP_A) := by
  unfold qoi_decode_step at h
  by_cases h1 : s.run > 0
  · rw [if_pos h1] at h; cases h
    exact Or.inl ⟨_, rfl, rfl, Nat.le_refl _, rfl⟩
  rw [if_neg h1] at h
  by_cases h2 : s.p < cl
  · rw [if_pos h2] at h
    obtain ⟨b1, g0, g1, g2, g3⟩ := qoi_decode_chunk_flow bytes s fl h
    obtain ⟨b, f0, f1, f2, f3, f4, f5, f6, -⟩ := qoi_decode_chunk_frame bytes s fl h
    rw [g0] at f0
    injection f0 with f0
    subst f0
    cases fl with
    | emit s1 =>
      simp only [qoi_flow.state] at f1 f2 f4
      have hb := g1 s1 rfl
      refine Or.inl ⟨s1, rfl, f4, by omega, ?_⟩
      rw [f1, List.count_append, List.count_singleton]
      simp only [QOI_OP_A] at hb ⊢
      rw [if_neg (by simp; omega)]
      rfl
    | again s1 =>
      simp only [qoi_flow.state] at f1 f2 f4
      have hb := g2 s1 rfl
      refine Or.inr (Or.inl ⟨s1, rfl, f4, by omega, h2, by rw [g0, hb], (f6 s1 rfl).1, ?_⟩)
      rw [f1, List.count_append, List.count_singleton, hb]
      simp
    | stop s1 =>
      simp only [qoi_flow.state] at f1 f2 f4
      have hb := g3 s1 rfl
      refine Or.inr (Or.inr ⟨s1, b1, rfl, f4, by omega, h2, g0, hb, by omega, ?_⟩)
      rw [f1, List.count_append, List.count_singleton]
      simp only [QOI_OP_A, QOI_OP_END] at hb ⊢
      rw [if_neg (by simp; omega)]
      rfl
  · rw [if_neg h2] at h; cases h
    exact Or.inl ⟨_, rfl, rfl, Nat.le_refl _, rfl⟩

/-- The loop of `qoi_decode` with the fuel used up or the condition false. -/
theorem qoi_decode_loop_exit (bytes : List Nat) (cl pl ch : Nat) (s : qoi_decoder)
    (h : ¬ s.px_pos < pl) (fuel : Nat) : qoi_decode_loop bytes cl pl ch fuel s = .done s := by
  cases fuel <;> simp [qoi_decode_loop, h]

/-- Every `QOI_OP_A` chunk dispatched costs two bytes below `chunks_len + 1`: the bound
`2 * count + 14 ≤ p`, `2 * count + 13 ≤ chunks_len` holds throughout the loop. -/
theorem qoi_decode_loop_alpha_count (bytes : List Nat) (cl pl ch : Nat) :
    ∀ (fuel : Nat) (s f : qoi_decoder),
      qoi_decode_loop bytes cl pl ch fuel s = .done f →
      2 * s.tags.count QOI_OP_A + 14 ≤ s.p → 2 * s.tags.count QOI_OP_A + 13 ≤ cl →
      2 * f.tags.count QOI_OP_A + 14 ≤ f.p ∧ 2 * f.tags.count QOI_OP_A + 13 ≤ cl := by
  intro fuel
  induction fuel with
  | zero =>
    intro s f h j1 j2
    unfold qoi_decode_loop at h
    split_ifs at h
    cases h
    exact ⟨j1, j2⟩
  | succ n ih =>
    intro s f h j1 j2
    rw [qoi_decode_loop_succ] at h
    by_cases h0 : s.px_pos < pl
    · rw [if_pos h0] at h
      cases hst : qoi_decode_step bytes cl s with
      | none => rw [hst] at h; cases h
      | some fl =>
        rw [hst] at h
        rcases qoi_decode_step_cases bytes cl s fl hst with
          ⟨s1, rfl, -, e2, e3⟩ | ⟨s1, rfl, -, -, e2, -, e3, e4⟩ |
          ⟨s1, b1, rfl, -, -, -, -, -, e2, e3⟩
        · exact ih (qoi_decode_write ch s1) f h
            (by show 2 * s1.tags.count QOI_OP_A + 14 ≤ s1.p; omega)
            (by show 2 * s1.tags.count QOI_OP_A + 13 ≤ cl; omega)
        · exact ih s1 f h (by omega) (by omega)
        · simp only at h
          cases h
          exact ⟨by omega, by omega⟩
    · rw [if_neg h0] at h
      cases h
      exact ⟨j1, j2⟩

/-- The number of iterations of the decoder loop: from a state with `m` of the `n` pixels
written, the loop ends within `n - m` iterations plus one for each `QOI_OP_A` chunk it
dispatches from there on. -/
theorem qoi_decode_loop_bound (bytes : List Nat) (cl n ch : Nat) :
    ∀ (fuel : Nat) (s f : qoi_decoder) (m : Nat),
      qoi_decode_loop bytes cl (n * ch) ch fuel s = .done f → s.px_pos = m * ch →
      s.tags.count QOI_OP_A ≤ f.tags.count QOI_OP_A ∧
      ∀ fuel1, (n - m) + (f.tags.count QOI_OP_A - s.tags.count QOI_OP_A) ≤ fuel1 →
        qoi_decode_loop bytes cl (n * ch) ch fuel1 s = .done f := by
  intro fuel
  induction fuel with
  | zero =>
    intro s f m h hm
    unfold qoi_decode_loop at h
    split_ifs at h with h0
    cases h
    exact ⟨Nat.le_refl _, fun fuel1 _ => qoi_decode_loop_exit bytes cl _ ch s h0 fuel1⟩
  | succ k ih =>
    intro s f m h hm
    rw [qoi_decode_loop_succ] at h
    by_cases h0 : s.px_pos < n * ch
    · have hmn : m < n := by
        rw [hm] at h0
        exact Nat.lt_of_mul_lt_mul_right h0
      rw [if_pos h0] at h
      cases hst : qoi_decode_step bytes cl s with
      | none => rw [hst] at h; cases h
      | some fl =>
        rw [hst] at h
        rcases qoi_decode_step_cases bytes cl s fl hst with
          ⟨s1, rfl, e1, -, e3⟩ | ⟨s1, rfl, e1, -, -, -, -, e4⟩ |
          ⟨s1, b1, rfl, -, -, -, -, -, -, e3⟩
        · obtain ⟨g1, g2⟩ := ih (qoi_decode_write ch s1) f (m + 1) h
            (by show s1.px_pos + ch = (m + 1) * ch; rw [e1, hm, Nat.succ_mul])
          have g1' : s1.tags.count QOI_OP_A ≤ f.tags.count QOI_OP_A := g1
          refine ⟨by omega, fun fuel1 hf => ?_⟩
          obtain ⟨fuel2, rfl⟩ : ∃ fuel2, fuel1 = fuel2 + 1 := ⟨fuel1 - 1, by omega⟩
          rw [qoi_decode_loop_succ, if_pos h0, hst]
          apply g2
          show n - (m + 1) + (f.tags.count QOI_OP_A - s1.tags.count QOI_OP_A) ≤ fuel2
          omega
        · obtain ⟨g1, g2⟩ := ih s1 f m h (by rw [e1, hm])
          refine ⟨by omega, fun fuel1 hf => ?_⟩
          obtain ⟨fuel2, rfl⟩ : ∃ fuel2, fuel1 = fuel2 + 1 := ⟨fuel1 - 1, by omega⟩
          rw [qoi_decode_loop_succ, if_pos h0, hst]
          apply g2
          omega
        · simp only at h
          cases h
          refine ⟨by omega, fun fuel1 hf => ?_⟩
          obtain ⟨fuel2, rfl⟩ : ∃ fuel2, fuel1 = fuel2 + 1 := ⟨fuel1 - 1, by omega⟩
          rw [qoi_decode_loop_succ, if_pos h0, hst]
    · rw [if_neg h0] at h
      cases h
      exact ⟨Nat.le_refl _, fun fuel1 _ => qoi_decode_loop_exit bytes cl _ ch s h0 fuel1⟩

/-- A call of `qoi_decode` that does not return `NULL` returns a pixel buffer. -/
theorem qoi_decode_not_null (data : List Nat) (channels : Int)
    (h : qoi_decode data channels ≠ .null) :
    ∃ desc final, qoi_decode data channels = .ok desc final := by
  by_cases h18 : 18 ≤ data.length
  · by_cases hchan : channels = 0 ∨ channels = 3 ∨ channels = 4
    · obtain ⟨magic, hm⟩ := qoi_read_32_some data 0 (by omega)
      obtain ⟨w, hw⟩ := qoi_read_32_some data 4 (by omega)
      obtain ⟨hgt, hh⟩ := qoi_read_32_some data 8 (by omega)
      obtain ⟨ch, hc⟩ := getElem?_some_of_lt data 12 (by omega)
      obtain ⟨cs, hs⟩ := getElem?_some_of_lt data 13 (by omega)
      by_cases hrej : qoi_header_rejected magic w hgt ch cs
      · exact absurd (qoi_decode_rejected data channels magic w hgt ch cs hm hw hh hc hs hrej) h
      · obtain ⟨final, -, hf⟩ := qoi_decode_accepted data channels magic w hgt ch cs h18 hchan
          hm hw hh hc hs hrej
        exact ⟨_, final, hf⟩
    · exact absurd (qoi_decode_bad_channels data channels (by omega)) h
  · exact absurd (qoi_decode_small data channels (by omega)) h

/-- Claim C19 (decoder termination). For every buffer that `qoi_decode` does not reject, the
call returns, and its pixel loop runs at most `width * height` iterations plus one for each
`QOI_OP_A` chunk dispatched (the loop on that much fuel ends, in the same final state), of
which there are at most `chunks_len / 2`. Every iteration, from any state, either falls
through to the pixel write, which appends one pixel and advances `px_pos`, or dispatches a
`QOI_OP_A` with `p < chunks_len` and consumes its two bytes, or breaks on `QOI_OP_END`. -/
theorem decoder_loop_terminates (data : List Nat) (channels : Int)
    (hvalid : qoi_decode data channels ≠ .null) :
    (∃ desc final, qoi_decode data channels = .ok desc final ∧
      qoi_decode_loop data (data.length - 4)
        (desc.width * desc.height * qoi_out_channels channels desc.channels)
        (qoi_out_channels channels desc.channels)
        (desc.width * desc.height + final.tags.count QOI_OP_A) qoi_decode_start =
          .done final ∧
      final.tags.count QOI_OP_A ≤ (data.length - 4) / 2) ∧
    ∀ (ch : Nat) (s : qoi_decoder),
      ∃ fl, qoi_decode_step data (data.length - 4) s = some fl ∧
        ((∃ s1, fl = .emit s1 ∧
            (qoi_decode_write ch s1).px_pos = s.px_pos + ch ∧
            (qoi_decode_write ch s1).pixels = s.pixels ++ qoi_px_bytes ch s1.px) ∨
          (∃ s1, fl = .again s1 ∧ s1.px_pos = s.px_pos ∧ s1.pixels = s.pixels ∧
            s.p < data.length - 4 ∧ data[s.p]? = some QOI_OP_A ∧ s1.p = s.p + 2) ∨
          (∃ s1 b1, fl = .stop s1 ∧ s.p < data.length - 4 ∧ data[s.p]? = some b1 ∧
            QOI_OP_END ≤ b1)) := by
  obtain ⟨desc, final, hok⟩ := qoi_decode_not_null data channels hvalid
  obtain ⟨harg, h18, hrej, hloop⟩ := qoi_decode_ok_inv data channels desc final hok
  obtain ⟨hp, hc⟩ := qoi_desc_products desc hrej
  have hoc : qoi_out_channels channels desc.channels = 3 ∨
      qoi_out_channels channels desc.channels = 4 := by
    unfold qoi_out_channels
    rcases harg with h0 | h0 | h0
    · rw [if_pos h0]; exact hc
    · rw [if_neg (by omega), h0]; exact Or.inl rfl
    · rw [if_neg (by omega), h0]; exact Or.inr rfl
  have hmod : (desc.width * desc.height * qoi_out_channels channels desc.channels) % 2 ^ 32 =
      desc.width * desc.height * qoi_out_channels channels desc.channels := by
    apply Nat.mod_eq_of_lt
    rcases hoc with hoc | hoc <;> rw [hoc] <;> omega
  rw [hmod] at hloop
  refine ⟨⟨desc, final, hok, ?_, ?_⟩, ?_⟩
  · obtain ⟨-, g2⟩ := qoi_decode_loop_bound data (data.length - 4)
      (desc.width * desc.height) (qoi_out_channels channels desc.channels) _
      qoi_decode_start final 0 hloop (by rw [Nat.zero_mul]; rfl)
    apply g2
    show desc.width * desc.height - 0 + (final.tags.count QOI_OP_A - 0) ≤ _
    omega
  · obtain ⟨-, g⟩ := qoi_decode_loop_alpha_count data (data.length - 4) _ _ _
      qoi_decode_start final hloop (by show 2 * 0 + 14 ≤ 14; omega)
      (by show 2 * 0 + 13 ≤ data.length - 4; omega)
    omega
  · intro ch s
    have hsome := qoi_decode_step_isSome data (data.length - 4) s (by omega)
    cases hst : qoi_decode_step data (data.length - 4) s with
    | none => rw [hst] at hsome; exact absurd hsome (by simp)
    | some fl =>
      refine ⟨fl, rfl, ?_⟩
      obtain ⟨-, -, -, f4, -⟩ := qoi_decode_step_frame data (data.length - 4) s fl hst
      rcases qoi_decode_step_cases data (data.length - 4) s fl hst with
        ⟨s1, rfl, e1, -, -⟩ | ⟨s1, rfl, e1, -, e2, e3, e4, -⟩ |
        ⟨s1, b1, rfl, -, -, e2, e3, e4, -, -⟩
      · refine Or.inl ⟨s1, rfl, ?_, ?_⟩
        · show s1.px_pos + ch = _
          rw [e1]
        · simp only [qoi_flow.state] at f4
          show s1.pixels ++ [s1.px.r, s1.px.g, s1.px.b] ++ _ = _
          rw [f4, List.append_assoc]
          rfl
      · exact Or.inr (Or.inl ⟨s1, rfl, e1, f4, e2, e3, e4⟩)
      · exact Or.inr (Or.inr ⟨s1, b1, rfl, e2, e3, e4⟩)

/-- A 1x1 stream of two `QOI_OP_A` chunks and an `QOI_OP_END`: two iterations continue, the
third breaks, within the bound of `1 + 2` iterations. -/
theorem decoder_loop_terminates_witness :
    qoi_decode [0x71, 0x6f, 0x69, 0x32, 0, 0, 0, 1, 0, 0, 0, 1, 4, 0, 0xfe, 7, 0xfe, 9,
        0xff, 0xff, 0xff, 0xff] 0 ≠ .null ∧
    ∃ desc final, qoi_decode [0x71, 0x6f, 0x69, 0x32, 0, 0, 0, 1, 0, 0, 0, 1, 4, 0,
        0xfe, 7, 0xfe, 9, 0xff, 0xff, 0xff, 0xff] 0 = .ok desc final ∧
      qoi_decode_loop [0x71, 0x6f, 0x69, 0x32, 0, 0, 0, 1, 0, 0, 0, 1, 4, 0,
          0xfe, 7, 0xfe, 9, 0xff, 0xff, 0xff, 0xff]
        (([0x71, 0x6f, 0x69, 0x32, 0, 0, 0, 1, 0, 0, 0, 1, 4, 0,
          0xfe, 7, 0xfe, 9, 0xff, 0xff, 0xff, 0xff] : List Nat).length - 4)
        (desc.width * desc.height * qoi_out_channels 0 desc.channels)
        (qoi_out_channels 0 desc.channels)
        (desc.width * desc.height + final.tags.count QOI_OP_A) qoi_decode_start =
          .done final ∧
      final.tags.count QOI_OP_A ≤
        (([0x71, 0x6f, 0x69, 0x32, 0, 0, 0, 1, 0, 0, 0, 1, 4, 0,
          0xfe, 7, 0xfe, 9, 0xff, 0xff, 0xff, 0xff] : List Nat).length - 4) / 2 :=
  ⟨(fun h => by cases h),
    (decoder_loop_terminates [0x71, 0x6f, 0x69, 0x32, 0, 0, 0, 1, 0, 0, 0, 1, 4, 0,
      0xfe, 7, 0xfe, 9, 0xff, 0xff, 0xff, 0xff] 0 (fun h => by cases h)).1⟩

/-! ## The decoder passing through the states in step with the encoder -/

/-- A run chunk (read by the iteration `d ↦ d1`) of stored value `m`: the loop comes to the
state in which `m + 1` copies of the current pixel are written and the run is used up. -/
theorem qoi_decode_reach_run_chunk (out : List Nat) (pl och : Nat)
    (hoch : 0 < och) (d d1 : qoi_decoder) (m : Nat)
    (hst : qoi_decode_step out (out.length - 4) d = some (.emit d1))
    (h1 : d1.run = m) (h2 : d1.px = d.px) (h3 : d1.pixels = d.pixels)
    (h4 : d1.px_pos = d.px_pos) (hroom : d.px_pos + (m + 1) * och ≤ pl) :
    qoi_decode_reach out (out.length - 4) pl och d
      { d1 with run := 0, px_pos := d.px_pos + (m + 1) * och,
                pixels := d.pixels ++
                  (List.replicate (m + 1) (qoi_px_bytes och d.px)).flatten } := by
  refine ⟨m + 1, ?_⟩
  rw [qoi_decode_iter_run_chunk out (out.length - 4) pl och hoch d d1 m hst h1 h2 h3 h4
    (m + 1) (by omega) (Nat.le_refl _) hroom, Nat.sub_self]

/-- The decoder reads a run chunk of stored value `m` as `m + 1` copies of its pixel. -/
theorem qoi_reach_run (out : List Nat) (pl och : Nat) (hlen : 4 ≤ out.length) (hoch : 0 < och)
    (A c : List Nat) (m : Nat) (hc : qoi_run_chunk m c) (d : qoi_decoder)
    (hp : d.p = A.length) (hr : d.run = 0)
    (hpre : A ++ c <+: out) (h4 : (A ++ c).length + 4 ≤ out.length)
    (hroom : d.px_pos + (m + 1) * och ≤ pl) :
    ∃ d1, qoi_decode_reach out (out.length - 4) pl och d d1 ∧
      d1.p = (A ++ c).length ∧ d1.run = 0 ∧ d1.px = d.px ∧ d1.index = d.index ∧
      d1.index_pos = d.index_pos ∧ d1.px_pos = d.px_pos + (m + 1) * och ∧
      d1.pixels = d.pixels ++ (List.replicate (m + 1) (qoi_px_bytes och d.px)).flatten := by
  rcases hc with ⟨hm, rfl⟩ | ⟨hm, rfl⟩
  · obtain ⟨t1, t2, t3⟩ := run_bits m hm
    have h0 : out[d.p]? = some ((QOI_OP_RUN ||| m) % 256) := by
      have := prefix_get A _ out hpre 0 (by simp)
      rw [hp]; simpa using this
    simp only [List.length_append, List.length_cons, List.length_nil] at h4 ⊢
    have hst : qoi_decode_step out (out.length - 4) d = some (.emit
        { d with p := d.p + 1, tags := d.tags ++ [(QOI_OP_RUN ||| m) % 256],
                 run := ((QOI_OP_RUN ||| m) % 256) &&& 7 }) := by
      rw [qoi_step_chunk out _ d hr (by omega)]
      exact qoi_chunk_run out d _ h0 (by simp only [QOI_OP_RUN]; omega)
    refine ⟨_, qoi_decode_reach_run_chunk out pl och hoch d _ m hst
      (by simp only [QOI_OP_RUN]; exact t3) rfl rfl rfl hroom, ?_⟩
    simp only [hp, and_self, true_and]
  · obtain ⟨t1, t2, t3⟩ := run2_bits m hm
    have h0 : out[d.p]? = some ((QOI_OP_RUN2 ||| ((m >>> 8) &&& 3)) % 256) := by
      have := prefix_get A _ out hpre 0 (by simp)
      rw [hp]; simpa using this
    have h1 : out[d.p + 1]? = some ((m &&& 0xff) % 256) := by
      have := prefix_get A _ out hpre 1 (by simp)
      rw [hp]; simpa using this
    simp only [List.length_append, List.length_cons, List.length_nil] at h4 ⊢
    have hst : qoi_decode_step out (out.length - 4) d = some (.emit
        { d with p := d.p + 1 + 1,
                 tags := d.tags ++ [(QOI_OP_RUN2 ||| ((m >>> 8) &&& 3)) % 256],
                 run := ((((QOI_OP_RUN2 ||| ((m >>> 8) &&& 3)) % 256) &&& 3) <<< 8) |||
                   ((m &&& 0xff) % 256) }) := by
      rw [qoi_step_chunk out _ d hr (by omega)]
      exact qoi_chunk_run2 out d _ _ h0 h1 (by simp only [QOI_OP_RUN2]; omega)
    refine ⟨_, qoi_decode_reach_run_chunk out pl och hoch d _ m hst
      (by simp only [QOI_OP_RUN2]; exact t3) rfl rfl rfl hroom, ?_⟩
    simp only [hp, and_self, true_and]

/-- The decoder reads a `QOI_OP_INDEX` chunk as the pixel in the named slot. -/
theorem qoi_reach_index (out : List Nat) (pl och : Nat) (hlen : 4 ≤ out.length)
    (A : List Nat) (slot : Nat) (hslot : slot < 64) (d : qoi_decoder)
    (hp : d.p = A.length) (hr : d.run = 0)
    (hpre : A ++ [(QOI_OP_INDEX ||| slot) % 256] <+: out)
    (h4 : (A ++ [(QOI_OP_INDEX ||| slot) % 256]).length + 4 ≤ out.length)
    (hroom : d.px_pos < pl) :
    ∃ d1, qoi_decode_reach out (out.length - 4) pl och d d1 ∧
      d1.p = (A ++ [(QOI_OP_INDEX ||| slot) % 256]).length ∧ d1.run = 0 ∧
      d1.px = d.index.getD slot qoi_zero_px ∧ d1.index = d.index ∧
      d1.index_pos = d.index_pos ∧ d1.px_pos = d.px_pos + och ∧
      d1.pixels = d.pixels ++ qoi_px_bytes och (d.index.getD slot qoi_zero_px) := by
  obtain ⟨t1, t2, t3⟩ := index_bits slot hslot
  have h0 : out[d.p]? = some ((QOI_OP_INDEX ||| slot) % 256) := by
    have := prefix_get A _ out hpre 0 (by simp)
    rw [hp]; simpa using this
  simp only [List.length_append, List.length_cons, List.length_nil] at h4 ⊢
  have hst : qoi_decode_step out (out.length - 4) d = some (.emit
      { d with p := d.p + 1, tags := d.tags ++ [(QOI_OP_INDEX ||| slot) % 256],
               px := d.index.getD (((QOI_OP_INDEX ||| slot) % 256) &&& 63) qoi_zero_px }) := by
    rw [qoi_step_chunk out _ d hr (by omega)]
    exact qoi_chunk_index out d _ h0 (by simp only [QOI_OP_INDEX]; omega)
  refine ⟨_, qoi_decode_reach_emit out _ pl och d _ hroom hst, ?_⟩
  simp only [QOI_OP_INDEX] at t3 ⊢
  simp only [qoi_decode_write, qoi_px_bytes, hp, hr, t3, and_self, true_and, List.append_assoc]

/-- The decoder reads the bytes of the cascade as the encoded pixel, and inserts it. -/
theorem qoi_reach_diff (out : List Nat) (pl och : Nat) (hlen : 4 ≤ out.length)
    (A : List Nat) (px : qoi_rgba_t) (d : qoi_decoder)
    (hpx : qoi_px_ok px) (hdpx : qoi_px_ok d.px) (ha : d.px.a = px.a)
    (hp : d.p = A.length) (hr : d.run = 0)
    (hpre : A ++ qoi_encode_diff px d.px <+: out)
    (h4 : (A ++ qoi_encode_diff px d.px).length + 4 ≤ out.length)
    (hroom : d.px_pos < pl) :
    ∃ d1, qoi_decode_reach out (out.length - 4) pl och d d1 ∧
      d1.p = (A ++ qoi_encode_diff px d.px).length ∧ d1.run = 0 ∧
      d1.px = px ∧ d1.index = d.index.set (d.index_pos &&& 63) px ∧
      d1.index_pos = d.index_pos + 1 ∧ d1.px_pos = d.px_pos + och ∧
      d1.pixels = d.pixels ++ qoi_px_bytes och px := by
  rcases qoi_encode_diff_inv px d.px hpx hdpx ha with
    ⟨b1, he, t1, e1⟩ | ⟨b2, he, e1⟩ | ⟨b1, b2, he, t1, t2, e1⟩ |
    ⟨b1, b2, b3, he, t1, t2, e1⟩ | ⟨r, g, b, he, e1⟩
  · rw [he] at hpre h4 ⊢
    have h0 : out[d.p]? = some b1 := by
      have := prefix_get A _ out hpre 0 (by simp)
      rw [hp]; simpa using this
    simp only [List.length_append, List.length_cons, List.length_nil] at h4 ⊢
    have hst := qoi_chunk_luma out d b1 h0 t1
    rw [← qoi_step_chunk out (out.length - 4) d hr (by omega)] at hst
    refine ⟨_, qoi_decode_reach_emit out _ pl och d _ hroom hst, ?_⟩
    simp only [qoi_decode_write, qoi_decode_insert, qoi_px_bytes, hp, hr, e1, and_self, List.append_assoc,
      true_and]
  · rw [he] at hpre h4 ⊢
    have h0 : out[d.p]? = some QOI_OP_GRAY := by
      have := prefix_get A _ out hpre 0 (by simp)
      rw [hp]; simpa using this
    have h1 : out[d.p + 1]? = some b2 := by
      have := prefix_get A _ out hpre 1 (by simp)
      rw [hp]; simpa using this
    simp only [List.length_append, List.length_cons, List.length_nil] at h4 ⊢
    have hst := qoi_chunk_gray out d b2 h0 h1
    rw [← qoi_step_chunk out (out.length - 4) d hr (by omega)] at hst
    refine ⟨_, qoi_decode_reach_emit out _ pl och d _ hroom hst, ?_⟩
    simp only [qoi_decode_write, qoi_decode_insert, qoi_px_bytes, hp, hr, e1, and_self, List.append_assoc,
      true_and]
  · rw [he] at hpre h4 ⊢
    have h0 : out[d.p]? = some b1 := by
      have := prefix_get A _ out hpre 0 (by simp)
      rw [hp]; simpa using this
    have h1 : out[d.p + 1]? = some b2 := by
      have := prefix_get A _ out hpre 1 (by simp)
      rw [hp]; simpa using this
    simp only [List.length_append, List.length_cons, List.length_nil] at h4 ⊢
    have hst := qoi_chunk_luma2 out d b1 b2 h0 h1 ⟨t1, t2⟩
    rw [← qoi_step_chunk out (out.length - 4) d hr (by omega)] at hst
    refine ⟨_, qoi_decode_reach_emit out _ pl och d _ hroom hst, ?_⟩
    simp only [qoi_decode_write, qoi_decode_insert, qoi_px_bytes, hp, hr, e1, and_self, List.append_assoc,
      true_and]
  · rw [he] at hpre h4 ⊢
    have h0 : out[d.p]? = some b1 := by
      have := prefix_get A _ out hpre 0 (by simp)
      rw [hp]; simpa using this
    have h1 : out[d.p + 1]? = some b2 := by
      have := prefix_get A _ out hpre 1 (by simp)
      rw [hp]; simpa using this
    have h2 : out[d.p + 1 + 1]? = some b3 := by
      have := prefix_get A _ out hpre 2 (by simp)
      rw [hp]; simpa using this
    simp only [List.length_append, List.length_cons, List.length_nil] at h4 ⊢
    have hst := qoi_chunk_luma3 out d b1 b2 b3 h0 h1 h2 ⟨t1, t2⟩
    rw [← qoi_step_chunk out (out.length - 4) d hr (by omega)] at hst
    refine ⟨_, qoi_decode_reach_emit out _ pl och d _ hroom hst, ?_⟩
    simp only [qoi_decode_write, qoi_decode_insert, qoi_px_bytes, hp, hr, e1, and_self, List.append_assoc,
      true_and]
  · rw [he] at hpre h4 ⊢
    have h0 : out[d.p]? = some QOI_OP_RGB := by
      have := prefix_get A _ out hpre 0 (by simp)
      rw [hp]; simpa using this
    have h1 : out[d.p + 1]? = some r := by
      have := prefix_get A _ out hpre 1 (by simp)
      rw [hp]; simpa using this
    have h2 : out[d.p + 1 + 1]? = some g := by
      have := prefix_get A _ out hpre 2 (by simp)
      rw [hp]; simpa using this
    have h3 : out[d.p + 1 + 2]? = some b := by
      have := prefix_get A _ out hpre 3 (by simp)
      rw [hp]; simpa using this
    simp only [List.length_append, List.length_cons, List.length_nil] at h4 ⊢
    have hst := qoi_chunk_rgb out d r g b h0 h1 h2 h3
    rw [← qoi_step_chunk out (out.length - 4) d hr (by omega)] at hst
    refine ⟨_, qoi_decode_reach_emit out _ pl och d _ hroom hst, ?_⟩
    simp only [qoi_decode_write, qoi_decode_insert, qoi_px_bytes, hp, hr, e1, and_self, List.append_assoc,
      true_and]

/-- The decoder reads the alpha preamble and the cascade bytes as the encoded pixel. -/
theorem qoi_reach_alpha_diff (out : List Nat) (pl och : Nat) (hlen : 4 ≤ out.length)
    (A : List Nat) (px : qoi_rgba_t) (d : qoi_decoder)
    (hpx : qoi_px_ok px) (hdpx : qoi_px_ok d.px)
    (hp : d.p = A.length) (hr : d.run = 0)
    (hpre : A ++ qoi_encode_alpha px d.px ++ qoi_encode_diff px d.px <+: out)
    (h4 : (A ++ qoi_encode_alpha px d.px ++ qoi_encode_diff px d.px).length + 4 ≤ out.length)
    (hroom : d.px_pos < pl) :
    ∃ d1, qoi_decode_reach out (out.length - 4) pl och d d1 ∧
      d1.p = (A ++ qoi_encode_alpha px d.px ++ qoi_encode_diff px d.px).length ∧ d1.run = 0 ∧
      d1.px = px ∧ d1.index = d.index.set (d.index_pos &&& 63) px ∧
      d1.index_pos = d.index_pos + 1 ∧ d1.px_pos = d.px_pos + och ∧
      d1.pixels = d.pixels ++ qoi_px_bytes och px := by
  by_cases h : px.a = d.px.a
  · have hal : qoi_encode_alpha px d.px = [] := by simp [qoi_encode_alpha, h]
    rw [hal, List.append_nil] at hpre h4 ⊢
    exact qoi_reach_diff out pl och hlen A px d hpx hdpx h.symm hp hr hpre h4 hroom
  · have hal : qoi_encode_alpha px d.px = [QOI_OP_A, px.a] := by simp [qoi_encode_alpha, h]
    rw [hal] at hpre h4 ⊢
    have hpre0 : A ++ [QOI_OP_A, px.a] <+: out :=
      List.IsPrefix.trans (List.prefix_append _ _) hpre
    have h0 : out[d.p]? = some QOI_OP_A := by
      have := prefix_get A _ out hpre0 0 (by simp)
      rw [hp]; simpa using this
    have h1 : out[d.p + 1]? = some px.a := by
      have := prefix_get A _ out hpre0 1 (by simp)
      rw [hp]; simpa using this
    have hl4 := h4
    simp only [List.length_append, List.length_cons, List.length_nil] at hl4
    have hst := qoi_chunk_alpha out d px.a h0 h1
    rw [← qoi_step_chunk out (out.length - 4) d hr (by omega)] at hst
    have hag := qoi_decode_reach_again out _ pl och d _ hroom hst
    obtain ⟨d1, e1, e2, e3, e4, e5, e6, e7, e8⟩ := qoi_reach_diff out pl och hlen
      (A ++ [QOI_OP_A, px.a]) px
      { d with p := d.p + 1 + 1, tags := d.tags ++ [QOI_OP_A], px := { d.px with a := px.a } }
      hpx ⟨hdpx.1, hdpx.2.1, hdpx.2.2.1, hpx.2.2.2⟩ rfl
      (by simp [hp]) hr (by rw [qoi_encode_diff_alpha]; exact hpre)
      (by rw [qoi_encode_diff_alpha]; exact h4) hroom
    rw [qoi_encode_diff_alpha] at e2
    exact ⟨d1, qoi_decode_reach_trans _ _ _ _ _ _ _ hag e1, e2, e3, e4, e5, e6, e7, e8⟩

/-- The decoder follows the pending-run flush of the encoder. -/
theorem qoi_reach_flush (pixels : List Nat) (ch och n : Nat) (hoch : 0 < och)
    (k : Nat) (hk : k ≤ n) (s : qoi_encoder)
    (h5 : s.run ≤ k) (h6 : s.run < 1024)
    (h7 : ∀ j, j < s.run → qoi_pixel_at pixels ch (k - 1 - j) = s.px_prev)
    (out : List Nat) (hlen : 4 ≤ out.length) (d : qoi_decoder)
    (hs : qoi_sync pixels ch och k s d)
    (hpre : (qoi_encode_flush s).bytes <+: out)
    (h4 : (qoi_encode_flush s).bytes.length + 4 ≤ out.length) :
    ∃ d1, qoi_decode_reach out (out.length - 4) (n * och) och d d1 ∧
      d1.p = (qoi_encode_flush s).bytes.length ∧ d1.run = 0 ∧ d1.px = s.px_prev ∧
      d1.index = s.index ∧ d1.index_pos % 64 = s.index_pos ∧ d1.px_pos = k * och ∧
      d1.pixels = qoi_expected pixels ch och k := by
  obtain ⟨s1, s2, s3, s4, s5, s6, s7⟩ := hs
  have hchunk : ∀ c, qoi_run_chunk (s.run - 1) c → 0 < s.run →
      s.bytes ++ c <+: out → (s.bytes ++ c).length + 4 ≤ out.length →
      ∃ d1, qoi_decode_reach out (out.length - 4) (n * och) och d d1 ∧
      d1.p = (s.bytes ++ c).length ∧ d1.run = 0 ∧ d1.px = s.px_prev ∧
      d1.index = s.index ∧ d1.index_pos % 64 = s.index_pos ∧ d1.px_pos = k * och ∧
      d1.pixels = qoi_expected pixels ch och k := by
    intro c hc h0 hp1 hp2
    have hroom : d.px_pos + (s.run - 1 + 1) * och ≤ n * och := by
      rw [s6, Nat.sub_add_cancel h0, sub_mul_add_mul k s.run och h5]
      exact Nat.mul_le_mul_right _ hk
    obtain ⟨d1, e1, e2, e3, e4, e5, e6, e7, e8⟩ := qoi_reach_run out (n * och) och hlen hoch
      s.bytes c (s.run - 1) hc d s1 s2 hp1 hp2 hroom
    refine ⟨d1, e1, e2, e3, by rw [e4, s3], by rw [e5, s4], by rw [e6, s5], ?_, ?_⟩
    · rw [e7, s6, Nat.sub_add_cancel h0, sub_mul_add_mul k s.run och h5]
    · rw [e8, s7, s3, Nat.sub_add_cancel h0]
      exact (qoi_expected_run pixels ch och s.px_prev s.run k h5 h7).symm
  rcases qoi_encode_flush_eq s with ⟨h0, h⟩ | ⟨h0, h8, h⟩ | ⟨h0, h8, h⟩
  · rw [h]
    rw [h0, Nat.sub_zero] at s6 s7
    exact ⟨d, qoi_decode_reach_refl _ _ _ _ _, s1, s2, s3, s4, s5, s6, s7⟩
  · rw [h] at hpre h4 ⊢
    exact hchunk _ (Or.inl ⟨h8, rfl⟩) h0 hpre h4
  · rw [h] at hpre h4 ⊢
    exact hchunk _ (Or.inr ⟨by omega, rfl⟩) h0 hpre h4

/-- The decoder follows one iteration of the encoder. -/
theorem qoi_reach_step (pixels : List Nat) (ch och n : Nat) (hpix : ∀ b ∈ pixels, b < 256)
    (hoch : 0 < och) (k : Nat) (hk : k < n) (s : qoi_encoder)
    (he : qoi_enc_ok pixels ch n k s) (last : Bool)
    (out : List Nat) (hlen : 4 ≤ out.length) (d : qoi_decoder)
    (hs : qoi_sync pixels ch och k s d)
    (hpre : (qoi_encode_body (qoi_pixel_at pixels ch k) last
      { s with px := qoi_pixel_at pixels ch k }).bytes <+: out)
    (h4 : (qoi_encode_body (qoi_pixel_at pixels ch k) last
      { s with px := qoi_pixel_at pixels ch k }).bytes.length + 4 ≤ out.length) :
    ∃ d1, qoi_decode_reach out (out.length - 4) (n * och) och d d1 ∧
      qoi_sync pixels ch och (k + 1)
        (qoi_encode_body (qoi_pixel_at pixels ch k) last
          { s with px := qoi_pixel_at pixels ch k }) d1 := by
  obtain ⟨h1, h2, h3, h4', h5, h6, h7, h8⟩ := he
  have hpx := qoi_pixel_at_ok pixels ch k hpix
  have hk1 : (k + 1) * och ≤ n * och := Nat.mul_le_mul_right _ hk
  have hklt : k * och < n * och := Nat.mul_lt_mul_of_pos_right hk hoch
  unfold qoi_encode_body at hpre h4 ⊢
  simp only at hpre h4 ⊢
  by_cases c1 : (qoi_pixel_at pixels ch k).v = s.px_prev.v
  · have heq := qoi_v_inj _ _ hpx h3 c1
    rw [if_pos c1] at hpre h4 ⊢
    have hrun : ∀ j, j < s.run + 1 → qoi_pixel_at pixels ch (k + 1 - 1 - j) = s.px_prev := by
      intro j hj
      rcases Nat.eq_zero_or_pos j with rfl | hjp
      · exact heq
      · have := h7 (j - 1) (by omega)
        rw [show k - 1 - (j - 1) = k + 1 - 1 - j by omega] at this
        exact this
    by_cases c2 : s.run + 1 = 1024 ∨ last = true
    · rw [if_pos c2] at hpre h4 ⊢
      simp only [Nat.add_sub_cancel] at hpre h4 ⊢
      obtain ⟨s1, s2, s3, s4, s5, s6, s7⟩ := hs
      have hroom : d.px_pos + (s.run + 1) * och ≤ n * och := by
        rw [s6, Nat.add_mul, ← Nat.add_assoc, sub_mul_add_mul k s.run och h5, Nat.one_mul,
          ← Nat.succ_mul]
        exact hk1
      obtain ⟨d1, e1, e2, e3, e4, e5, e6, e7, e8⟩ := qoi_reach_run out (n * och) och hlen hoch
        s.bytes _ s.run (Or.inr ⟨h6, rfl⟩) d s1 s2 hpre h4 hroom
      refine ⟨d1, e1, e2, e3, by rw [e4, s3], by rw [e5, s4], by rw [e6, s5], ?_, ?_⟩
      · simp only [Nat.sub_zero]
        rw [e7, s6, Nat.add_mul, ← Nat.add_assoc, sub_mul_add_mul k s.run och h5, Nat.one_mul,
          ← Nat.succ_mul]
      · simp only [Nat.sub_zero]
        rw [e8, s7, s3]
        have := qoi_expected_run pixels ch och s.px_prev (s.run + 1) (k + 1) (by omega) hrun
        rw [show k + 1 - (s.run + 1) = k - s.run by omega] at this
        exact this.symm
    · rw [if_neg c2] at hpre h4 ⊢
      obtain ⟨s1, s2, s3, s4, s5, s6, s7⟩ := hs
      refine ⟨d, qoi_decode_reach_refl _ _ _ _ _, s1, s2, s3, s4, s5, ?_, ?_⟩
      · simp only [show k + 1 - (s.run + 1) = k - s.run by omega]; exact s6
      · simp only [show k + 1 - (s.run + 1) = k - s.run by omega]; exact s7
  · rw [if_neg c1] at hpre h4 ⊢
    have g1 := qoi_encode_flush_px_prev { s with px := qoi_pixel_at pixels ch k }
    have g2 := qoi_encode_flush_index { s with px := qoi_pixel_at pixels ch k }
    have g3 := qoi_encode_flush_index_lookup { s with px := qoi_pixel_at pixels ch k }
    have g4 := qoi_encode_flush_index_pos { s with px := qoi_pixel_at pixels ch k }
    have g5 := qoi_encode_flush_run { s with px := qoi_pixel_at pixels ch k }
    have hsim := qoi_reach_flush pixels ch och n hoch k
        (Nat.le_of_lt hk) { s with px := qoi_pixel_at pixels ch k } h5 h6 h7 out hlen d hs
    simp only at g1 g2 g3 g4 g5
    generalize qoi_encode_flush { s with px := qoi_pixel_at pixels ch k } = sf at *
    by_cases c3 : (sf.index.getD (sf.index_lookup.getD
        (QOI_COLOR_HASH (qoi_pixel_at pixels ch k)) 0) qoi_zero_px).v =
        (qoi_pixel_at pixels ch k).v
    · rw [if_pos c3] at hpre h4 ⊢
      simp only at hpre h4
      have hpre0 : sf.bytes <+: out := List.IsPrefix.trans (List.prefix_append _ _) hpre
      have h40 : sf.bytes.length + 4 ≤ out.length := by
        simp only [List.length_append] at h4; omega
      obtain ⟨df, f1, f2, f3, f4, f5, f6, f7, f8⟩ := hsim hpre0 h40
      have hent := qoi_v_inj _ _ (getD_px_ok sf.index
        (sf.index_lookup.getD (QOI_COLOR_HASH (qoi_pixel_at pixels ch k)) 0)
        (by rw [g2]; exact h4')) hpx c3
      obtain ⟨d1, e1, e2, e3, e4, e5, e6, e7, e8⟩ := qoi_reach_index out (n * och) och hlen
        sf.bytes _ (getD_lt_of_forall sf.index_lookup
          (QOI_COLOR_HASH (qoi_pixel_at pixels ch k)) (by rw [g3]; exact h1.2))
        df f2 f3 hpre h4 (by rw [f7]; exact hklt)
      rw [f5, ← g2, hent] at e4 e8
      refine ⟨d1, qoi_decode_reach_trans _ _ _ _ _ _ _ f1 e1, ?_⟩
      unfold qoi_sync
      simp only [g5, Nat.sub_zero]
      refine ⟨e2, e3, e4, by rw [e5, f5, g2], by rw [e6, f6, g4], ?_, ?_⟩
      · rw [e7, f7, Nat.succ_mul]
      · rw [e8, f8, qoi_expected_succ]
    · rw [if_neg c3] at hpre h4 ⊢
      simp only at hpre h4
      have hpre0 : sf.bytes <+: out := by
        rw [List.append_assoc] at hpre
        exact List.IsPrefix.trans (List.prefix_append _ _) hpre
      have h40 : sf.bytes.length + 4 ≤ out.length := by
        simp only [List.length_append] at h4; omega
      obtain ⟨df, f1, f2, f3, f4, f5, f6, f7, f8⟩ := hsim hpre0 h40
      rw [g1, ← f4] at hpre h4
      obtain ⟨d1, e1, e2, e3, e4, e5, e6, e7, e8⟩ := qoi_reach_alpha_diff out (n * och) och hlen
        sf.bytes (qoi_pixel_at pixels ch k) df hpx (by rw [f4]; exact h3) f2 f3 hpre h4
        (by rw [f7]; exact hklt)
      rw [f4, ← g1] at e2
      refine ⟨d1, qoi_decode_reach_trans _ _ _ _ _ _ _ f1 e1, ?_⟩
      unfold qoi_sync
      simp only [g5, Nat.sub_zero]
      have h63 : ∀ x : Nat, x &&& 63 = x % 64 := by
        intro x
        rw [show (63 : Nat) = 2 ^ 6 - 1 by norm_num, Nat.and_pow_two_sub_one_eq_mod]
      refine ⟨e2, e3, e4, ?_, ?_, ?_, ?_⟩
      · rw [e5, f5, g2, g4, h63, f6]
      · rw [e6, h63, g4]
        have hmod : ∀ a b : Nat, a % 64 = b → (a + 1) % 64 = (b + 1) % 64 := by
          intro a b h; omega
        exact hmod _ _ f6
      · rw [e7, f7, Nat.succ_mul]
      · rw [e8, f8, qoi_expected_succ]

/-! ## Encoder and decoder in step, pixel by pixel -/

theorem qoi_sim_reach_start (pixels : List Nat) (desc : qoi_desc) (och n : Nat) :
    qoi_sim_reach pixels desc.channels och n 0 (qoi_encode_start desc) := by
  refine ⟨(qoi_sim_start pixels desc och n).1, ?_⟩
  intro out _ _
  refine ⟨qoi_decode_start, qoi_decode_reach_refl _ _ _ _ _, ?_, rfl, rfl, rfl, rfl, ?_, rfl⟩
  · rw [qoi_encode_start_bytes]; rfl
  · show 0 = (0 - 0) * och
    simp

theorem qoi_sim_reach_step (pixels : List Nat) (ch och n : Nat)
    (hpix : ∀ b ∈ pixels, b < 256)
    (hch : 0 < ch) (hoch : 0 < och) (k : Nat) (s : qoi_encoder) (hk : k < n)
    (h : qoi_sim_reach pixels ch och n k s) :
    qoi_sim_reach pixels ch och n (k + 1)
      (qoi_encode_pixel pixels ch (n * ch - ch) (k * ch) s) := by
  obtain ⟨he, hd⟩ := h
  unfold qoi_encode_pixel
  simp only
  rw [qoi_encode_load_eq pixels ch k s.px he.2.1]
  have hlast := qoi_last_iff k n ch hch hk
  refine ⟨qoi_enc_ok_step pixels ch n hpix k s he _ hlast, ?_⟩
  intro out hpre h4
  obtain ⟨c1, c2, c3, hb, -⟩ := qoi_encode_body_bytes (qoi_pixel_at pixels ch k)
    (decide (k * ch = n * ch - ch)) { s with px := qoi_pixel_at pixels ch k } he.1
  simp only at hb
  have hpre0 : s.bytes <+: out := by
    rw [hb, List.append_assoc, List.append_assoc] at hpre
    exact List.IsPrefix.trans (List.prefix_append _ _) hpre
  have h40 : s.bytes.length + 4 ≤ out.length := by
    rw [hb] at h4
    simp only [List.length_append] at h4
    omega
  obtain ⟨d, hd1, hd2⟩ := hd out hpre0 h40
  obtain ⟨d1, g1, g2⟩ := qoi_reach_step pixels ch och n hpix hoch k hk s he _ out (by omega) d
    hd2 hpre h4
  exact ⟨d1, qoi_decode_reach_trans _ _ _ _ _ _ _ hd1 g1, g2⟩

/-- The pixel loop of `qoi_encode` on `fuel` units of fuel, from pixel `k`: when `fuel`
pixels remain, it does exactly `fuel` iterations. -/
theorem qoi_encode_loop_inv_fuel (pixels : List Nat) (ch px_end n : Nat) (hch : 0 < ch)
    (P : Nat → qoi_encoder → Prop)
    (hstep : ∀ k s, k < n → P k s → P (k + 1) (qoi_encode_pixel pixels ch px_end (k * ch) s)) :
    ∀ fuel k s, k + fuel ≤ n → P k s →
      P (k + fuel) (qoi_encode_loop pixels ch (n * ch) px_end fuel (k * ch) s) := by
  intro fuel
  induction fuel with
  | zero =>
    intro k s _ hP
    simpa [qoi_encode_loop] using hP
  | succ f ih =>
    intro k s hk hP
    have h1 : k * ch < n * ch := Nat.mul_lt_mul_of_pos_right (by omega) hch
    have h2 : k * ch + ch = (k + 1) * ch := by rw [Nat.add_mul, Nat.one_mul]
    simp only [qoi_encode_loop, h1, if_true, h2]
    rw [show k + (f + 1) = (k + 1) + f by omega]
    exact ih (k + 1) _ (by omega) (hstep k s (by omega) hP)

/-- An encoder iteration only appends to the output. -/
theorem qoi_encode_body_extends (px : qoi_rgba_t) (last : Bool) (s : qoi_encoder) :
    s.bytes <+: (qoi_encode_body px last s).bytes := by
  unfold qoi_encode_body
  simp only
  obtain ⟨c, hc, -⟩ := qoi_encode_flush_bytes s
  split_ifs
  · exact List.prefix_append _ _
  · exact List.prefix_refl _
  · show s.bytes <+: (qoi_encode_flush s).bytes ++ _
    rw [hc, List.append_assoc]
    exact List.prefix_append _ _
  · show s.bytes <+: (qoi_encode_flush s).bytes ++ _ ++ _
    rw [hc, List.append_assoc, List.append_assoc]
    exact List.prefix_append _ _

theorem qoi_encode_loop_extends (pixels : List Nat) (ch px_len px_end : Nat) :
    ∀ fuel pos s, s.bytes <+: (qoi_encode_loop pixels ch px_len px_end fuel pos s).bytes := by
  intro fuel
  induction fuel with
  | zero => intro pos s; exact List.prefix_refl _
  | succ f ih =>
    intro pos s
    unfold qoi_encode_loop
    split_ifs
    · exact List.IsPrefix.trans
        (qoi_encode_body_extends _ _ { s with px := qoi_encode_load pixels ch pos s.px })
        (ih _ _)
    · exact List.prefix_refl _

/-- What the loop of `qoi_encode` has written after `f` iterations stays at the head of
what it has written after more. -/
theorem qoi_encode_loop_fuel_extends (pixels : List Nat) (ch px_len px_end : Nat) :
    ∀ f g pos s, (qoi_encode_loop pixels ch px_len px_end f pos s).bytes <+:
      (qoi_encode_loop pixels ch px_len px_end (f + g) pos s).bytes := by
  intro f
  induction f with
  | zero =>
    intro g pos s
    rw [Nat.zero_add]
    exact qoi_encode_loop_extends pixels ch px_len px_end g pos s
  | succ f ih =>
    intro g pos s
    rw [show f + 1 + g = (f + g) + 1 by omega]
    unfold qoi_encode_loop
    split_ifs
    · exact ih g _ _
    · exact List.prefix_refl _

theorem qoi_encode_flush_bytes_px (s : qoi_encoder) (px : qoi_rgba_t) :
    (qoi_encode_flush { s with px := px }).bytes = (qoi_encode_flush s).bytes := by
  unfold qoi_encode_flush
  simp only
  split_ifs <;> rfl

/-- The loop body of `qoi_encode` on a pixel that differs from the previous one and hits
the index probe: after the chunk of a pending run, one `QOI_OP_INDEX` byte. -/
theorem qoi_encode_body_hit (px : qoi_rgba_t) (last : Bool) (s : qoi_encoder)
    (h : px.v ≠ s.px_prev.v)
    (hm : (s.index.getD (s.index_lookup.getD (QOI_COLOR_HASH px) 0) qoi_zero_px).v = px.v) :
    (qoi_encode_body px last s).bytes =
      (qoi_encode_flush s).bytes ++
        [(QOI_OP_INDEX ||| s.index_lookup.getD (QOI_COLOR_HASH px) 0) % 256] := by
  unfold qoi_encode_body
  rw [if_neg h]
  simp only [qoi_encode_flush_index, qoi_encode_flush_index_lookup]
  rw [if_pos hm]

/-- Claim C16 (encoder/decoder index agreement). For every valid image, every `k` up to the
number of pixels and three or four output channels: let `s` be the state of `qoi_encode`
after the first `k` iterations of its pixel loop. Then the loop of `qoi_decode`, run on the
complete encoding, comes after some number `j` of iterations to a state `d` that has
consumed exactly the bytes written for these `k` pixels (`d.p` is the encoder's cursor, no
run pending), and there the decoder's ring equals the encoder's ring, the decoder's
`index_pos` is the encoder's cursor modulo 64, and the decoder's `px` is the encoder's
`px_prev`. Consequently, when the next pixel differs from `px_prev` and the probe through
`index_lookup` hits, the `QOI_OP_INDEX` byte stored names a slot below 64 (read back by
the decoder's `b1 & 63`) that holds this very pixel in the decoder's ring. -/
theorem index_ring_agreement (pixels : List Nat) (desc : qoi_desc)
    (hw : 0 < desc.width) (hh : 0 < desc.height)
    (hc : desc.channels = 3 ∨ desc.channels = 4) (hs : desc.colorspace ≤ 1)
    (hcap : desc.height < 350000000 / desc.width)
    (hpix : ∀ b ∈ pixels, b < 256) (och : Nat) (hoch : och = 3 ∨ och = 4)
    (k : Nat) (hk : k ≤ desc.width * desc.height)
    (s : qoi_encoder)
    (hst : s = qoi_encode_loop pixels desc.channels
      (desc.width * desc.height * desc.channels)
      (desc.width * desc.height * desc.channels - desc.channels) k 0
      (qoi_encode_start desc)) :
    ∃ enc j d, qoi_encode pixels desc = some enc ∧
      qoi_decode_iter enc (enc.length - 4) (desc.width * desc.height * och) och j
        qoi_decode_start = some d ∧
      d.p = s.bytes.length ∧ d.run = 0 ∧
      d.index = s.index ∧ d.index_pos % 64 = s.index_pos ∧ d.px = s.px_prev ∧
      (k < desc.width * desc.height →
        (qoi_encode_load pixels desc.channels (k * desc.channels) s.px).v ≠ s.px_prev.v →
        (s.index.getD (s.index_lookup.getD (QOI_COLOR_HASH
            (qoi_encode_load pixels desc.channels (k * desc.channels) s.px)) 0)
          qoi_zero_px).v =
          (qoi_encode_load pixels desc.channels (k * desc.channels) s.px).v →
        (qoi_encode_pixel pixels desc.channels
            (desc.width * desc.height * desc.channels - desc.channels)
            (k * desc.channels) s).bytes =
          (qoi_encode_flush s).bytes ++
            [(QOI_OP_INDEX ||| s.index_lookup.getD (QOI_COLOR_HASH
              (qoi_encode_load pixels desc.channels (k * desc.channels) s.px)) 0) % 256] ∧
        s.index_lookup.getD (QOI_COLOR_HASH
          (qoi_encode_load pixels desc.channels (k * desc.channels) s.px)) 0 < 64 ∧
        ((QOI_OP_INDEX ||| s.index_lookup.getD (QOI_COLOR_HASH
          (qoi_encode_load pixels desc.channels (k * desc.channels) s.px)) 0) % 256) &&& 63 =
          s.index_lookup.getD (QOI_COLOR_HASH
            (qoi_encode_load pixels desc.channels (k * desc.channels) s.px)) 0 ∧
        d.index.getD (s.index_lookup.getD (QOI_COLOR_HASH
            (qoi_encode_load pixels desc.channels (k * desc.channels) s.px)) 0)
          qoi_zero_px =
          qoi_encode_load pixels desc.channels (k * desc.channels) s.px) := by
  obtain ⟨hrej, hsmall⟩ := qoi_desc_accepted desc hw hh hc hs hcap
  have hch : 0 < desc.channels := by omega
  have hoch0 : 0 < och := by omega
  have hlen : (desc.width * desc.height * desc.channels) % 2 ^ 32 =
      desc.width * desc.height * desc.channels := by
    apply Nat.mod_eq_of_lt
    rcases hc with hc | hc <;> rw [hc] <;> omega
  -- the invariant after `k` iterations
  have hinv := qoi_encode_loop_inv_fuel pixels desc.channels
    (desc.width * desc.height * desc.channels - desc.channels) (desc.width * desc.height) hch
    (qoi_sim_reach pixels desc.channels och (desc.width * desc.height))
    (fun i t hi h => qoi_sim_reach_step pixels desc.channels och _ hpix hch hoch0 i t hi h)
    k 0 (qoi_encode_start desc) (by omega) (qoi_sim_reach_start pixels desc och _)
  rw [Nat.zero_mul, Nat.zero_add, ← hst] at hinv
  obtain ⟨he, hd⟩ := hinv
  -- the complete encoding extends what is written after `k` iterations
  have henc : qoi_encode pixels desc = some
      ((qoi_encode_loop pixels desc.channels (desc.width * desc.height * desc.channels)
        (desc.width * desc.height * desc.channels - desc.channels)
        (desc.width * desc.height * desc.channels) 0 (qoi_encode_start desc)).bytes ++
        qoi_padding) := by
    unfold qoi_encode
    rw [hrej]
    simp only [hlen, Bool.false_eq_true, if_false]
  have hkn : k ≤ desc.width * desc.height * desc.channels :=
    Nat.le_trans hk (Nat.le_mul_of_pos_right _ hch)
  have hpre0 := qoi_encode_loop_fuel_extends pixels desc.channels
    (desc.width * desc.height * desc.channels)
    (desc.width * desc.height * desc.channels - desc.channels) k
    (desc.width * desc.height * desc.channels - k) 0 (qoi_encode_start desc)
  rw [Nat.add_sub_cancel' hkn, ← hst] at hpre0
  obtain ⟨S, hS⟩ : ∃ S, S = qoi_encode_loop pixels desc.channels
      (desc.width * desc.height * desc.channels)
      (desc.width * desc.height * desc.channels - desc.channels)
      (desc.width * desc.height * desc.channels) 0 (qoi_encode_start desc) := ⟨_, rfl⟩
  rw [← hS] at henc hpre0
  have hpre : s.bytes <+: S.bytes ++ qoi_padding :=
    List.IsPrefix.trans hpre0 (List.prefix_append _ _)
  have h4 : s.bytes.length + 4 ≤ (S.bytes ++ qoi_padding).length := by
    have := List.IsPrefix.length_le hpre0
    simp only [List.length_append, qoi_padding, List.length_cons, List.length_nil]
    omega
  obtain ⟨d, ⟨j, hj⟩, s1, s2, s3, s4, s5, -, -⟩ := hd (S.bytes ++ qoi_padding) hpre h4
  refine ⟨S.bytes ++ qoi_padding, j, d, henc, hj, s1, s2, s4, s5, s3, ?_⟩
  intro hklt hne hhit
  obtain ⟨h1, h2, h3, h4', -⟩ := he
  have hload := qoi_encode_load_eq pixels desc.channels k s.px h2
  have hpx := qoi_pixel_at_ok pixels desc.channels k hpix
  rw [hload] at hne hhit ⊢
  have hslot : s.index_lookup.getD (QOI_COLOR_HASH (qoi_pixel_at pixels desc.channels k)) 0 <
      64 := getD_lt_of_forall s.index_lookup _ h1.2
  refine ⟨?_, hslot, ?_, ?_⟩
  · unfold qoi_encode_pixel
    simp only
    rw [hload]
    have hb := qoi_encode_body_hit (qoi_pixel_at pixels desc.channels k)
      (decide (k * desc.channels = desc.width * desc.height * desc.channels - desc.channels))
      { s with px := qoi_pixel_at pixels desc.channels k } hne hhit
    rw [qoi_encode_flush_bytes_px] at hb
    exact hb
  · exact (index_bits _ hslot).2.2
  · rw [s4]
    exact qoi_v_inj _ _ (getD_px_ok s.index _ h4') hpx hhit

/-- The 2x2 image of two colours alternating, after its first two pixels: the third pixel
is in slot 0 of both rings. -/
theorem index_ring_agreement_witness :
    (2 ≤ (⟨2, 2, 3, 0⟩ : qoi_desc).width * (⟨2, 2, 3, 0⟩ : qoi_desc).height ∧
      (⟨2, 2, 3, 0⟩ : qoi_desc).height < 350000000 / (⟨2, 2, 3, 0⟩ : qoi_desc).width ∧
      ∀ b ∈ ([10, 20, 30, 200, 100, 50, 10, 20, 30, 200, 100, 50] : List Nat), b < 256) ∧
    ∃ enc j d,
      qoi_encode [10, 20, 30, 200, 100, 50, 10, 20, 30, 200, 100, 50] ⟨2, 2, 3, 0⟩ =
        some enc ∧
      qoi_decode_iter enc (enc.length - 4) (2 * 2 * 3) 3 j qoi_decode_start = some d ∧
      d.p = (qoi_encode_loop [10, 20, 30, 200, 100, 50, 10, 20, 30, 200, 100, 50] 3
        (2 * 2 * 3) (2 * 2 * 3 - 3) 2 0 (qoi_encode_start ⟨2, 2, 3, 0⟩)).bytes.length ∧
      d.run = 0 ∧
      d.index = (qoi_encode_loop [10, 20, 30, 200, 100, 50, 10, 20, 30, 200, 100, 50] 3
        (2 * 2 * 3) (2 * 2 * 3 - 3) 2 0 (qoi_encode_start ⟨2, 2, 3, 0⟩)).index ∧
      d.index_pos % 64 =
        (qoi_encode_loop [10, 20, 30, 200, 100, 50, 10, 20, 30, 200, 100, 50] 3
          (2 * 2 * 3) (2 * 2 * 3 - 3) 2 0 (qoi_encode_start ⟨2, 2, 3, 0⟩)).index_pos ∧
      d.px = (qoi_encode_loop [10, 20, 30, 200, 100, 50, 10, 20, 30, 200, 100, 50] 3
        (2 * 2 * 3) (2 * 2 * 3 - 3) 2 0 (qoi_encode_start ⟨2, 2, 3, 0⟩)).px_prev :=
  ⟨⟨by decide, by decide, by decide⟩,
    match index_ring_agreement [10, 20, 30, 200, 100, 50, 10, 20, 30, 200, 100, 50]
      ⟨2, 2, 3, 0⟩ (by decide) (by decide) (by decide) (by decide) (by decide) (by decide)
      3 (Or.inl rfl) 2 (by decide) _ rfl with
    | ⟨enc, j, d, h1, h2, h3, h4, h5, h6, h7, _⟩ => ⟨enc, j, d, h1, h2, h3, h4, h5, h6, h7⟩⟩

/-! ## Decoding the long run -/

/-- A state the loop of a successful `qoi_decode` call comes to with all pixels written is
the state the loop ends in. -/
theorem qoi_decode_final_of_iter (data : List Nat) (channels : Int) (desc : qoi_desc)
    (final d : qoi_decoder) (j : Nat)
    (hok : qoi_decode data channels = .ok desc final)
    (hj : qoi_decode_iter data (data.length - 4)
      ((desc.width * desc.height * qoi_out_channels channels desc.channels) % 2 ^ 32)
      (qoi_out_channels channels desc.channels) j qoi_decode_start = some d)
    (hend : ¬ d.px_pos <
      (desc.width * desc.height * qoi_out_channels channels desc.channels) % 2 ^ 32) :
    final = d := by
  obtain ⟨harg, h18, hrej, hloop⟩ := qoi_decode_ok_inv data channels desc final hok
  obtain ⟨-, hc⟩ := qoi_desc_products desc hrej
  have hoc : 0 < qoi_out_channels channels desc.channels := by
    unfold qoi_out_channels
    rcases harg with h0 | h0 | h0
    · rw [if_pos h0]; omega
    · rw [if_neg (by omega), h0]; decide
    · rw [if_neg (by omega), h0]; decide
  have hlen : data.length - 4 + 4 ≤ data.length := by omega
  obtain ⟨r, hr1, hr2⟩ := qoi_decode_loop_fuel data (data.length - 4) _ _ hlen hoc _
    qoi_decode_start (Nat.le_refl _)
  have e1 := hr2 _ (show qoi_decode_measure (data.length - 4)
      ((desc.width * desc.height * qoi_out_channels channels desc.channels) % 2 ^ 32)
      qoi_decode_start ≤
      (desc.width * desc.height * qoi_out_channels channels desc.channels) % 2 ^ 32 +
        data.length by unfold qoi_decode_measure qoi_decode_start; simp only; omega)
  have e2 := hr2 _ (Nat.le_add_right (qoi_decode_measure (data.length - 4)
      ((desc.width * desc.height * qoi_out_channels channels desc.channels) % 2 ^ 32)
      qoi_decode_start) j)
  rw [qoi_decode_loop_iter data _ _ _ j _ qoi_decode_start d hj,
    qoi_decode_loop_exit data _ _ _ d hend] at e2
  rw [hloop] at e1
  rw [← e2] at e1
  injection e1

/-- Claim C13 (scenario 3). For every 3-channel descriptor of 1025 pixels, the image of 1025
opaque red pixels encodes to the header, the chunk region `46 fb ff` and the padding: `46`
is the one-byte `QOI_OP_LUMA` chunk the cascade stores for the first pixel, and `fb ff` is
one `QOI_OP_RUN2` chunk (tag range `f8..fb`) whose 10-bit stored run value, as `qoi_decode`
reads it, is 1023. The chunk region has 3 bytes, fewer than 10, and `qoi_decode` dispatches
exactly these two chunks on it and returns the 1025 pixels. -/
theorem long_run_encoding (desc : qoi_desc) (hwh : desc.width * desc.height = 1025)
    (hc : desc.channels = 3) (hs : desc.colorspace ≤ 1) :
    qoi_encode (List.replicate 1025 [255, 0, 0]).flatten desc =
      some (qoi_header_bytes desc ++ [0x46, 0xfb, 0xff] ++ qoi_padding) ∧
    qoi_encode_diff ⟨255, 0, 0, 255⟩ qoi_start_px = [0x46] ∧ 0x46 < 0x80 ∧
    [(QOI_OP_RUN2 ||| ((1023 >>> 8) &&& 3)) % 256, (1023 &&& 0xff) % 256] = [0xfb, 0xff] ∧
    0xf8 ≤ 0xfb ∧ 0xfb < 0xfc ∧ ((0xfb &&& 3) <<< 8) ||| 0xff = 1023 ∧
    ([0x46, 0xfb, 0xff] : List Nat).length < 10 ∧
    ∃ final, qoi_decode (qoi_header_bytes desc ++ [0x46, 0xfb, 0xff] ++ qoi_padding) 0 =
        .ok desc final ∧
      final.tags = [0x46, 0xfb] ∧
      final.pixels = (List.replicate 1025 [255, 0, 0]).flatten := by
  refine ⟨qoi_encode_red_1025 desc hwh hc hs, by decide, by decide, by decide, by decide,
    by decide, by decide, by decide, ?_⟩
  obtain ⟨hw, hh, hcap⟩ := qoi_desc_1025 desc hwh
  have hpix : ∀ b ∈ (List.replicate 1025 [255, 0, 0]).flatten, b < 256 := by
    intro b hb
    rw [List.mem_flatten] at hb
    obtain ⟨l, hl, hbl⟩ := hb
    rw [List.eq_of_mem_replicate hl] at hbl
    simp at hbl
    omega
  obtain ⟨enc, final, h1, h2, -, -⟩ := qoi_decode_encode _ desc hw hh (Or.inl hc) hs hcap hpix
    0 (Or.inl rfl)
  rw [qoi_encode_red_1025 desc hwh hc hs] at h1
  have henc := (Option.some.inj h1).symm
  subst henc
  refine ⟨final, h2, ?_⟩
  -- the two iterations of the decoder loop that read a chunk, and the 1023 that do not
  have hpre : qoi_header_bytes desc ++ ([0x46, 0xfb, 0xff] ++ qoi_padding) <+:
      qoi_header_bytes desc ++ [0x46, 0xfb, 0xff] ++ qoi_padding := by
    rw [List.append_assoc]
  have hg : ∀ i, i < 7 →
      (qoi_header_bytes desc ++ [0x46, 0xfb, 0xff] ++ qoi_padding)[14 + i]? =
        ([0x46, 0xfb, 0xff] ++ qoi_padding)[i]? := fun i hi =>
    prefix_get (qoi_header_bytes desc) _ _ hpre i (by simpa [qoi_padding] using hi)
  have hl : (qoi_header_bytes desc ++ [0x46, 0xfb, 0xff] ++ qoi_padding).length - 4 = 17 := by
    simp [qoi_header_bytes, qoi_padding]
  have hoc : qoi_out_channels 0 desc.channels = 3 := by
    unfold qoi_out_channels; rw [if_pos rfl, hc]
  have hpl : (desc.width * desc.height * qoi_out_channels 0 desc.channels) % 2 ^ 32 =
      3075 := by
    rw [hoc, hwh]
    decide
  have hst1 : qoi_decode_step (qoi_header_bytes desc ++ [0x46, 0xfb, 0xff] ++ qoi_padding) 17
      qoi_decode_start = some (.emit (qoi_decode_insert
        { qoi_decode_start with p := 14 + 1, tags := [] ++ [0x46] }
        (qoi_luma qoi_start_px 0x46))) := by
    rw [qoi_step_chunk _ 17 qoi_decode_start rfl (by decide)]
    exact qoi_chunk_luma _ qoi_decode_start 0x46 (hg 0 (by decide)) (by decide)
  have hst2 : qoi_decode_step (qoi_header_bytes desc ++ [0x46, 0xfb, 0xff] ++ qoi_padding) 17
      (qoi_decode_write 3 (qoi_decode_insert
        { qoi_decode_start with p := 14 + 1, tags := [] ++ [0x46] }
        (qoi_luma qoi_start_px 0x46))) = some (.emit
        { qoi_decode_write 3 (qoi_decode_insert
            { qoi_decode_start with p := 14 + 1, tags := [] ++ [0x46] }
            (qoi_luma qoi_start_px 0x46)) with
          p := 14 + 1 + 1 + 1, tags := [] ++ [0x46] ++ [0xfb],
          run := ((0xfb &&& 3) <<< 8) ||| 0xff }) := by
    rw [qoi_step_chunk _ 17 _ rfl (by decide)]
    exact qoi_chunk_run2 _ _ 0xfb 0xff (hg 1 (by decide)) (hg 2 (by decide)) (by decide)
  have hrun := qoi_decode_iter_run_chunk
    (qoi_header_bytes desc ++ [0x46, 0xfb, 0xff] ++ qoi_padding) 17 3075 3 (by decide)
    _ _ 1023 hst2 (by decide) rfl rfl rfl 1024 (by decide) (by decide) (by decide)
  have hiter := qoi_decode_iter_emit
    (qoi_header_bytes desc ++ [0x46, 0xfb, 0xff] ++ qoi_padding) 17 3075 3 1024
    qoi_decode_start _ (by decide) hst1
  rw [hrun] at hiter
  have hfin := qoi_decode_final_of_iter _ 0 desc final _ (1024 + 1) h2
    (by rw [hl, hpl, hoc]; exact hiter) (by rw [hpl]; decide)
  rw [hfin]
  refine ⟨rfl, ?_⟩
  have hbytes : qoi_px_bytes 3 (qoi_luma qoi_start_px 0x46) = [255, 0, 0] := by decide
  show [] ++ [(qoi_luma qoi_start_px 0x46).r, (qoi_luma qoi_start_px 0x46).g,
    (qoi_luma qoi_start_px 0x46).b] ++ (if (3 : Nat) = 4 then
      [(qoi_luma qoi_start_px 0x46).a] else []) ++
    (List.replicate 1024 (qoi_px_bytes 3 (qoi_luma qoi_start_px 0x46))).flatten = _
  rw [hbytes, List.replicate_succ, List.flatten_cons]
  rfl

/-- The 1025x1 image of opaque red pixels. -/
theorem long_run_encoding_witness :
    (⟨1025, 1, 3, 0⟩ : qoi_desc).width * (⟨1025, 1, 3, 0⟩ : qoi_desc).height = 1025 ∧
    qoi_encode (List.replicate 1025 [255, 0, 0]).flatten ⟨1025, 1, 3, 0⟩ =
      some (qoi_header_bytes ⟨1025, 1, 3, 0⟩ ++ [0x46, 0xfb, 0xff] ++ qoi_padding) :=
  ⟨by decide, (long_run_encoding ⟨1025, 1, 3, 0⟩ (by decide) (by decide) (by decide)).1⟩

/-! ## The colour hash -/

/-- The hash is bits 22 to 31 of the product, whatever the width (at least 32 bits) the
product is wrapped to. -/
theorem qoi_hash_bits (p w : Nat) (hw : 32 ≤ w) :
    ((p % 2 ^ w) >>> 22) &&& 1023 = p / 2 ^ 22 % 1024 := by
  rw [Nat.shiftRight_eq_div_pow, show (1023 : Nat) = 2 ^ 10 - 1 by norm_num,
    Nat.and_pow_two_sub_one_eq_mod]
  obtain ⟨e, rfl⟩ : ∃ e, w = 32 + e := ⟨w - 32, by omega⟩
  have h1 : p % 2 ^ (32 + e) % 2 ^ 32 = p % 2 ^ 32 :=
    Nat.mod_mod_of_dvd _ (Nat.pow_dvd_pow 2 (by omega))
  have h2 : ∀ q : Nat, q / 2 ^ 22 % 2 ^ 10 = q % 2 ^ 32 / 2 ^ 22 := by
    intro q
    norm_num
    omega
  rw [h2 (p % 2 ^ (32 + e)), h1, ← h2 p]
  norm_num

/-- Bits 22 to 31 of a product read as a wrapping signed 64-bit value and shifted
arithmetically are those of the product itself. -/
theorem qoi_hash_signed (p : Nat) :
    (((((p : Int) + 2 ^ 63) % 2 ^ 64 - 2 ^ 63) / 2 ^ 22) % 1024).toNat = p / 2 ^ 22 % 1024 := by
  have e1 : ((p : Int) + 2 ^ 63) % 2 ^ 64 - 2 ^ 63 =
      (p : Int) - 2 ^ 64 * (((p : Int) + 2 ^ 63) / 2 ^ 64) := by
    rw [Int.emod_def]; ring
  generalize ((p : Int) + 2 ^ 63) / 2 ^ 64 = g at e1
  rw [e1]
  have e2 : ((p : Int) - 2 ^ 64 * g) / 2 ^ 22 = (p : Int) / 2 ^ 22 - 2 ^ 42 * g := by
    norm_num
    omega
  rw [e2]
  have e3 : ((p : Int) / 2 ^ 22 - 2 ^ 42 * g) % 1024 = (p : Int) / 2 ^ 22 % 1024 := by
    norm_num
    omega
  rw [e3]
  norm_num
  omega

theorem QOI_COLOR_HASH_lt (c : qoi_rgba_t) : QOI_COLOR_HASH c < 1024 := by
  unfold QOI_COLOR_HASH
  have := @Nat.and_le_right ((c.v * 2654435769 % 2 ^ 64) >>> 22) 1023
  omega

/-- The word `v` of a pixel whose components are bytes. -/
theorem qoi_v_word (c : qoi_rgba_t) (hc : qoi_px_ok c) :
    c.v = c.r ||| (c.g <<< 8) ||| (c.b <<< 16) ||| (c.a <<< 24) ∧ c.v < 2 ^ 32 := by
  obtain ⟨hr, hg, hb, ha⟩ := hc
  have e := be32_join c.a c.b c.g c.r hb hg hr
  have e2 : c.r ||| (c.g <<< 8) ||| (c.b <<< 16) ||| (c.a <<< 24) =
      (c.a <<< 24) ||| (c.b <<< 16) ||| (c.g <<< 8) ||| c.r := by
    rw [Nat.lor_comm (c.r ||| (c.g <<< 8) ||| (c.b <<< 16)), Nat.lor_comm (c.r ||| (c.g <<< 8)),
      Nat.lor_comm c.r, ← Nat.lor_assoc, ← Nat.lor_assoc]
  unfold qoi_rgba_t.v
  rw [e2, e]
  constructor
  · norm_num; omega
  · norm_num; omega

/-- Claim C21 (colour hash). For every pixel whose components are bytes, the word `v` is
`r | g<<8 | b<<16 | a<<24`, below `2^32`, and `QOI_COLOR_HASH` (in the embedding: the product
wrapped to 64 bits, shifted right by 22 and masked with 1023) is below 1024 and is the same
value whether the product is not wrapped at all, wrapped to 32 bits first, or taken as the
wrapping signed 64-bit product of C (`2654435769` does not fit an `int`) with an arithmetic
shift: in every case bits 22 to 31 of the product. The hash of the all-zero pixel is 0. -/
theorem color_hash_width_independent (c : qoi_rgba_t) (hc : qoi_px_ok c) :
    (c.v = c.r ||| (c.g <<< 8) ||| (c.b <<< 16) ||| (c.a <<< 24) ∧ c.v < 2 ^ 32) ∧
    QOI_COLOR_HASH c < 1024 ∧
    QOI_COLOR_HASH c = ((c.v * 2654435769) >>> 22) &&& 1023 ∧
    QOI_COLOR_HASH c = (((c.v * 2654435769) % 2 ^ 32) >>> 22) &&& 1023 ∧
    QOI_COLOR_HASH c =
      (((((c.v : Int) * 2654435769 + 2 ^ 63) % 2 ^ 64 - 2 ^ 63) / 2 ^ 22) % 1024).toNat ∧
    QOI_COLOR_HASH c = c.v * 2654435769 / 2 ^ 22 % 1024 ∧
    (2 ^ 31 ≤ 2654435769 ∧ 2654435769 < 2 ^ 32) ∧
    QOI_COLOR_HASH qoi_zero_px = 0 := by
  have h64 : QOI_COLOR_HASH c = c.v * 2654435769 / 2 ^ 22 % 1024 :=
    qoi_hash_bits _ 64 (by decide)
  have h32 := qoi_hash_bits (c.v * 2654435769) 32 (Nat.le_refl _)
  have hex : ((c.v * 2654435769) >>> 22) &&& 1023 = c.v * 2654435769 / 2 ^ 22 % 1024 := by
    rw [Nat.shiftRight_eq_div_pow, show (1023 : Nat) = 2 ^ 10 - 1 by norm_num,
      Nat.and_pow_two_sub_one_eq_mod]
  refine ⟨qoi_v_word c hc, QOI_COLOR_HASH_lt c, by rw [h64, hex], by rw [h64, h32], ?_, h64,
    by decide, by decide⟩
  rw [h64, ← qoi_hash_signed (c.v * 2654435769)]
  push_cast
  rfl

/-- The hash of the opaque red pixel (255, 0, 0, 255), whose 64-bit product exceeds `2^63`. -/
theorem color_hash_width_independent_witness :
    qoi_px_ok ⟨255, 0, 0, 255⟩ ∧
    2 ^ 63 ≤ (⟨255, 0, 0, 255⟩ : qoi_rgba_t).v * 2654435769 ∧
    QOI_COLOR_HASH ⟨255, 0, 0, 255⟩ =
      ((((⟨255, 0, 0, 255⟩ : qoi_rgba_t).v * 2654435769) % 2 ^ 32) >>> 22) &&& 1023 ∧
    QOI_COLOR_HASH ⟨255, 0, 0, 255⟩ = 897 :=
  ⟨⟨by decide, by decide, by decide, by decide⟩, by decide,
    (color_hash_width_independent ⟨255, 0, 0, 255⟩
      ⟨by decide, by decide, by decide, by decide⟩).2.2.2.1, by decide⟩

/-! ## Table accesses -/

/-- An encoder iteration keeps the sizes of the two tables. -/
theorem qoi_encode_body_sizes (px : qoi_rgba_t) (last : Bool) (s : qoi_encoder) :
    (qoi_encode_body px last s).index_lookup.length = s.index_lookup.length ∧
    (qoi_encode_body px last s).index.length = s.index.length := by
  unfold qoi_encode_body
  simp only
  split_ifs
  · exact ⟨rfl, rfl⟩
  · exact ⟨rfl, rfl⟩
  · exact ⟨by simp, by simp⟩
  · exact ⟨by simp, by simp⟩

/-- The sizes of the tables and the bounds on the cursor and on the entries of
`index_lookup` hold in every state of the pixel loop of `qoi_encode`. -/
theorem qoi_encode_loop_tables (pixels : List Nat) (ch px_len px_end : Nat) :
    ∀ fuel pos s,
      s.index_lookup.length = 1024 ∧ s.index.length = 64 ∧ qoi_encoder_tables_ok s →
      (qoi_encode_loop pixels ch px_len px_end fuel pos s).index_lookup.length = 1024 ∧
      (qoi_encode_loop pixels ch px_len px_end fuel pos s).index.length = 64 ∧
      qoi_encoder_tables_ok (qoi_encode_loop pixels ch px_len px_end fuel pos s) := by
  intro fuel
  induction fuel with
  | zero => intro pos s h; exact h
  | succ f ih =>
    intro pos s h
    unfold qoi_encode_loop
    split_ifs
    · apply ih
      obtain ⟨h1, h2, h3⟩ := h
      obtain ⟨e1, e2⟩ := qoi_encode_body_sizes (qoi_encode_load pixels ch pos s.px)
        (decide (pos = px_end)) { s with px := qoi_encode_load pixels ch pos s.px }
      exact ⟨e1.trans h1, e2.trans h2,
        qoi_encode_body_tables _ _ { s with px := qoi_encode_load pixels ch pos s.px } h3⟩
    · exact h

theorem qoi_encode_start_tables (desc : qoi_desc) :
    (qoi_encode_start desc).index_lookup.length = 1024 ∧
    (qoi_encode_start desc).index.length = 64 ∧
    qoi_encoder_tables_ok (qoi_encode_start desc) :=
  ⟨List.length_replicate _ _, List.length_replicate _ _, (qoi_encode_inv_start desc).1⟩

/-- A decoder iteration keeps the size of the ring. -/
theorem qoi_decode_step_ring_length (bytes : List Nat) (cl : Nat) (s : qoi_decoder)
    (fl : qoi_flow) (h : qoi_decode_step bytes cl s = some fl) :
    fl.state.index.length = s.index.length := by
  unfold qoi_decode_step at h
  split_ifs at h with h1 h2
  · cases h; rfl
  · rcases qoi_decode_chunk_ring bytes s fl h with hr | ⟨px, hr⟩
    · rw [hr]
    · rw [hr, List.length_set]
  · cases h; rfl

theorem qoi_decode_iter_ring_length (bytes : List Nat) (cl pl ch : Nat) :
    ∀ (j : Nat) (s d : qoi_decoder),
      qoi_decode_iter bytes cl pl ch j s = some d → d.index.length = s.index.length := by
  intro j
  induction j with
  | zero =>
    intro s d h
    simp only [qoi_decode_iter, Option.some.injEq] at h
    rw [← h]
  | succ j ih =>
    intro s d h
    rw [qoi_decode_iter_succ] at h
    by_cases h0 : s.px_pos < pl
    · rw [if_pos h0] at h
      cases hst : qoi_decode_step bytes cl s with
      | none => rw [hst] at h; cases h
      | some fl =>
        rw [hst] at h
        have hfl := qoi_decode_step_ring_length bytes cl s fl hst
        cases fl with
        | emit s1 => exact (ih (qoi_decode_write ch s1) d h).trans hfl
        | again s1 => exact (ih s1 d h).trans hfl
        | stop s1 => cases h
    · rw [if_neg h0] at h; cases h

/-- Claim C22 (table accesses in bounds). Let `s` be a state of the pixel loop of
`qoi_encode`, after any number of iterations. Then `index_lookup` has its 1024 entries, all
below 64, `index` has its 64 slots, and `index_pos < 64`; so for every pixel the hash is a
subscript within `index_lookup`, the entry found there is a subscript within `index`, the
cursor is a subscript within `index` and is stored into the `unsigned char` entry
unchanged, and on a probe hit the byte appended, `QOI_OP_INDEX | index_lookup[hash]`, lies
in `80..bf`. In every state of the loop of `qoi_decode` the ring has its 64 slots, and the
subscripts `index_pos & 63` and `b1 & 63` are below 64. -/
theorem table_accesses_in_bounds (pixels : List Nat) (desc : qoi_desc)
    (ch px_len px_end fuel : Nat) (s : qoi_encoder)
    (hs : s = qoi_encode_loop pixels ch px_len px_end fuel 0 (qoi_encode_start desc)) :
    (s.index_lookup.length = 1024 ∧ s.index.length = 64 ∧ s.index_pos < 64 ∧
      ∀ x ∈ s.index_lookup, x < 64) ∧
    (∀ px : qoi_rgba_t,
      QOI_COLOR_HASH px < s.index_lookup.length ∧
      s.index_lookup.getD (QOI_COLOR_HASH px) 0 < s.index.length ∧
      s.index_pos < s.index.length ∧
      s.index_pos % 256 = s.index_pos ∧
      (s.index_pos + 1) &&& 63 < 64 ∧
      ∀ last : Bool, px.v ≠ s.px_prev.v →
        (s.index.getD (s.index_lookup.getD (QOI_COLOR_HASH px) 0) qoi_zero_px).v = px.v →
        (qoi_encode_body px last s).bytes =
          (qoi_encode_flush s).bytes ++
            [(QOI_OP_INDEX ||| s.index_lookup.getD (QOI_COLOR_HASH px) 0) % 256] ∧
        0x80 ≤ (QOI_OP_INDEX ||| s.index_lookup.getD (QOI_COLOR_HASH px) 0) % 256 ∧
        (QOI_OP_INDEX ||| s.index_lookup.getD (QOI_COLOR_HASH px) 0) % 256 ≤ 0xbf) ∧
    (∀ (data : List Nat) (cl pl och j : Nat) (d : qoi_decoder),
      qoi_decode_iter data cl pl och j qoi_decode_start = some d →
        d.index.length = 64 ∧ d.index_pos &&& 63 < d.index.length ∧
        ∀ b1 : Nat, b1 &&& 63 < d.index.length) := by
  obtain ⟨h1, h2, h3, h4⟩ := qoi_encode_loop_tables pixels ch px_len px_end fuel 0
    (qoi_encode_start desc) (qoi_encode_start_tables desc)
  rw [← hs] at h1 h2 h3 h4
  refine ⟨⟨h1, h2, h3, h4⟩, ?_, ?_⟩
  · intro px
    have hslot := getD_lt_of_forall s.index_lookup (QOI_COLOR_HASH px) h4
    have hb := index_bits _ hslot
    refine ⟨by rw [h1]; exact QOI_COLOR_HASH_lt px, by rw [h2]; exact hslot,
      by rw [h2]; exact h3, Nat.mod_eq_of_lt (by omega), and_63_lt _, ?_⟩
    intro last hne hhit
    refine ⟨qoi_encode_body_hit px last s hne hhit, ?_, ?_⟩
    · simp only [QOI_OP_INDEX]; exact hb.1
    · simp only [QOI_OP_INDEX]; have := hb.2.1; omega
  · intro data cl pl och j d hj
    have hl : d.index.length = 64 :=
      (qoi_decode_iter_ring_length data cl pl och j _ d hj).trans (List.length_replicate _ _)
    exact ⟨hl, by rw [hl]; exact and_63_lt _, fun b1 => by rw [hl]; exact and_63_lt _⟩

/-- The 2x2 image of two colours alternating, after three of its pixels. -/
theorem table_accesses_in_bounds_witness :
    (qoi_encode_loop [10, 20, 30, 200, 100, 50, 10, 20, 30, 200, 100, 50] 3 12 9 3 0
        (qoi_encode_start ⟨2, 2, 3, 0⟩)).index_lookup.length = 1024 ∧
    (qoi_encode_loop [10, 20, 30, 200, 100, 50, 10, 20, 30, 200, 100, 50] 3 12 9 3 0
        (qoi_encode_start ⟨2, 2, 3, 0⟩)).index.length = 64 ∧
    (qoi_encode_loop [10, 20, 30, 200, 100, 50, 10, 20, 30, 200, 100, 50] 3 12 9 3 0
        (qoi_encode_start ⟨2, 2, 3, 0⟩)).index_pos < 64 ∧
    ∀ x ∈ (qoi_encode_loop [10, 20, 30, 200, 100, 50, 10, 20, 30, 200, 100, 50] 3 12 9 3 0
        (qoi_encode_start ⟨2, 2, 3, 0⟩)).index_lookup, x < 64 :=
  (table_accesses_in_bounds [10, 20, 30, 200, 100, 50, 10, 20, 30, 200, 100, 50] ⟨2, 2, 3, 0⟩
    3 12 9 3 _ rfl).1

end QOI
